import Mathlib

/-!
# Verification of the pygbm tree grower (`pygbm/grower.py`)

This file gives a shallow embedding of the `TreeNode` / `TreeGrower` classes
of `pygbm/grower.py` and proves properties of the growing algorithm.

Modelling conventions:
* Python floats are modelled as rationals (`ℚ`); the claims under study are
  about control flow and exact formulas, not rounding.
* Python's mutable object heap is modelled as an arena: a `List TreeNode`
  indexed by natural numbers; object references become arena indices.
  The root is index 0 and children are appended at the end, mirroring the
  allocation order of the source.
* Exceptions are modelled with `Except PyError`.
* `heapq.heappush` / `heapq.heappop` (Python standard library) are embedded
  by a direct translation of CPython's `heapq` algorithms (`_siftdown`,
  `_siftup`), parameterised by the boolean comparison used for the elements.
* The `HistogramSplitter` class lives in `pygbm/splitting.py`, which is not
  part of the sources under study; the grower only consumes its interface
  (`find_node_split`, `split_indices`, and the stored configuration), so the
  splitter is modelled as an oracle structure carrying those functions.
-/

namespace Pygbm

/-- The numpy dtypes relevant to the grower's validation code. -/
inductive DType
  | uint8
  | uint32
  | float32
  | float64
deriving DecidableEq, Repr

/-- The Python exception kinds raised by `grower.py`.  `attributeError` is a
model artifact for the (unreachable in the grower) access of a field of a
`None` split info. -/
inductive PyError
  | notImplementedError (msg : String)
  | valueError (msg : String)
  | stopIteration (msg : String)
  | attributeError (msg : String)
deriving DecidableEq, Repr

/-- Result of a split evaluation, as consumed by the grower
(`SplitInfo` of `pygbm/splitting.py`, fields per the spec's data model). -/
structure SplitInfo where
  gain : ℚ
  feature_idx : ℕ
  bin_idx : ℕ
  gradient_left : ℚ
  gradient_right : ℚ
  hessian_left : ℚ
  hessian_right : ℚ
deriving DecidableEq, Repr

/-- One tree vertex (class `TreeNode` of `grower.py`).  The class-level
defaults `split_info = left_child = right_child = weight = None` become
`Option` fields defaulting to `none`; child links are arena indices. -/
structure TreeNode where
  depth : ℕ
  sample_indices : List ℕ
  sum_gradients : ℚ
  sum_hessians : ℚ
  split_info : Option SplitInfo := none
  left_child : Option ℕ := none
  right_child : Option ℕ := none
  weight : Option ℚ := none
deriving DecidableEq, Repr

instance : Inhabited TreeNode :=
  ⟨{ depth := 0, sample_indices := [], sum_gradients := 0, sum_hessians := 0 }⟩

/-- `TreeNode.__lt__`: raises `ValueError` when either side has no evaluated
`split_info`, otherwise answers `self.split_info.gain > other.split_info.gain`. -/
def TreeNode.lt (self other_node : TreeNode) : Except PyError Bool :=
  match self.split_info, other_node.split_info with
  | some sa, some sb => .ok (decide (sb.gain < sa.gain))
  | _, _ => .error (.valueError "Cannot compare nodes with split_info")

/-- The gain a node contributes to the priority-queue ordering (`0` as a
default for the—in the grower unreachable—case of a missing `split_info`). -/
def gainKey (nodes : List TreeNode) (i : ℕ) : ℚ :=
  match (nodes.getD i default).split_info with
  | some si => si.gain
  | none => 0

/-- The boolean form of `TreeNode.__lt__` on arena indices, as used by the
heap operations inside the grower (where every queued node has its
`split_info` set, so the comparison never raises). -/
def ltIdx (nodes : List TreeNode) (a b : ℕ) : Bool :=
  decide (gainKey nodes b < gainKey nodes a)

/-! ## CPython's `heapq` (standard library), translated

`heappush`/`heappop` from CPython's `Lib/heapq.py`, over `List ℕ` and an
explicit boolean comparison `lt` (Python uses the elements' `__lt__`). -/

/-- CPython `heapq._siftdown(heap, startpos, pos)` after reading
`newitem = heap[pos]`: bubble `newitem` up towards `startpos`, moving each
larger parent down one level.  The fuel argument only bounds the loop; the
position strictly decreases at each iteration, so fuel `pos` (as passed by
`siftdown`) always suffices and the base case is never reached. -/
def siftdownAux (lt : ℕ → ℕ → Bool) (startpos newitem : ℕ) :
    ℕ → List ℕ → ℕ → List ℕ
  | 0, heap, pos => heap.set pos newitem
  | fuel + 1, heap, pos =>
    if startpos < pos then
      if lt newitem (heap.getD ((pos - 1) / 2) 0) then
        siftdownAux lt startpos newitem fuel
          (heap.set pos (heap.getD ((pos - 1) / 2) 0)) ((pos - 1) / 2)
      else
        heap.set pos newitem
    else
      heap.set pos newitem

/-- CPython `heapq._siftdown(heap, startpos, pos)`. -/
def siftdown (lt : ℕ → ℕ → Bool) (heap : List ℕ) (startpos pos : ℕ) : List ℕ :=
  siftdownAux lt startpos (heap.getD pos 0) pos heap pos

/-- The `childpos` selected by one iteration of CPython's `_siftup` loop:
the right child when it exists and the left child is not smaller, the left
child otherwise. -/
def siftupChild (lt : ℕ → ℕ → Bool) (heap : List ℕ) (pos : ℕ) : ℕ :=
  if 2 * pos + 2 < heap.length ∧
      ¬ lt (heap.getD (2 * pos + 1) 0) (heap.getD (2 * pos + 2) 0) = true then
    2 * pos + 2
  else
    2 * pos + 1

/-- CPython `heapq._siftup(heap, pos)` after reading `newitem = heap[pos]`:
move the hole at `pos` down to a leaf (pulling the smaller child up each
step), then place `newitem` there and sift it back up towards `startpos`.
The fuel only bounds the loop; the position strictly increases below
`heap.length` at each iteration, so fuel `heap.length` (as passed by
`siftup`) always suffices and the base case is never reached. -/
def siftupAux (lt : ℕ → ℕ → Bool) (startpos newitem : ℕ) :
    ℕ → List ℕ → ℕ → List ℕ
  | 0, heap, pos => heap.set pos newitem
  | fuel + 1, heap, pos =>
    if 2 * pos + 1 < heap.length then
      siftupAux lt startpos newitem fuel
        (heap.set pos (heap.getD (siftupChild lt heap pos) 0))
        (siftupChild lt heap pos)
    else
      siftdownAux lt startpos newitem pos (heap.set pos newitem) pos

/-- CPython `heapq._siftup(heap, pos)`. -/
def siftup (lt : ℕ → ℕ → Bool) (heap : List ℕ) (pos : ℕ) : List ℕ :=
  siftupAux lt pos (heap.getD pos 0) heap.length heap pos

/-- CPython `heapq.heappush(heap, item)`. -/
def heappush (lt : ℕ → ℕ → Bool) (heap : List ℕ) (item : ℕ) : List ℕ :=
  siftdown lt (heap ++ [item]) 0 heap.length

/-- CPython `heapq.heappop(heap)`: pop and return the smallest item
(under `lt`), `none` on an empty heap (CPython raises `IndexError` there;
the grower guards the call, so the `Option` never matters). -/
def heappop (lt : ℕ → ℕ → Bool) (heap : List ℕ) : Option (ℕ × List ℕ) :=
  match heap.getLast? with
  | none => none
  | some lastelt =>
    let rest := heap.dropLast
    if rest.isEmpty then
      some (lastelt, rest)
    else
      some (rest.getD 0 0, siftup lt (rest.set 0 lastelt) 0)

/-! ## The grower's collaborators -/

/-- The slice of a numpy `ndarray` the grower's own code observes:
dtype, shape, and the Fortran-contiguity flag. -/
structure FeatureMatrix where
  dtype : DType
  n_samples : ℕ
  n_features : ℕ
  f_contiguous : Bool
deriving DecidableEq, Repr

/-- Modelled from the spec: `HistogramSplitter` lives in
`pygbm/splitting.py`, which is absent from the sources under study.  Only
the interface the grower consumes is modelled: the stored configuration and
input arrays (read back by the grower for the root sums and the leaf-weight
denominator), plus the two methods `find_node_split` (spec §4.2: returns the
best split descriptor of a sample-index set) and `split_indices` (spec §4.3:
partitions a sample-index set according to a split descriptor), here as
opaque-to-the-grower oracle functions. -/
structure HistogramSplitter where
  n_features : ℕ
  n_bins : ℕ
  all_gradients : List ℚ
  all_hessians : List ℚ
  l2_regularization : ℚ
  min_hessian_to_split : ℚ
  find_node_split : List ℕ → SplitInfo
  split_indices : List ℕ → SplitInfo → List ℕ × List ℕ

/-! ## The grower state -/

/-- The mutable state of a `TreeGrower` instance.  `nodes` is the arena
standing for Python's object heap: `TreeNode` references become indices
into it; the root is index 0 and each split appends its two children. -/
structure TreeGrower where
  splitter : HistogramSplitter
  max_leaf_nodes : Option ℤ
  max_depth : Option ℤ
  features_data : FeatureMatrix
  min_gain_to_split : ℚ
  shrinkage : ℚ
  splittable_nodes : List ℕ
  finalized_leaves : List ℕ
  nodes : List TreeNode
  n_nodes : ℕ

/-- The leaf value of `TreeGrower._finalize_leaf`:
`shrinkage * sum_gradients / (sum_hessians + l2_regularization)`
(the grower reads the regularization back from the splitter it built). -/
def TreeGrower.leafWeight (g : TreeGrower) (node : TreeNode) : ℚ :=
  g.shrinkage * node.sum_gradients /
    (node.sum_hessians + g.splitter.l2_regularization)

/-- `TreeGrower._finalize_leaf(node)`: set the node's weight and append it
to `finalized_leaves`. -/
def TreeGrower.finalizeLeaf (g : TreeGrower) (i : ℕ) : TreeGrower :=
  let node := g.nodes.getD i default
  { g with
    nodes := g.nodes.set i { node with weight := some (g.leafWeight node) }
    finalized_leaves := g.finalized_leaves ++ [i] }

/-- `TreeGrower._compute_spittability(node)`: evaluate the node's best split,
attach it, then finalize the node as a leaf when the gain is below
`min_gain_to_split` and enqueue it in the priority queue otherwise. -/
def TreeGrower.computeSpittability (g : TreeGrower) (i : ℕ) : TreeGrower :=
  let node := g.nodes.getD i default
  let split_info := g.splitter.find_node_split node.sample_indices
  let gI : TreeGrower :=
    { g with nodes := g.nodes.set i { node with split_info := some split_info } }
  if split_info.gain < g.min_gain_to_split then
    gI.finalizeLeaf i
  else
    { gI with splittable_nodes := heappush (ltIdx gI.nodes) gI.splittable_nodes i }

/-- `TreeGrower._finalize_splittable_nodes`, one `while` iteration at a time:
`list.pop()` removes the *last* element of the Python list.  The fuel is the
loop variant (the queue length). -/
def TreeGrower.drainAux : ℕ → TreeGrower → TreeGrower
  | 0, g => g
  | fuel + 1, g =>
    if g.splittable_nodes.length > 0 then
      let node := g.splittable_nodes.getLastD 0
      let g' := { g with splittable_nodes := g.splittable_nodes.dropLast }
      TreeGrower.drainAux fuel (g'.finalizeLeaf node)
    else g

/-- `TreeGrower._finalize_splittable_nodes()`: drain the whole queue,
finalizing every still-queued node as a leaf. -/
def TreeGrower.finalizeSplittableNodes (g : TreeGrower) : TreeGrower :=
  TreeGrower.drainAux g.splittable_nodes.length g

/-- `TreeGrower.can_split_further()`. -/
def TreeGrower.canSplitFurther (g : TreeGrower) : Bool :=
  g.splittable_nodes.length ≥ 1

/-- Does `depth == self.max_depth` hold (Python `None` compares unequal)? -/
def depthAtMax (max_depth : Option ℤ) (depth : ℕ) : Bool :=
  match max_depth with
  | some d => decide ((depth : ℤ) = d)
  | none => false

/-- Does `n_leaf_nodes == self.max_leaf_nodes` hold? -/
def leafBudgetHit (max_leaf_nodes : Option ℤ) (n_leaf_nodes : ℕ) : Bool :=
  match max_leaf_nodes with
  | some m => decide ((n_leaf_nodes : ℤ) = m)
  | none => false

/-- The body of `split_next` after the pop succeeded: `ni` is the popped
node (already removed from `g`'s queue) and `si` its split info.  Partition
the samples, create and link the two children (appended to the arena at
indices `|nodes|` and `|nodes| + 1`), then according to the stopping rules
finalize the children (and, on leaf-budget exhaustion, drain the queue) or
evaluate their splittability. -/
def TreeGrower.splitNextCore (g : TreeGrower) (ni : ℕ) (si : SplitInfo) :
    TreeGrower × ℕ × ℕ :=
  let node := g.nodes.getD ni default
  let part := g.splitter.split_indices node.sample_indices si
  let depth := node.depth + 1
  let n_leaf_nodes := g.finalized_leaves.length + g.splittable_nodes.length + 2
  let li := g.nodes.length
  let ri := g.nodes.length + 1
  let left_child : TreeNode :=
    { depth := depth, sample_indices := part.1
      sum_gradients := si.gradient_left, sum_hessians := si.hessian_left }
  let right_child : TreeNode :=
    { depth := depth, sample_indices := part.2
      sum_gradients := si.gradient_right, sum_hessians := si.hessian_right }
  let g := { g with
    nodes := (g.nodes.set ni
      { node with left_child := some li, right_child := some ri })
      ++ [left_child, right_child]
    n_nodes := g.n_nodes + 2 }
  if depthAtMax g.max_depth depth then
    ((g.finalizeLeaf li).finalizeLeaf ri, li, ri)
  else if leafBudgetHit g.max_leaf_nodes n_leaf_nodes then
    (((g.finalizeLeaf li).finalizeLeaf ri).finalizeSplittableNodes, li, ri)
  else
    ((g.computeSpittability li).computeSpittability ri, li, ri)

/-- `TreeGrower.split_next()`: pop the highest-gain node off the priority
queue and split it (`splitNextCore`); raises `StopIteration` on an empty
queue.  Returns the two children (as arena indices).  The `attributeError`
branch is a model artifact for a popped node without `split_info` (in
Python the `None` would blow up inside `splitter.split_indices`); it is
unreachable from a constructed grower. -/
def TreeGrower.splitNext (g : TreeGrower) :
    Except PyError (TreeGrower × ℕ × ℕ) :=
  if g.splittable_nodes.length = 0 then
    .error (.stopIteration "No more splittable nodes")
  else
    match heappop (ltIdx g.nodes) g.splittable_nodes with
    | none => .error (.stopIteration "No more splittable nodes")
    | some (ni, rest) =>
      let g := { g with splittable_nodes := rest }
      match (g.nodes.getD ni default).split_info with
      | none => .error (.attributeError "split_info")
      | some si => .ok (g.splitNextCore ni si)

/-- `TreeGrower.grow()`: `while self.can_split_further(): self.split_next()`.
The fuel bounds the number of loop iterations; growth that needs more
iterations than the supplied fuel is returned as-is (completion is the
state's queue being empty). -/
def TreeGrower.growAux : ℕ → TreeGrower → Except PyError TreeGrower
  | 0, g => .ok g
  | fuel + 1, g =>
    if g.canSplitFurther then
      match g.splitNext with
      | .ok (g', _, _) => TreeGrower.growAux fuel g'
      | .error e => .error e
    else .ok g

/-- `TreeGrower._intilialize_root()` (sic): build the root node over all
samples with the total gradient/hessian sums; when the leaf budget is
exactly 1, finalize the root immediately (no split evaluation), otherwise
evaluate its splittability. -/
def TreeGrower.intilializeRoot (g : TreeGrower) : TreeGrower :=
  let n_samples := g.features_data.n_samples
  let root : TreeNode :=
    { depth := 0
      sample_indices := List.range n_samples
      sum_gradients := g.splitter.all_gradients.sum
      sum_hessians := g.splitter.all_hessians.sum }
  let g := { g with nodes := [root] }
  if g.max_leaf_nodes.isSome ∧ g.max_leaf_nodes = some 1 then
    g.finalizeLeaf 0
  else
    g.computeSpittability 0

/-- Is an optional integer hyper-parameter set and smaller than 1
(Python `x is not None and x < 1`)? -/
def optBelow1 : Option ℤ → Bool
  | some v => decide (v < 1)
  | none => false

/-- `TreeGrower.__init__`: validate the inputs (wrong dtype and out-of-range
budgets fail fast, before any state is built), construct the splitter,
initialize the root, and set `n_nodes = 1`.  The `find_node_split` and
`split_indices` oracles stand for the methods of the (absent)
`HistogramSplitter`. -/
def TreeGrower.init (features_data : FeatureMatrix)
    (all_gradients all_hessians : List ℚ)
    (find_node_split : List ℕ → SplitInfo)
    (split_indices : List ℕ → SplitInfo → List ℕ × List ℕ)
    (max_leaf_nodes max_depth : Option ℤ := none)
    (min_gain_to_split : ℚ := 0) (n_bins : ℕ := 256)
    (l2_regularization : ℚ := 0) (min_hessian_to_split : ℚ := 1 / 1000)
    (shrinkage : ℚ := 1) : Except PyError TreeGrower :=
  if features_data.dtype ≠ DType.uint8 then
    .error (.notImplementedError "Explicit feature binning required for now")
  else if optBelow1 max_leaf_nodes then
    .error (.valueError ("max_leaf_nodes=" ++ toString (max_leaf_nodes.getD 0)
      ++ " should not be smaller than 1"))
  else if optBelow1 max_depth then
    .error (.valueError ("max_depth=" ++ toString (max_depth.getD 0)
      ++ " should not be smaller than 1"))
  else
    let splitter : HistogramSplitter :=
      { n_features := features_data.n_features
        n_bins := n_bins
        all_gradients := all_gradients
        all_hessians := all_hessians
        l2_regularization := l2_regularization
        min_hessian_to_split := min_hessian_to_split
        find_node_split := find_node_split
        split_indices := split_indices }
    let g : TreeGrower :=
      { splitter := splitter
        max_leaf_nodes := max_leaf_nodes
        max_depth := max_depth
        features_data := features_data
        min_gain_to_split := min_gain_to_split
        shrinkage := shrinkage
        splittable_nodes := []
        finalized_leaves := []
        nodes := []
        n_nodes := 0 }
    let g := g.intilializeRoot
    .ok { g with n_nodes := 1 }

/-! ## Predictor serialization (`make_predictor`) -/

/-- Modelled from the spec: one record of `PREDICTOR_RECORD_DTYPE`
(declared in the absent `pygbm/predictor.py`); the fields are the ones the
grower writes plus the spec's §3 data model, zero-initialized as by
`np.zeros`. -/
structure PredictorRecord where
  feature_idx : ℕ := 0
  bin_threshold : ℕ := 0
  left : ℕ := 0
  right : ℕ := 0
  weight : ℚ := 0
  is_leaf : Bool := false
deriving DecidableEq, Repr

instance : Inhabited PredictorRecord := ⟨{}⟩

/-- `TreeGrower._fill_predictor_node_array(predictor_nodes, grower_node,
next_free_idx)`: depth-first fill of the record array, leaves writing
`weight`/`is_leaf`, decision nodes writing `feature_idx`/`bin_threshold`,
the left-child slot (the next index), and the right-child slot (the index
returned by the left recursion); returns the next free index.  The fuel
bounds the recursion depth (Python recurses on the object graph); `none`
also covers a decision node with a missing link or split info, which cannot
arise from a grower (in Python it would raise). -/
def fillPredictorNodeArray (nodes : List TreeNode) :
    ℕ → List PredictorRecord → ℕ → ℕ → Option (List PredictorRecord × ℕ)
  | 0, _, _, _ => none
  | fuel + 1, predictor_nodes, grower_node, next_free_idx =>
    let node := nodes.getD grower_node default
    match node.weight with
    | some w =>
      let rec0 := predictor_nodes.getD next_free_idx default
      some (predictor_nodes.set next_free_idx
        { rec0 with weight := w, is_leaf := true }, next_free_idx + 1)
    | none =>
      match node.split_info, node.left_child, node.right_child with
      | some split_info, some lc, some rc =>
        let rec0 := predictor_nodes.getD next_free_idx default
        let slot := next_free_idx
        let next_free_idx := next_free_idx + 1
        let predictor_nodes := predictor_nodes.set slot
          { rec0 with
            feature_idx := split_info.feature_idx
            bin_threshold := split_info.bin_idx
            left := next_free_idx }
        match fillPredictorNodeArray nodes fuel predictor_nodes lc next_free_idx with
        | none => none
        | some (predictor_nodes, next_free_idx) =>
          let recMid := predictor_nodes.getD slot default
          let predictor_nodes := predictor_nodes.set slot
            { recMid with right := next_free_idx }
          fillPredictorNodeArray nodes fuel predictor_nodes rc next_free_idx
      | _, _, _ => none

/-- `TreeGrower.make_predictor()`: allocate `n_nodes` zeroed records and
fill them starting from the root.  The recursion fuel `n_nodes + 1` is
enough for every well-formed tree (the recursion depth is bounded by the
node count). -/
def TreeGrower.makePredictor (g : TreeGrower) : Option (List PredictorRecord) :=
  (fillPredictorNodeArray g.nodes (g.n_nodes + 1)
    (List.replicate g.n_nodes default) 0 0).map Prod.fst

/-! ## Derived notions used by the theorems -/

/-- The binary-heap shape invariant of CPython's `heapq`, phrased for the
grower's queue: under the gain-inverting `TreeNode.__lt__` order a min-heap
on nodes is a max-heap on gains, so every child's gain is at most its
parent's. -/
def heapInv (key : ℕ → ℚ) (l : List ℕ) : Prop :=
  ∀ i j : ℕ, (j = 2 * i + 1 ∨ j = 2 * i + 2) → j < l.length →
    key (l.getD j 0) ≤ key (l.getD i 0)

/-- A binary tree of arena indices: the shape of the object graph grown by
the `TreeGrower`, recorded index by index. -/
inductive ITree
  | leaf (i : ℕ)
  | node (i : ℕ) (l r : ITree)
deriving DecidableEq, Repr

/-- The arena index at the root of an index tree. -/
def ITree.rootIdx : ITree → ℕ
  | .leaf i => i
  | .node i _ _ => i

/-- All arena indices of an index tree, in preorder. -/
def ITree.indices : ITree → List ℕ
  | .leaf i => [i]
  | .node i l r => i :: (l.indices ++ r.indices)

/-- Number of vertices of an index tree. -/
def ITree.size (t : ITree) : ℕ := t.indices.length

/-- The arena realizes the given index tree: every `node` vertex's children
links point at the roots of its subtrees, every `leaf` vertex is childless. -/
def Spans (nodes : List TreeNode) : ITree → Prop
  | .leaf i =>
      (nodes.getD i default).left_child = none ∧
      (nodes.getD i default).right_child = none
  | .node i l r =>
      (nodes.getD i default).left_child = some l.rootIdx ∧
      (nodes.getD i default).right_child = some r.rootIdx ∧
      Spans nodes l ∧ Spans nodes r

/-- Replace every `leaf p` vertex by `node p (leaf ln) (leaf rn)`: the shape
change a `split_next` call performs on the object graph. -/
def ITree.splitLeafAt (p ln rn : ℕ) : ITree → ITree
  | .leaf i => if i = p then .node p (.leaf ln) (.leaf rn) else .leaf i
  | .node i l r => .node i (l.splitLeafAt p ln rn) (r.splitLeafAt p ln rn)

/-- A node of the arena is a finalized leaf: weight set, no children. -/
def IsLeafNode (n : TreeNode) : Prop :=
  n.weight.isSome ∧ n.left_child = none ∧ n.right_child = none

/-- A node of the arena is an internal (split) node: evaluated split, both
children set, no weight. -/
def IsInternalNode (n : TreeNode) : Prop :=
  n.split_info.isSome ∧ n.left_child.isSome ∧ n.right_child.isSome ∧
  n.weight = none

/-- The inductive invariant of the grower state, established by
`TreeGrower.init` and preserved by `TreeGrower.splitNext`. -/
structure GInv (g : TreeGrower) : Prop where
  nnodes_eq : g.n_nodes = g.nodes.length
  queue_lt : ∀ i ∈ g.splittable_nodes, i < g.nodes.length
  queue_nodup : g.splittable_nodes.Nodup
  queue_shape : ∀ i ∈ g.splittable_nodes,
    (g.nodes.getD i default).split_info.isSome ∧
    (g.nodes.getD i default).weight = none ∧
    (g.nodes.getD i default).left_child = none ∧
    (g.nodes.getD i default).right_child = none
  leaves_lt : ∀ i ∈ g.finalized_leaves, i < g.nodes.length
  leaves_weight : ∀ i ∈ g.finalized_leaves,
    (g.nodes.getD i default).weight =
      some (g.leafWeight (g.nodes.getD i default))
  states : ∀ i, i < g.nodes.length →
    IsLeafNode (g.nodes.getD i default) ∨
    IsInternalNode (g.nodes.getD i default) ∨ i ∈ g.splittable_nodes
  count : g.nodes.length + 1 =
    2 * (g.finalized_leaves.length + g.splittable_nodes.length)
  child_depth : ∀ i, i < g.nodes.length → ∀ c,
    ((g.nodes.getD i default).left_child = some c ∨
     (g.nodes.getD i default).right_child = some c) →
    c < g.nodes.length ∧
    (g.nodes.getD c default).depth = (g.nodes.getD i default).depth + 1
  depth_le : ∀ d : ℤ, g.max_depth = some d →
    (∀ i, i < g.nodes.length → ((g.nodes.getD i default).depth : ℤ) ≤ d) ∧
    (∀ i ∈ g.splittable_nodes, ((g.nodes.getD i default).depth : ℤ) < d)
  budget : g.max_depth = none → ∀ m : ℤ, g.max_leaf_nodes = some m →
    ((g.finalized_leaves.length + g.splittable_nodes.length : ℤ) ≤ m ∧
     (g.splittable_nodes ≠ [] →
       ((g.finalized_leaves.length + g.splittable_nodes.length : ℤ) < m)))
  span : ∃ t : ITree, t.rootIdx = 0 ∧ Spans g.nodes t ∧
    t.indices.Perm (List.range g.nodes.length)

/-- The invariant of the intermediate state inside `splitNextCore`, right
after the popped node `p` has been linked to its two freshly appended
children `li` and `ri = li + 1` and before the stopping rules run. -/
structure MidInv (g : TreeGrower) (li ri : ℕ) : Prop where
  ri_def : ri = li + 1
  len_def : g.nodes.length = li + 2
  nnodes_eq : g.n_nodes = g.nodes.length
  queue_lt : ∀ i ∈ g.splittable_nodes, i < li
  queue_nodup : g.splittable_nodes.Nodup
  queue_shape : ∀ i ∈ g.splittable_nodes,
    (g.nodes.getD i default).split_info.isSome ∧
    (g.nodes.getD i default).weight = none ∧
    (g.nodes.getD i default).left_child = none ∧
    (g.nodes.getD i default).right_child = none
  leaves_lt : ∀ i ∈ g.finalized_leaves, i < li
  leaves_weight : ∀ i ∈ g.finalized_leaves,
    (g.nodes.getD i default).weight =
      some (g.leafWeight (g.nodes.getD i default))
  states : ∀ i, i < li →
    IsLeafNode (g.nodes.getD i default) ∨
    IsInternalNode (g.nodes.getD i default) ∨ i ∈ g.splittable_nodes
  fresh_li : (g.nodes.getD li default).split_info = none ∧
    (g.nodes.getD li default).weight = none ∧
    (g.nodes.getD li default).left_child = none ∧
    (g.nodes.getD li default).right_child = none
  fresh_ri : (g.nodes.getD ri default).split_info = none ∧
    (g.nodes.getD ri default).weight = none ∧
    (g.nodes.getD ri default).left_child = none ∧
    (g.nodes.getD ri default).right_child = none
  count : g.nodes.length + 1 =
    2 * (g.finalized_leaves.length + g.splittable_nodes.length + 2)
  child_depth : ∀ i, i < g.nodes.length → ∀ c,
    ((g.nodes.getD i default).left_child = some c ∨
     (g.nodes.getD i default).right_child = some c) →
    c < g.nodes.length ∧
    (g.nodes.getD c default).depth = (g.nodes.getD i default).depth + 1
  depth_eq : (g.nodes.getD li default).depth = (g.nodes.getD ri default).depth
  depth_le : ∀ d : ℤ, g.max_depth = some d →
    (∀ i, i < g.nodes.length → ((g.nodes.getD i default).depth : ℤ) ≤ d) ∧
    (∀ i ∈ g.splittable_nodes, ((g.nodes.getD i default).depth : ℤ) < d)
  budget : g.max_depth = none → ∀ m : ℤ, g.max_leaf_nodes = some m →
    (g.finalized_leaves.length + g.splittable_nodes.length + 2 : ℤ) ≤ m
  span : ∃ t : ITree, t.rootIdx = 0 ∧ Spans g.nodes t ∧
    t.indices.Perm (List.range g.nodes.length)

/-- `Reachable a b`: grower state `b` arises from `a` by zero or more
successful `split_next` calls — exactly the states the `grow` loop visits. -/
inductive Reachable : TreeGrower → TreeGrower → Prop
  | refl (g : TreeGrower) : Reachable g g
  | step {a b c : TreeGrower} {li ri : ℕ} :
      Reachable a b → b.splitNext = .ok (c, li, ri) → Reachable a c

/-- The record window starting at `next` describes the subtree `t` laid out
in preorder (the spec's §4.4 output contract): a leaf record carries the
node's weight with `is_leaf`; an internal record carries the split's
feature/bin, its left child in the very next slot, and its right child
right after the whole left subtree. -/
def DescribesAt (nodes : List TreeNode) (recs : List PredictorRecord) :
    ITree → ℕ → Prop
  | .leaf i, next =>
      ∃ w, (nodes.getD i default).weight = some w ∧
        (recs.getD next default).weight = w ∧
        (recs.getD next default).is_leaf = true
  | .node i l r, next =>
      ∃ si, (nodes.getD i default).split_info = some si ∧
        (recs.getD next default).feature_idx = si.feature_idx ∧
        (recs.getD next default).bin_threshold = si.bin_idx ∧
        (recs.getD next default).left = next + 1 ∧
        (recs.getD next default).right = next + 1 + l.size ∧
        (recs.getD next default).is_leaf = false ∧
        DescribesAt nodes recs l (next + 1) ∧
        DescribesAt nodes recs r (next + 1 + l.size)

/-- Shape side condition for the serialization walk: on the tree actually
grown, childless vertices carry a weight and split vertices carry a split
info and no weight (this is the grower's completion state). -/
def ShapeOK (nodes : List TreeNode) : ITree → Prop
  | .leaf i => (nodes.getD i default).weight.isSome
  | .node i l r =>
      (nodes.getD i default).weight = none ∧
      (nodes.getD i default).split_info.isSome ∧
      ShapeOK nodes l ∧ ShapeOK nodes r

/-- The part of a grower state that does not mention the splitter's
callables: used to state that a code path performs no split evaluation
(the state is the same whatever `find_node_split` does). -/
def TreeGrower.obs (g : TreeGrower) :
    List TreeNode × List ℕ × List ℕ × ℕ :=
  (g.nodes, g.splittable_nodes, g.finalized_leaves, g.n_nodes)

instance : Inhabited SplitInfo :=
  ⟨{ gain := 0, feature_idx := 0, bin_idx := 0, gradient_left := 0
     gradient_right := 0, hessian_left := 0, hessian_right := 0 }⟩

instance : Inhabited TreeGrower :=
  ⟨{ splitter :=
      { n_features := 0, n_bins := 0, all_gradients := [], all_hessians := []
        l2_regularization := 0, min_hessian_to_split := 0
        find_node_split := fun _ => default
        split_indices := fun _ _ => ([], []) }
     max_leaf_nodes := none, max_depth := none
     features_data :=
      { dtype := .uint8, n_samples := 0, n_features := 0, f_contiguous := true }
     min_gain_to_split := 0, shrinkage := 1
     splittable_nodes := [], finalized_leaves := [], nodes := [], n_nodes := 0 }⟩

/-! ## Concrete fixtures (used by the witnesses and the counterexample) -/

/-- A split descriptor with gain 1 and unit child sums. -/
def exSplitInfo : SplitInfo :=
  { gain := 1, feature_idx := 0, bin_idx := 0
    gradient_left := 1, gradient_right := 1
    hessian_left := 1, hessian_right := 1 }

/-- A split evaluator that always reports gain 1. -/
def exOracle : List ℕ → SplitInfo := fun _ => exSplitInfo

/-- A partitioner that sends the first sample left and the rest right. -/
def exSplitIndices : List ℕ → SplitInfo → List ℕ × List ℕ :=
  fun idx _ => (idx.take 1, idx.drop 1)

/-- A well-formed binned feature matrix with four samples. -/
def exFeatures : FeatureMatrix :=
  { dtype := .uint8, n_samples := 4, n_features := 1, f_contiguous := true }

/-- A feature matrix with the wrong dtype (not pre-binned). -/
def exFeaturesBad : FeatureMatrix :=
  { dtype := .float32, n_samples := 4, n_features := 1, f_contiguous := true }

/-- Construction with `max_leaf_nodes = 3` and `max_depth = 2`. -/
def exInitC1 : Except PyError TreeGrower :=
  TreeGrower.init exFeatures [1, 1, 1, 1] [1, 1, 1, 1] exOracle exSplitIndices
    (some 3) (some 2)

/-- The grower `exInitC1` constructs. -/
def exG0C1 : TreeGrower :=
  match exInitC1 with
  | .ok g => g
  | .error _ => default

/-- The state after running the grow loop of `exG0C1` to completion. -/
def exGrownC1 : TreeGrower :=
  match TreeGrower.growAux 10 exG0C1 with
  | .ok g => g
  | .error _ => default

/-- Construction with `max_leaf_nodes = 3` and `max_depth` unset. -/
def exInitC1b : Except PyError TreeGrower :=
  TreeGrower.init exFeatures [1, 1, 1, 1] [1, 1, 1, 1] exOracle exSplitIndices
    (some 3) none

/-- The grower `exInitC1b` constructs. -/
def exG0C1b : TreeGrower :=
  match exInitC1b with
  | .ok g => g
  | .error _ => default

/-- The state after running the grow loop of `exG0C1b` to completion. -/
def exGrownC1b : TreeGrower :=
  match TreeGrower.growAux 10 exG0C1b with
  | .ok g => g
  | .error _ => default

/-- Construction with the degenerate budget `max_leaf_nodes = 1`. -/
def exInitC3 : Except PyError TreeGrower :=
  TreeGrower.init exFeatures [1, 1, 1, 1] [1, 1, 1, 1] exOracle exSplitIndices
    (some 1) none

/-- The grower `exInitC3` constructs. -/
def exG0C3 : TreeGrower :=
  match exInitC3 with
  | .ok g => g
  | .error _ => default

/-- An evaluated node with gain 5 (for exercising the priority queue). -/
def exNode5 : TreeNode :=
  { depth := 0, sample_indices := [0], sum_gradients := 1, sum_hessians := 1
    split_info := some { exSplitInfo with gain := 5 } }

/-- An evaluated node with gain 2 (for exercising the priority queue). -/
def exNode2 : TreeNode :=
  { depth := 0, sample_indices := [1], sum_gradients := 1, sum_hessians := 1
    split_info := some { exSplitInfo with gain := 2 } }

/-- An unevaluated node (`split_info` still `None`). -/
def exNodeNone : TreeNode :=
  { depth := 0, sample_indices := [2], sum_gradients := 1, sum_hessians := 1 }

/-- A grower state holding a two-element priority queue whose gains are
5 (index 0) and 2 (index 1). -/
def exHeapGrower : TreeGrower :=
  { (default : TreeGrower) with
    nodes := [exNode5, exNode2]
    splittable_nodes := [0, 1]
    n_nodes := 2 }

/-! ## List helper lemmas -/

theorem setGetDSelf {α : Type _} (l : List α) (j : ℕ) (d : α)
    (h : j < l.length) : l.set j (l.getD j d) = l := by
  apply List.ext_getElem?
  intro n
  rcases eq_or_ne n j with rfl | hne
  · simp [List.getElem?_set_self, List.getElem?_eq_getElem, h]
  · simp [List.getElem?_set_ne hne.symm]

theorem consSetPerm {α : Type _} (x y : α) (t : List α) (k : ℕ)
    (hk : k < t.length) :
    List.Perm (x :: t.set k y) (y :: t.set k x) := by
  rw [List.set_eq_take_cons_drop y hk, List.set_eq_take_cons_drop x hk]
  refine List.Perm.trans (List.Perm.cons x List.perm_middle) ?_
  refine List.Perm.trans (List.Perm.swap y x _) ?_
  exact List.Perm.cons y List.perm_middle.symm

theorem setSetPerm {α : Type _} (d x : α) :
    ∀ (l : List α) (i j : ℕ), i ≠ j → i < l.length → j < l.length →
      List.Perm ((l.set i (l.getD j d)).set j x) (l.set i x)
  | [], i, _, _, hi, _ => absurd hi (by simp)
  | _ :: _, 0, 0, hij, _, _ => absurd rfl hij
  | a :: t, 0, j + 1, _, _, hj => by
      have hj' : j < t.length := by simpa using hj
      have h := consSetPerm (t.getD j d) x t j hj'
      rw [setGetDSelf t j d hj'] at h
      simpa using h
  | a :: t, i + 1, 0, _, hi, _ => by
      simpa using consSetPerm x a t i (by simpa using hi)
  | a :: t, i + 1, j + 1, hij, hi, hj => by
      simpa using List.Perm.cons a
        (setSetPerm d x t i j (by omega) (by simpa using hi) (by simpa using hj))

/-! ## Heap permutation lemmas -/

theorem siftdownAux_perm (lt : ℕ → ℕ → Bool) (startpos newitem : ℕ) :
    ∀ (fuel pos : ℕ) (heap : List ℕ), pos < heap.length →
      List.Perm (siftdownAux lt startpos newitem fuel heap pos)
        (heap.set pos newitem) := by
  intro fuel
  induction fuel with
  | zero =>
    intro pos heap _
    exact List.Perm.refl _
  | succ fuel ih =>
    intro pos heap hpos
    rw [siftdownAux]
    split
    · next h =>
      split
      · next hlt =>
        have hpp : (pos - 1) / 2 < pos := by omega
        have ihx := ih ((pos - 1) / 2)
          (heap.set pos (heap.getD ((pos - 1) / 2) 0))
          (by simpa using lt_of_lt_of_le hpp (le_of_lt hpos))
        refine ihx.trans ?_
        exact setSetPerm 0 newitem heap pos ((pos - 1) / 2) (by omega) hpos
          (by omega)
      · exact List.Perm.refl _
    · exact List.Perm.refl _

theorem siftupAux_perm (lt : ℕ → ℕ → Bool) (startpos newitem : ℕ) :
    ∀ (fuel pos : ℕ) (heap : List ℕ), pos < heap.length →
      List.Perm (siftupAux lt startpos newitem fuel heap pos)
        (heap.set pos newitem) := by
  intro fuel
  induction fuel with
  | zero =>
    intro pos heap _
    exact List.Perm.refl _
  | succ fuel ih =>
    intro pos heap hpos
    rw [siftupAux]
    split
    · next h =>
      have hc : siftupChild lt heap pos = 2 * pos + 1 ∨
          siftupChild lt heap pos = 2 * pos + 2 ∧
            2 * pos + 2 < heap.length := by
        unfold siftupChild
        split
        · next hcond => exact Or.inr ⟨rfl, hcond.1⟩
        · exact Or.inl rfl
      have hclt : siftupChild lt heap pos < heap.length := by
        rcases hc with h1 | ⟨h2, h3⟩ <;> omega
      have ihx := ih (siftupChild lt heap pos)
        (heap.set pos (heap.getD (siftupChild lt heap pos) 0))
        (by simpa using hclt)
      refine ihx.trans ?_
      exact setSetPerm 0 newitem heap pos (siftupChild lt heap pos)
        (by omega) hpos hclt
    · next h =>
      refine (siftdownAux_perm lt startpos newitem pos pos
        (heap.set pos newitem) (by simpa using hpos)).trans ?_
      rw [List.set_set]

theorem heappush_perm (lt : ℕ → ℕ → Bool) (heap : List ℕ) (item : ℕ) :
    List.Perm (heappush lt heap item) (item :: heap) := by
  unfold heappush siftdown
  have hget : (heap ++ [item]).getD heap.length 0 = item := by
    simp [List.getD_eq_getElem?_getD, List.getElem?_append_right (le_refl _)]
  rw [hget]
  have hlen : heap.length < (heap ++ [item]).length := by simp
  refine (siftdownAux_perm lt 0 item heap.length heap.length (heap ++ [item])
    hlen).trans ?_
  have hset : (heap ++ [item]).set heap.length item = heap ++ [item] := by
    nth_rewrite 2 [← hget]
    exact setGetDSelf (heap ++ [item]) heap.length 0 hlen
  rw [hset]
  simpa using (@List.perm_middle _ item heap [])

theorem heappop_spec (lt : ℕ → ℕ → Bool) (heap : List ℕ) (h : heap ≠ []) :
    ∃ rest, heappop lt heap = some (heap.getD 0 0, rest) ∧
      List.Perm heap (heap.getD 0 0 :: rest) := by
  induction heap using List.reverseRecOn with
  | nil => exact absurd rfl h
  | append_singleton l la _ =>
    unfold heappop
    rw [List.getLast?_concat]
    simp only [List.dropLast_concat]
    rcases l with _ | ⟨r0, rt⟩
    · exact ⟨[], by simp, by simp⟩
    · have hget0 : ((r0 :: rt) ++ [la]).getD 0 0 = r0 := by simp
      refine ⟨siftup lt ((r0 :: rt).set 0 la) 0, ?_, ?_⟩
      · rw [hget0]
        simp
      · rw [hget0]
        have hsiftup : List.Perm (siftup lt ((r0 :: rt).set 0 la) 0)
            (la :: rt) := by
          unfold siftup
          have hperm := siftupAux_perm lt 0
            (((r0 :: rt).set 0 la).getD 0 0)
            ((r0 :: rt).set 0 la).length 0
            ((r0 :: rt).set 0 la) (by simp)
          simpa using hperm
        refine List.Perm.trans ?_ (List.Perm.cons r0 hsiftup.symm)
        exact List.Perm.cons r0
          (by simpa using (@List.perm_middle _ la rt []))

theorem heapInv_root_max (key : ℕ → ℚ) (l : List ℕ) (hinv : heapInv key l) :
    ∀ j, j < l.length → key (l.getD j 0) ≤ key (l.getD 0 0)
  | j, hj => by
    rcases Nat.eq_zero_or_pos j with rfl | hpos
    · exact le_refl _
    · have hsplit : j = 2 * ((j - 1) / 2) + 1 ∨ j = 2 * ((j - 1) / 2) + 2 := by
        omega
      have hparent : (j - 1) / 2 < j := by omega
      have h1 : key (l.getD j 0) ≤ key (l.getD ((j - 1) / 2) 0) :=
        hinv ((j - 1) / 2) j hsplit hj
      have h2 := heapInv_root_max key l hinv ((j - 1) / 2)
        (lt_of_lt_of_le hparent (le_of_lt hj))
      exact le_trans h1 h2
termination_by j _ => j

/-! ## Effect lemmas for the primitive grower operations -/

theorem getDSetSelf {α : Type _} (l : List α) (i : ℕ) (v d : α)
    (h : i < l.length) : (l.set i v).getD i d = v := by
  simp [List.getD_eq_getElem?_getD, List.getElem?_set_self h]

theorem getDSetNe {α : Type _} (l : List α) (i j : ℕ) (v d : α)
    (h : i ≠ j) : (l.set i v).getD j d = l.getD j d := by
  simp [List.getD_eq_getElem?_getD, List.getElem?_set_ne h]

theorem getDAppendLt {α : Type _} (l l' : List α) (j : ℕ) (d : α)
    (h : j < l.length) : (l ++ l').getD j d = l.getD j d := by
  simp [List.getD_eq_getElem?_getD, List.getElem?_append, h]

@[simp] theorem finalizeLeaf_splitter (g : TreeGrower) (i : ℕ) :
    (g.finalizeLeaf i).splitter = g.splitter := rfl

@[simp] theorem finalizeLeaf_max_leaf_nodes (g : TreeGrower) (i : ℕ) :
    (g.finalizeLeaf i).max_leaf_nodes = g.max_leaf_nodes := rfl

@[simp] theorem finalizeLeaf_max_depth (g : TreeGrower) (i : ℕ) :
    (g.finalizeLeaf i).max_depth = g.max_depth := rfl

@[simp] theorem finalizeLeaf_features_data (g : TreeGrower) (i : ℕ) :
    (g.finalizeLeaf i).features_data = g.features_data := rfl

@[simp] theorem finalizeLeaf_min_gain_to_split (g : TreeGrower) (i : ℕ) :
    (g.finalizeLeaf i).min_gain_to_split = g.min_gain_to_split := rfl

@[simp] theorem finalizeLeaf_shrinkage (g : TreeGrower) (i : ℕ) :
    (g.finalizeLeaf i).shrinkage = g.shrinkage := rfl

@[simp] theorem finalizeLeaf_splittable_nodes (g : TreeGrower) (i : ℕ) :
    (g.finalizeLeaf i).splittable_nodes = g.splittable_nodes := rfl

@[simp] theorem finalizeLeaf_n_nodes (g : TreeGrower) (i : ℕ) :
    (g.finalizeLeaf i).n_nodes = g.n_nodes := rfl

@[simp] theorem finalizeLeaf_finalized_leaves (g : TreeGrower) (i : ℕ) :
    (g.finalizeLeaf i).finalized_leaves = g.finalized_leaves ++ [i] := rfl

@[simp] theorem finalizeLeaf_leafWeight (g : TreeGrower) (i : ℕ)
    (n : TreeNode) : (g.finalizeLeaf i).leafWeight n = g.leafWeight n := rfl

@[simp] theorem finalizeLeaf_nodes_length (g : TreeGrower) (i : ℕ) :
    (g.finalizeLeaf i).nodes.length = g.nodes.length := by
  simp [TreeGrower.finalizeLeaf]

theorem finalizeLeaf_getD_ne (g : TreeGrower) (i j : ℕ) (h : i ≠ j) :
    (g.finalizeLeaf i).nodes.getD j default = g.nodes.getD j default := by
  simp only [TreeGrower.finalizeLeaf]
  exact getDSetNe _ _ _ _ _ h

theorem finalizeLeaf_getD_self (g : TreeGrower) (i : ℕ)
    (h : i < g.nodes.length) :
    (g.finalizeLeaf i).nodes.getD i default =
      { g.nodes.getD i default with
        weight := some (g.leafWeight (g.nodes.getD i default)) } := by
  simp only [TreeGrower.finalizeLeaf]
  exact getDSetSelf _ _ _ _ h

theorem computeSpittability_cases (g : TreeGrower) (i : ℕ) :
    (let si := g.splitter.find_node_split ((g.nodes.getD i default).sample_indices)
     let gI : TreeGrower := { g with
       nodes := g.nodes.set i { g.nodes.getD i default with split_info := some si } }
     (si.gain < g.min_gain_to_split ∧ g.computeSpittability i = gI.finalizeLeaf i) ∨
     (¬ si.gain < g.min_gain_to_split ∧ g.computeSpittability i =
       { gI with splittable_nodes := heappush (ltIdx gI.nodes) gI.splittable_nodes i })) := by
  by_cases h : (g.splitter.find_node_split
      ((g.nodes.getD i default).sample_indices)).gain < g.min_gain_to_split
  · refine Or.inl ⟨h, ?_⟩
    simp only [TreeGrower.computeSpittability]
    rw [if_pos h]
  · refine Or.inr ⟨h, ?_⟩
    simp only [TreeGrower.computeSpittability]
    rw [if_neg h]

theorem drainAux_spec : ∀ (n : ℕ) (g : TreeGrower),
    g.splittable_nodes.length ≤ n → g.splittable_nodes.Nodup →
    (∀ i ∈ g.splittable_nodes, i < g.nodes.length) →
    (TreeGrower.drainAux n g).splittable_nodes = [] ∧
    (TreeGrower.drainAux n g).finalized_leaves =
      g.finalized_leaves ++ g.splittable_nodes.reverse ∧
    (TreeGrower.drainAux n g).nodes.length = g.nodes.length ∧
    (∀ j, j ∉ g.splittable_nodes →
      (TreeGrower.drainAux n g).nodes.getD j default = g.nodes.getD j default) ∧
    (∀ j ∈ g.splittable_nodes,
      (TreeGrower.drainAux n g).nodes.getD j default =
        { g.nodes.getD j default with
          weight := some (g.leafWeight (g.nodes.getD j default)) }) ∧
    (TreeGrower.drainAux n g).splitter = g.splitter ∧
    (TreeGrower.drainAux n g).max_leaf_nodes = g.max_leaf_nodes ∧
    (TreeGrower.drainAux n g).max_depth = g.max_depth ∧
    (TreeGrower.drainAux n g).min_gain_to_split = g.min_gain_to_split ∧
    (TreeGrower.drainAux n g).shrinkage = g.shrinkage ∧
    (TreeGrower.drainAux n g).n_nodes = g.n_nodes ∧
    (TreeGrower.drainAux n g).features_data = g.features_data := by
  intro n
  induction n with
  | zero =>
    intro g hlen _ _
    have hq : g.splittable_nodes = [] := List.eq_nil_of_length_eq_zero (by omega)
    simp [TreeGrower.drainAux, hq]
  | succ n ih =>
    intro g hlen hnd hlt
    rcases List.eq_nil_or_concat g.splittable_nodes with hq | ⟨qs, la, hq⟩
    · simp [TreeGrower.drainAux, hq]
    · rw [List.concat_eq_append] at hq
      have hlen' : g.splittable_nodes.length > 0 := by simp [hq]
      have hlast : g.splittable_nodes.getLastD 0 = la := by
        simp [hq, List.getLastD_concat]
      have hdrop : g.splittable_nodes.dropLast = qs := by
        simp [hq]
      have hndq : qs.Nodup ∧ la ∉ qs := by
        have := hq ▸ hnd
        constructor
        · exact (List.nodup_append.mp this).1
        · intro hmem
          exact ((List.nodup_append.mp this).2.2) hmem (by simp)
      have hlalt : la < g.nodes.length := hlt la (by simp [hq])
      set g2 : TreeGrower :=
        ({ g with splittable_nodes := g.splittable_nodes.dropLast }).finalizeLeaf la with hg2
      have hg2q : g2.splittable_nodes = qs := by
        simp [hg2, hdrop]
      have hg2len : g2.nodes.length = g.nodes.length := by
        simp [hg2]
      have hstep : TreeGrower.drainAux (n + 1) g = TreeGrower.drainAux n g2 := by
        rw [TreeGrower.drainAux, if_pos hlen']
        simp only [hlast]
      have ihg2 := ih g2
        (by rw [hg2q]; have : g.splittable_nodes.length = qs.length + 1 := by
              simp [hq]
            omega)
        (by rw [hg2q]; exact hndq.1)
        (by rw [hg2q, hg2len]; intro i hi; exact hlt i (by simp [hq, hi]))
      obtain ⟨c1, c2, c3, c4, c5, c6, c7, c8, c9, c10, c11, c12⟩ := ihg2
      rw [hstep]
      have hg2getD_ne : ∀ j, j ≠ la →
          g2.nodes.getD j default = g.nodes.getD j default := by
        intro j hj
        simp only [hg2]
        exact finalizeLeaf_getD_ne _ _ _ (Ne.symm hj)
      have hg2getD_la : g2.nodes.getD la default =
          { g.nodes.getD la default with
            weight := some (g.leafWeight (g.nodes.getD la default)) } := by
        simp only [hg2]
        exact finalizeLeaf_getD_self _ _ hlalt
      refine ⟨c1, ?_, by rw [c3, hg2len], ?_, ?_, by rw [c6]; rfl,
        by rw [c7]; rfl, by rw [c8]; rfl, by rw [c9]; rfl,
        by rw [c10]; rfl, by rw [c11]; rfl, by rw [c12]; rfl⟩
      · rw [c2, hg2q]
        have : g2.finalized_leaves = g.finalized_leaves ++ [la] := by
          simp [hg2]
        rw [this, hq]
        simp
      · intro j hj
        have hjqs : j ∉ qs := fun hmem => hj (by simp [hq, hmem])
        have hjla : j ≠ la := fun hmem => hj (by simp [hq, hmem])
        rw [c4 j (hg2q ▸ hjqs), hg2getD_ne j hjla]
      · intro j hj
        rcases (by simpa [hq] using hj : j ∈ qs ∨ j = la) with hjqs | rfl
        · have hjla : j ≠ la := fun h => hndq.2 (h ▸ hjqs)
          rw [c5 j (hg2q ▸ hjqs), hg2getD_ne j hjla]
          have hlw : g2.leafWeight (g.nodes.getD j default) =
              g.leafWeight (g.nodes.getD j default) := rfl
          rw [hlw]
        · have hjqs : j ∉ qs := hndq.2
          rw [c4 j (hg2q ▸ hjqs), hg2getD_la]

/-! ## Index-tree lemmas -/

theorem heappush_mem (lt : ℕ → ℕ → Bool) (h : List ℕ) (x i : ℕ) :
    x ∈ heappush lt h i ↔ x = i ∨ x ∈ h := by
  rw [(heappush_perm lt h i).mem_iff]
  simp

theorem heappush_nodup (lt : ℕ → ℕ → Bool) (h : List ℕ) (i : ℕ)
    (hnd : h.Nodup) (hni : i ∉ h) : (heappush lt h i).Nodup :=
  (heappush_perm lt h i).nodup_iff.mpr (List.nodup_cons.mpr ⟨hni, hnd⟩)

theorem heappush_length (lt : ℕ → ℕ → Bool) (h : List ℕ) (i : ℕ) :
    (heappush lt h i).length = h.length + 1 := by
  simpa using (heappush_perm lt h i).length_eq

theorem rootIdx_splitLeafAt (p ln rn : ℕ) (t : ITree) :
    (t.splitLeafAt p ln rn).rootIdx = t.rootIdx := by
  cases t with
  | leaf i =>
    simp only [ITree.splitLeafAt]
    split
    · next h => simp [ITree.rootIdx, h]
    · rfl
  | node i l r => rfl

theorem spans_mono (nodes nodes' : List TreeNode)
    (h : ∀ j, (nodes'.getD j default).left_child =
        (nodes.getD j default).left_child ∧
      (nodes'.getD j default).right_child =
        (nodes.getD j default).right_child) :
    ∀ t : ITree, Spans nodes t → Spans nodes' t := by
  intro t
  induction t with
  | leaf i =>
    intro hs
    simp only [Spans] at hs ⊢
    exact ⟨(h i).1.trans hs.1, (h i).2.trans hs.2⟩
  | node i l r ihl ihr =>
    intro hs
    simp only [Spans] at hs ⊢
    exact ⟨(h i).1.trans hs.1, (h i).2.trans hs.2.1, ihl hs.2.2.1,
      ihr hs.2.2.2⟩

theorem splitLeafAt_id (p ln rn : ℕ) :
    ∀ t : ITree, p ∉ t.indices → t.splitLeafAt p ln rn = t := by
  intro t
  induction t with
  | leaf i =>
    intro hp
    have : i ≠ p := by
      intro h
      exact hp (by simp [ITree.indices, h])
    simp [ITree.splitLeafAt, this]
  | node i l r ihl ihr =>
    intro hp
    have hpl : p ∉ l.indices := fun h => hp (by simp [ITree.indices, h])
    have hpr : p ∉ r.indices := fun h => hp (by simp [ITree.indices, h])
    simp [ITree.splitLeafAt, ihl hpl, ihr hpr]

theorem splitLeafAt_indices (nodes : List TreeNode) (p ln rn : ℕ)
    (hp : (nodes.getD p default).left_child = none) :
    ∀ t : ITree, Spans nodes t → p ∈ t.indices → t.indices.Nodup →
      List.Perm (t.splitLeafAt p ln rn).indices (t.indices ++ [ln, rn]) := by
  intro t
  induction t with
  | leaf i =>
    intro _ hmem _
    have hip : i = p := by
      rcases (by simpa [ITree.indices] using hmem : p = i) with rfl
      rfl
    subst hip
    simp [ITree.splitLeafAt, ITree.indices]
  | node i l r ihl ihr =>
    intro hs hmem hnd
    simp only [Spans] at hs
    have hip : i ≠ p := by
      intro h
      rw [h] at hs
      rw [hs.1] at hp
      exact Option.some_ne_none _ hp
    have hnd' := hnd
    simp only [ITree.indices, List.nodup_cons, List.nodup_append] at hnd'
    obtain ⟨_, hndl, hndr, hdisj⟩ := hnd'
    have hmem' : p ∈ l.indices ∨ p ∈ r.indices := by
      rcases (by simpa [ITree.indices] using hmem) with h | h | h
      · exact absurd h.symm hip
      · exact Or.inl h
      · exact Or.inr h
    rcases hmem' with hpl | hpr
    · have hpnr : p ∉ r.indices := fun h => hdisj hpl h
      rw [show (ITree.node i l r).splitLeafAt p ln rn =
        ITree.node i (l.splitLeafAt p ln rn) (r.splitLeafAt p ln rn) from rfl,
        splitLeafAt_id p ln rn r hpnr]
      have ihl' := ihl hs.2.2.1 hpl hndl
      simp only [ITree.indices]
      refine List.Perm.cons i ?_
      refine (ihl'.append_right r.indices).trans ?_
      simp only [List.append_eq]
      rw [List.append_assoc, List.append_assoc]
      exact List.Perm.append_left _ List.perm_append_comm
    · have hpnl : p ∉ l.indices := fun h => hdisj h hpr
      rw [show (ITree.node i l r).splitLeafAt p ln rn =
        ITree.node i (l.splitLeafAt p ln rn) (r.splitLeafAt p ln rn) from rfl,
        splitLeafAt_id p ln rn l hpnl]
      have ihr' := ihr hs.2.2.2 hpr hndr
      simp only [ITree.indices]
      refine List.Perm.cons i ?_
      refine (ihr'.append_left l.indices).trans ?_
      simp only [List.append_eq]
      rw [List.append_assoc]

theorem getDAppendTwoAt0 {α : Type _} (A : List α) (x y d : α) :
    (A ++ [x, y]).getD A.length d = x := by
  simp [List.getD_eq_getElem?_getD, List.getElem?_append_right (le_refl A.length)]

theorem getDAppendTwoAt1 {α : Type _} (A : List α) (x y d : α) :
    (A ++ [x, y]).getD (A.length + 1) d = y := by
  simp [List.getD_eq_getElem?_getD,
    List.getElem?_append_right (Nat.le_succ_of_le (le_refl A.length))]

theorem spans_splitLeafAt (nodes : List TreeNode) (p : ℕ)
    (node' Lc Rc : TreeNode)
    (hp : p < nodes.length)
    (hpl : (nodes.getD p default).left_child = none)
    (hl' : node'.left_child = some nodes.length)
    (hr' : node'.right_child = some (nodes.length + 1))
    (hLc : Lc.left_child = none ∧ Lc.right_child = none)
    (hRc : Rc.left_child = none ∧ Rc.right_child = none) :
    ∀ t : ITree, Spans nodes t → (∀ i ∈ t.indices, i < nodes.length) →
      Spans ((nodes.set p node') ++ [Lc, Rc])
        (t.splitLeafAt p nodes.length (nodes.length + 1)) := by
  intro t
  have hgetd_lt : ∀ j, j < nodes.length → j ≠ p →
      ((nodes.set p node') ++ [Lc, Rc]).getD j default =
        nodes.getD j default := by
    intro j hj hjp
    rw [getDAppendLt _ _ _ _ (by simpa using hj), getDSetNe _ _ _ _ _ (Ne.symm hjp)]
  have hgetd_p : ((nodes.set p node') ++ [Lc, Rc]).getD p default = node' := by
    rw [getDAppendLt _ _ _ _ (by simpa using hp), getDSetSelf _ _ _ _ hp]
  have hgetd_li : ((nodes.set p node') ++ [Lc, Rc]).getD nodes.length default
      = Lc := by
    have := getDAppendTwoAt0 (nodes.set p node') Lc Rc default
    simpa using this
  have hgetd_ri : ((nodes.set p node') ++ [Lc, Rc]).getD
      (nodes.length + 1) default = Rc := by
    have := getDAppendTwoAt1 (nodes.set p node') Lc Rc default
    simpa using this
  induction t with
  | leaf i =>
    intro hs hlt
    simp only [Spans] at hs
    by_cases hip : i = p
    · subst hip
      simp only [ITree.splitLeafAt, if_pos rfl, Spans, ITree.rootIdx]
      rw [hgetd_p, hgetd_li, hgetd_ri]
      exact ⟨hl', hr', ⟨hLc.1, hLc.2⟩, ⟨hRc.1, hRc.2⟩⟩
    · simp only [ITree.splitLeafAt, if_neg hip, Spans]
      rw [hgetd_lt i (hlt i (by simp [ITree.indices, List.range_succ])) hip]
      exact hs
  | node i l r ihl ihr =>
    intro hs hlt
    simp only [Spans] at hs
    have hip : i ≠ p := by
      intro h
      rw [h] at hs
      rw [hs.1] at hpl
      exact Option.some_ne_none _ hpl
    simp only [ITree.splitLeafAt, Spans]
    rw [hgetd_lt i (hlt i (by simp [ITree.indices, List.range_succ])) hip,
      rootIdx_splitLeafAt, rootIdx_splitLeafAt]
    exact ⟨hs.1, hs.2.1,
      ihl hs.2.2.1 (fun j hj => hlt j (by simp [ITree.indices, hj])),
      ihr hs.2.2.2 (fun j hj => hlt j (by simp [ITree.indices, hj]))⟩

/-! ## Characterization of `_compute_spittability` -/

theorem computeSpittability_effects (g : TreeGrower) (i : ℕ)
    (hi : i < g.nodes.length) :
    (g.computeSpittability i).nodes.length = g.nodes.length ∧
    (∀ j, j ≠ i → (g.computeSpittability i).nodes.getD j default =
      g.nodes.getD j default) ∧
    (g.computeSpittability i).splitter = g.splitter ∧
    (g.computeSpittability i).max_leaf_nodes = g.max_leaf_nodes ∧
    (g.computeSpittability i).max_depth = g.max_depth ∧
    (g.computeSpittability i).min_gain_to_split = g.min_gain_to_split ∧
    (g.computeSpittability i).shrinkage = g.shrinkage ∧
    (g.computeSpittability i).n_nodes = g.n_nodes ∧
    (g.computeSpittability i).features_data = g.features_data ∧
    (((g.splitter.find_node_split
          (g.nodes.getD i default).sample_indices).gain <
        g.min_gain_to_split ∧
      (g.computeSpittability i).nodes.getD i default =
        { g.nodes.getD i default with
          split_info := some (g.splitter.find_node_split
            (g.nodes.getD i default).sample_indices)
          weight := some (g.leafWeight (g.nodes.getD i default)) } ∧
      (g.computeSpittability i).splittable_nodes = g.splittable_nodes ∧
      (g.computeSpittability i).finalized_leaves =
        g.finalized_leaves ++ [i]) ∨
     (¬ (g.splitter.find_node_split
          (g.nodes.getD i default).sample_indices).gain <
        g.min_gain_to_split ∧
      (g.computeSpittability i).nodes.getD i default =
        { g.nodes.getD i default with
          split_info := some (g.splitter.find_node_split
            (g.nodes.getD i default).sample_indices) } ∧
      List.Perm (g.computeSpittability i).splittable_nodes
        (i :: g.splittable_nodes) ∧
      (g.computeSpittability i).finalized_leaves = g.finalized_leaves)) := by
  rcases computeSpittability_cases g i with ⟨hlt, heq⟩ | ⟨hge, heq⟩
  · rw [heq]
    refine ⟨by simp, ?_, rfl, rfl, rfl, rfl, rfl, rfl, rfl, Or.inl ⟨hlt, ?_, rfl, rfl⟩⟩
    · intro j hj
      rw [finalizeLeaf_getD_ne _ _ _ (Ne.symm hj)]
      exact getDSetNe _ _ _ _ _ (Ne.symm hj)
    · rw [finalizeLeaf_getD_self _ _ (by simpa using hi)]
      rw [getDSetSelf _ _ _ _ hi]
      rfl
  · rw [heq]
    refine ⟨by simp, ?_, rfl, rfl, rfl, rfl, rfl, rfl, rfl, Or.inr ⟨hge, ?_, ?_, rfl⟩⟩
    · intro j hj
      exact getDSetNe _ _ _ _ _ (Ne.symm hj)
    · exact getDSetSelf _ _ _ _ hi
    · exact heappush_perm _ _ _

/-! ## Establishing the mid-state invariant after a pop and link -/

theorem midInv_established (g0 : TreeGrower) (p : ℕ) (rest : List ℕ)
    (hInv : GInv g0)
    (hperm : List.Perm g0.splittable_nodes (p :: rest))
    (si : SplitInfo) (part : List ℕ × List ℕ) :
    MidInv
      { g0 with
        splittable_nodes := rest
        nodes := (g0.nodes.set p
          { g0.nodes.getD p default with
            left_child := some g0.nodes.length
            right_child := some (g0.nodes.length + 1) })
          ++ [{ depth := (g0.nodes.getD p default).depth + 1
                sample_indices := part.1
                sum_gradients := si.gradient_left
                sum_hessians := si.hessian_left },
              { depth := (g0.nodes.getD p default).depth + 1
                sample_indices := part.2
                sum_gradients := si.gradient_right
                sum_hessians := si.hessian_right }]
        n_nodes := g0.n_nodes + 2 }
      g0.nodes.length (g0.nodes.length + 1) := by
  have hpmem : p ∈ g0.splittable_nodes := hperm.mem_iff.mpr (by simp)
  have hplt : p < g0.nodes.length := hInv.queue_lt p hpmem
  have hpshape := hInv.queue_shape p hpmem
  have hnodup : (p :: rest).Nodup := hperm.nodup_iff.mp hInv.queue_nodup
  have hpnrest : p ∉ rest := (List.nodup_cons.mp hnodup).1
  have hrestnd : rest.Nodup := (List.nodup_cons.mp hnodup).2
  have hrestmem : ∀ i ∈ rest, i ∈ g0.splittable_nodes := by
    intro i hi
    exact hperm.mem_iff.mpr (by simp [hi])
  have hQlen : g0.splittable_nodes.length = rest.length + 1 := by
    simpa using hperm.length_eq
  set node' : TreeNode :=
    { g0.nodes.getD p default with
      left_child := some g0.nodes.length
      right_child := some (g0.nodes.length + 1) } with hnode'
  set Lc : TreeNode :=
    { depth := (g0.nodes.getD p default).depth + 1
      sample_indices := part.1
      sum_gradients := si.gradient_left
      sum_hessians := si.hessian_left } with hLc
  set Rc : TreeNode :=
    { depth := (g0.nodes.getD p default).depth + 1
      sample_indices := part.2
      sum_gradients := si.gradient_right
      sum_hessians := si.hessian_right } with hRc
  set A : List TreeNode := (g0.nodes.set p node') ++ [Lc, Rc] with hA
  have hAlen : A.length = g0.nodes.length + 2 := by
    simp [hA]
  have hgetd_lt : ∀ j, j < g0.nodes.length → j ≠ p →
      A.getD j default = g0.nodes.getD j default := by
    intro j hj hjp
    rw [hA, getDAppendLt _ _ _ _ (by simpa using hj),
      getDSetNe _ _ _ _ _ (Ne.symm hjp)]
  have hgetd_p : A.getD p default = node' := by
    rw [hA, getDAppendLt _ _ _ _ (by simpa using hplt),
      getDSetSelf _ _ _ _ hplt]
  have hgetd_li : A.getD g0.nodes.length default = Lc := by
    have := getDAppendTwoAt0 (g0.nodes.set p node') Lc Rc default
    rw [hA]
    simpa using this
  have hgetd_ri : A.getD (g0.nodes.length + 1) default = Rc := by
    have := getDAppendTwoAt1 (g0.nodes.set p node') Lc Rc default
    rw [hA]
    simpa using this
  have hdepth_pres : ∀ j, j < g0.nodes.length →
      (A.getD j default).depth = (g0.nodes.getD j default).depth := by
    intro j hj
    by_cases hjp : j = p
    · subst hjp
      rw [hgetd_p]
    · rw [hgetd_lt j hj hjp]
  refine
    { ri_def := rfl
      len_def := by simpa using hAlen
      nnodes_eq := by simpa using (by rw [hInv.nnodes_eq] : g0.n_nodes + 2 = g0.nodes.length + 2).trans hAlen.symm
      queue_lt := ?_
      queue_nodup := hrestnd
      queue_shape := ?_
      leaves_lt := ?_
      leaves_weight := ?_
      states := ?_
      fresh_li := ?_
      fresh_ri := ?_
      count := ?_
      child_depth := ?_
      depth_eq := ?_
      depth_le := ?_
      budget := ?_
      span := ?_ }
  · intro i hi
    exact hInv.queue_lt i (hrestmem i hi)
  · intro i hi
    have hiq := hrestmem i hi
    have hip : i ≠ p := fun h => hpnrest (h ▸ hi)
    rw [hgetd_lt i (hInv.queue_lt i hiq) hip]
    exact hInv.queue_shape i hiq
  · intro i hi
    exact hInv.leaves_lt i hi
  · intro i hi
    have hilt := hInv.leaves_lt i hi
    have hw := hInv.leaves_weight i hi
    have hip : i ≠ p := by
      intro h
      rw [h] at hw
      rw [hpshape.2.1] at hw
      exact Option.noConfusion hw
    rw [hgetd_lt i hilt hip]
    exact hw
  · intro i hi
    by_cases hip : i = p
    · subst hip
      refine Or.inr (Or.inl ?_)
      refine ⟨?_, ?_, ?_, ?_⟩
      · rw [hgetd_p]
        exact hpshape.1
      · rw [hgetd_p]
        rfl
      · rw [hgetd_p]
        rfl
      · rw [hgetd_p]
        exact hpshape.2.1
    · rcases hInv.states i hi with h | h | h
      · exact Or.inl (by rw [hgetd_lt i hi hip]; exact h)
      · exact Or.inr (Or.inl (by rw [hgetd_lt i hi hip]; exact h))
      · have hm := hperm.mem_iff.mp h
        rcases List.mem_cons.mp hm with h1 | h1
        · exact absurd h1 hip
        · exact Or.inr (Or.inr h1)
  · rw [hgetd_li]
    refine ⟨rfl, rfl, rfl, rfl⟩
  · rw [hgetd_ri]
    refine ⟨rfl, rfl, rfl, rfl⟩
  · dsimp only
    have hcnt := hInv.count
    rw [hQlen] at hcnt
    rw [hAlen]
    omega
  · dsimp only
    intro i hi c hc
    rw [hAlen] at hi
    rcases lt_trichotomy i g0.nodes.length with hilt | hieq | higt
    · by_cases hip : i = p
      · subst hip
        rw [hgetd_p] at hc
        rcases hc with hc | hc
        · have hceq : c = g0.nodes.length := by
            have h2 := hc
            simp only [hnode'] at h2
            exact (Option.some_inj.mp h2).symm
          subst hceq
          refine ⟨by rw [hAlen]; omega, ?_⟩
          rw [hgetd_li, hgetd_p]
        · have hceq : c = g0.nodes.length + 1 := by
            have h2 := hc
            simp only [hnode'] at h2
            exact (Option.some_inj.mp h2).symm
          subst hceq
          refine ⟨by rw [hAlen]; omega, ?_⟩
          rw [hgetd_ri, hgetd_p]
      · rw [hgetd_lt i hilt hip] at hc
        obtain ⟨hclt, hcdepth⟩ := hInv.child_depth i hilt c hc
        refine ⟨by rw [hAlen]; omega, ?_⟩
        rw [hdepth_pres c hclt, hgetd_lt i hilt hip, hcdepth]
    · subst hieq
      rw [hgetd_li] at hc
      rcases hc with hc | hc <;> exact Option.noConfusion hc
    · have hieq : i = g0.nodes.length + 1 := by omega
      subst hieq
      rw [hgetd_ri] at hc
      rcases hc with hc | hc <;> exact Option.noConfusion hc
  · rw [hgetd_li, hgetd_ri]
  · dsimp only
    intro d hd
    have hold := hInv.depth_le d hd
    have hpd : ((g0.nodes.getD p default).depth : ℤ) < d := hold.2 p hpmem
    constructor
    · intro i hi
      rw [hAlen] at hi
      rcases lt_trichotomy i g0.nodes.length with hilt | hieq | higt
      · rw [hdepth_pres i hilt]
        exact hold.1 i hilt
      · subst hieq
        rw [hgetd_li]
        simp only [hLc]
        push_cast
        omega
      · have hieq : i = g0.nodes.length + 1 := by omega
        subst hieq
        rw [hgetd_ri]
        simp only [hRc]
        push_cast
        omega
    · intro i hi
      have hiq := hrestmem i hi
      have hip : i ≠ p := fun h => hpnrest (h ▸ hi)
      rw [hdepth_pres i (hInv.queue_lt i hiq)]
      exact hold.2 i hiq
  · dsimp only
    intro hmd m hm
    have hb := (hInv.budget hmd m hm).2 (by
      intro h
      rw [h] at hQlen
      simp at hQlen)
    rw [hQlen] at hb
    push_cast at hb ⊢
    omega
  · dsimp only
    obtain ⟨t, hroot, hspans, hind⟩ := hInv.span
    have htlt : ∀ i ∈ t.indices, i < g0.nodes.length := by
      intro i hi
      have := hind.mem_iff.mp hi
      simpa using this
    have hpl : (g0.nodes.getD p default).left_child = none := hpshape.2.2.1
    refine ⟨t.splitLeafAt p g0.nodes.length (g0.nodes.length + 1),
      by rw [rootIdx_splitLeafAt, hroot], ?_, ?_⟩
    · have := spans_splitLeafAt g0.nodes p node' Lc Rc hplt hpl
        (by simp [hnode']) (by simp [hnode']) ⟨rfl, rfl⟩ ⟨rfl, rfl⟩ t hspans htlt
      simpa [hA] using this
    · have hpmem_t : p ∈ t.indices := by
        rw [hind.mem_iff]
        simpa using hplt
      have hndt : t.indices.Nodup :=
        hind.nodup_iff.mpr (List.nodup_range _)
      have h1 := splitLeafAt_indices g0.nodes p g0.nodes.length
        (g0.nodes.length + 1) hpl t hspans hpmem_t hndt
      refine h1.trans ?_
      have h2 : List.Perm (t.indices ++ [g0.nodes.length, g0.nodes.length + 1])
          (List.range g0.nodes.length ++ [g0.nodes.length, g0.nodes.length + 1]) :=
        hind.append_right _
      refine h2.trans ?_
      have h3 : List.range (g0.nodes.length + 2) =
          List.range g0.nodes.length ++ [g0.nodes.length, g0.nodes.length + 1] := by
        rw [List.range_succ, List.range_succ]
        simp
      rw [hAlen, h3]

/-! ## Invariant preservation through the three `split_next` endings -/

theorem GInv_finalize_children (g : TreeGrower) (li ri : ℕ)
    (M : MidInv g li ri) (hmd : g.max_depth ≠ none) :
    GInv ((g.finalizeLeaf li).finalizeLeaf ri) := by
  have hrine : ri ≠ li := by rw [M.ri_def]; omega
  have hlilen : li < g.nodes.length := by rw [M.len_def]; omega
  have hrilen : ri < g.nodes.length := by rw [M.ri_def, M.len_def]; omega
  set gf : TreeGrower := (g.finalizeLeaf li).finalizeLeaf ri with hgf
  have hlen : gf.nodes.length = g.nodes.length := by simp [hgf]
  have hne : ∀ j, j ≠ li → j ≠ ri →
      gf.nodes.getD j default = g.nodes.getD j default := by
    intro j h1 h2
    rw [hgf, finalizeLeaf_getD_ne _ _ _ (Ne.symm h2),
      finalizeLeaf_getD_ne _ _ _ (Ne.symm h1)]
  have hli : gf.nodes.getD li default =
      { g.nodes.getD li default with
        weight := some (g.leafWeight (g.nodes.getD li default)) } := by
    rw [hgf, finalizeLeaf_getD_ne _ _ _ hrine,
      finalizeLeaf_getD_self _ _ hlilen]
  have hri : gf.nodes.getD ri default =
      { g.nodes.getD ri default with
        weight := some (g.leafWeight (g.nodes.getD ri default)) } := by
    rw [hgf, finalizeLeaf_getD_self _ _ (by simpa using hrilen),
      finalizeLeaf_getD_ne _ _ _ (Ne.symm hrine)]
    rfl
  have hpres : ∀ j, (gf.nodes.getD j default).left_child =
      (g.nodes.getD j default).left_child ∧
      (gf.nodes.getD j default).right_child =
      (g.nodes.getD j default).right_child ∧
      (gf.nodes.getD j default).depth = (g.nodes.getD j default).depth := by
    intro j
    by_cases h1 : j = li
    · subst h1
      rw [hli]
      exact ⟨rfl, rfl, rfl⟩
    · by_cases h2 : j = ri
      · subst h2
        rw [hri]
        exact ⟨rfl, rfl, rfl⟩
      · rw [hne j h1 h2]
        exact ⟨rfl, rfl, rfl⟩
  have hqf : gf.splittable_nodes = g.splittable_nodes := by simp [hgf]
  have hlf : gf.finalized_leaves = (g.finalized_leaves ++ [li]) ++ [ri] := by
    simp [hgf]
  refine
    { nnodes_eq := by rw [hlen, hgf]; simpa using M.nnodes_eq
      queue_lt := ?_
      queue_nodup := by rw [hqf]; exact M.queue_nodup
      queue_shape := ?_
      leaves_lt := ?_
      leaves_weight := ?_
      states := ?_
      count := ?_
      child_depth := ?_
      depth_le := ?_
      budget := ?_
      span := ?_ }
  · intro i hi
    rw [hqf] at hi
    rw [hlen]
    exact lt_trans (M.queue_lt i hi) hlilen
  · intro i hi
    rw [hqf] at hi
    have h1 : i ≠ li := by have := M.queue_lt i hi; omega
    have h2 : i ≠ ri := by have := M.queue_lt i hi; rw [M.ri_def]; omega
    rw [hne i h1 h2]
    exact M.queue_shape i hi
  · intro i hi
    rw [hlf] at hi
    rw [hlen]
    rcases (by simpa using hi : i ∈ g.finalized_leaves ∨ i = li ∨ i = ri)
      with h | rfl | rfl
    · exact lt_trans (M.leaves_lt i h) hlilen
    · exact hlilen
    · exact hrilen
  · intro i hi
    rw [hlf] at hi
    rcases (by simpa using hi : i ∈ g.finalized_leaves ∨ i = li ∨ i = ri)
      with h | rfl | rfl
    · have h1 : i ≠ li := by have := M.leaves_lt i h; omega
      have h2 : i ≠ ri := by have := M.leaves_lt i h; rw [M.ri_def]; omega
      rw [hne i h1 h2]
      exact M.leaves_weight i h
    · rw [hli]
      rfl
    · rw [hri]
      rfl
  · intro i hi
    rw [hlen] at hi
    rw [M.len_def] at hi
    rcases lt_trichotomy i li with h | rfl | h
    · rcases M.states i h with hs | hs | hs
      · refine Or.inl ?_
        have h2 : i ≠ ri := by rw [M.ri_def]; omega
        rw [hne i (by omega) h2]
        exact hs
      · refine Or.inr (Or.inl ?_)
        have h2 : i ≠ ri := by rw [M.ri_def]; omega
        rw [hne i (by omega) h2]
        exact hs
      · exact Or.inr (Or.inr (by rw [hqf]; exact hs))
    · refine Or.inl ?_
      rw [hli]
      exact ⟨rfl, M.fresh_li.2.2.1, M.fresh_li.2.2.2⟩
    · have hieq : i = ri := by rw [M.ri_def]; omega
      subst hieq
      refine Or.inl ?_
      rw [hri]
      exact ⟨rfl, M.fresh_ri.2.2.1, M.fresh_ri.2.2.2⟩
  · rw [hlen, hqf, hlf]
    have := M.count
    simp only [List.length_append, List.length_cons, List.length_nil]
    omega
  · intro i hi c hc
    rw [hlen] at hi
    have hlink := (hpres i).1
    have hlink2 := (hpres i).2.1
    have hc' : (g.nodes.getD i default).left_child = some c ∨
        (g.nodes.getD i default).right_child = some c := by
      rcases hc with hc | hc
      · exact Or.inl (hlink ▸ hc)
      · exact Or.inr (hlink2 ▸ hc)
    obtain ⟨hclt, hcd⟩ := M.child_depth i hi c hc'
    refine ⟨by rw [hlen]; exact hclt, ?_⟩
    rw [(hpres c).2.2, (hpres i).2.2, hcd]
  · intro d hd
    rw [hgf] at hd
    simp only [finalizeLeaf_max_depth] at hd
    obtain ⟨h1, h2⟩ := M.depth_le d hd
    constructor
    · intro i hi
      rw [hlen] at hi
      rw [(hpres i).2.2]
      exact h1 i hi
    · intro i hi
      rw [hqf] at hi
      rw [(hpres i).2.2]
      exact h2 i hi
  · intro h
    rw [hgf] at h
    simp only [finalizeLeaf_max_depth] at h
    exact absurd h hmd
  · obtain ⟨t, hroot, hspans, hind⟩ := M.span
    refine ⟨t, hroot, ?_, by rw [hlen]; exact hind⟩
    exact spans_mono g.nodes gf.nodes (fun j => ⟨(hpres j).1, (hpres j).2.1⟩)
      t hspans

theorem GInv_budget_drain (g : TreeGrower) (li ri : ℕ)
    (M : MidInv g li ri) :
    GInv (((g.finalizeLeaf li).finalizeLeaf ri).finalizeSplittableNodes) := by
  have hrine : ri ≠ li := by rw [M.ri_def]; omega
  have hlilen : li < g.nodes.length := by rw [M.len_def]; omega
  have hrilen : ri < g.nodes.length := by rw [M.ri_def, M.len_def]; omega
  set gf : TreeGrower := (g.finalizeLeaf li).finalizeLeaf ri with hgf
  have hlen : gf.nodes.length = g.nodes.length := by simp [hgf]
  have hne : ∀ j, j ≠ li → j ≠ ri →
      gf.nodes.getD j default = g.nodes.getD j default := by
    intro j h1 h2
    rw [hgf, finalizeLeaf_getD_ne _ _ _ (Ne.symm h2),
      finalizeLeaf_getD_ne _ _ _ (Ne.symm h1)]
  have hli : gf.nodes.getD li default =
      { g.nodes.getD li default with
        weight := some (g.leafWeight (g.nodes.getD li default)) } := by
    rw [hgf, finalizeLeaf_getD_ne _ _ _ hrine,
      finalizeLeaf_getD_self _ _ hlilen]
  have hri : gf.nodes.getD ri default =
      { g.nodes.getD ri default with
        weight := some (g.leafWeight (g.nodes.getD ri default)) } := by
    rw [hgf, finalizeLeaf_getD_self _ _ (by simpa using hrilen),
      finalizeLeaf_getD_ne _ _ _ (Ne.symm hrine)]
    rfl
  have hqf : gf.splittable_nodes = g.splittable_nodes := by simp [hgf]
  have hlf : gf.finalized_leaves = (g.finalized_leaves ++ [li]) ++ [ri] := by
    simp [hgf]
  have hqlt : ∀ i ∈ gf.splittable_nodes, i < gf.nodes.length := by
    intro i hi
    rw [hqf] at hi
    rw [hlen]
    exact lt_trans (M.queue_lt i hi) hlilen
  obtain ⟨d1, d2, d3, d4, d5, d6, d7, d8, d9, d10, d11, d12⟩ :=
    drainAux_spec gf.splittable_nodes.length gf (le_refl _)
      (by rw [hqf]; exact M.queue_nodup) hqlt
  set gb : TreeGrower := gf.finalizeSplittableNodes with hgb
  have hblen : gb.nodes.length = g.nodes.length := by
    rw [hgb, TreeGrower.finalizeSplittableNodes, d3, hlen]
  have hbq : gb.splittable_nodes = [] := d1
  have hbl : gb.finalized_leaves =
      gf.finalized_leaves ++ gf.splittable_nodes.reverse := d2
  have hqmem_lt : ∀ j ∈ gf.splittable_nodes, j < li := by
    intro j hj
    rw [hqf] at hj
    exact M.queue_lt j hj
  have hbne : ∀ j, j ∉ gf.splittable_nodes →
      gb.nodes.getD j default = gf.nodes.getD j default := d4
  have hbq_upd : ∀ j ∈ gf.splittable_nodes,
      gb.nodes.getD j default =
        { gf.nodes.getD j default with
          weight := some (gf.leafWeight (gf.nodes.getD j default)) } := d5
  have hlint : li ∉ gf.splittable_nodes := fun h => by
    have := hqmem_lt li h
    omega
  have hrint : ri ∉ gf.splittable_nodes := fun h => by
    have := hqmem_lt ri h
    rw [M.ri_def] at this
    omega
  have hpres : ∀ j, (gb.nodes.getD j default).left_child =
      (g.nodes.getD j default).left_child ∧
      (gb.nodes.getD j default).right_child =
      (g.nodes.getD j default).right_child ∧
      (gb.nodes.getD j default).depth = (g.nodes.getD j default).depth := by
    intro j
    by_cases hjq : j ∈ gf.splittable_nodes
    · have h1 : j ≠ li := fun h => hlint (h ▸ hjq)
      have h2 : j ≠ ri := fun h => hrint (h ▸ hjq)
      rw [hbq_upd j hjq, hne j h1 h2]
      exact ⟨rfl, rfl, rfl⟩
    · rw [hbne j hjq]
      by_cases h1 : j = li
      · subst h1
        rw [hli]
        exact ⟨rfl, rfl, rfl⟩
      · by_cases h2 : j = ri
        · subst h2
          rw [hri]
          exact ⟨rfl, rfl, rfl⟩
        · rw [hne j h1 h2]
          exact ⟨rfl, rfl, rfl⟩
  refine
    { nnodes_eq := by
        rw [hblen, hgb, TreeGrower.finalizeSplittableNodes, d11, hgf]
        simpa using M.nnodes_eq
      queue_lt := by
        intro i hi
        rw [hbq] at hi
        exact absurd hi (List.not_mem_nil i)
      queue_nodup := by rw [hbq]; exact List.nodup_nil
      queue_shape := by
        intro i hi
        rw [hbq] at hi
        exact absurd hi (List.not_mem_nil i)
      leaves_lt := ?_
      leaves_weight := ?_
      states := ?_
      count := ?_
      child_depth := ?_
      depth_le := ?_
      budget := ?_
      span := ?_ }
  · intro i hi
    rw [hbl, hlf] at hi
    rw [hblen]
    rcases (by simpa using hi :
        i ∈ g.finalized_leaves ∨ i = li ∨ i = ri ∨
        i ∈ gf.splittable_nodes) with h | rfl | rfl | h
    · exact lt_trans (M.leaves_lt i h) hlilen
    · exact hlilen
    · exact hrilen
    · exact lt_trans (hqmem_lt i h) hlilen
  · intro i hi
    have hlw : ∀ n : TreeNode, gb.leafWeight n = g.leafWeight n := by
      intro n
      simp only [TreeGrower.leafWeight]
      rw [hgb, TreeGrower.finalizeSplittableNodes, d10, d6]
      rw [hgf]
      simp
    rw [hlw]
    rw [hbl, hlf] at hi
    rcases (by simpa using hi :
        i ∈ g.finalized_leaves ∨ i = li ∨ i = ri ∨
        i ∈ gf.splittable_nodes) with h | hil | hir | h
    · have h1 : i ≠ li := by have := M.leaves_lt i h; omega
      have h2 : i ≠ ri := by have := M.leaves_lt i h; rw [M.ri_def]; omega
      have hiq : i ∉ gf.splittable_nodes := by
        intro hq
        have hw := M.leaves_weight i h
        have hwn := (M.queue_shape i (hqf ▸ hq)).2.1
        rw [hwn] at hw
        exact Option.noConfusion hw
      rw [hbne i hiq, hne i h1 h2]
      exact M.leaves_weight i h
    · rw [hil, hbne li hlint, hli]
      rfl
    · rw [hir, hbne ri hrint, hri]
      rfl
    · have h1 : i ≠ li := fun hx => hlint (hx ▸ h)
      have h2 : i ≠ ri := fun hx => hrint (hx ▸ h)
      rw [hbq_upd i h, hne i h1 h2]
      rfl
  · intro i hi
    rw [hblen, M.len_def] at hi
    rcases lt_trichotomy i li with h | hil | h
    · rcases M.states i h with hs | hs | hs
      · have hiq : i ∉ gf.splittable_nodes := by
          intro hq
          have hwn := (M.queue_shape i (hqf ▸ hq)).2.1
          obtain ⟨hw, _, _⟩ := hs
          rw [hwn] at hw
          simp at hw
        refine Or.inl ?_
        rw [hbne i hiq, hne i (by omega) (by rw [M.ri_def]; omega)]
        exact hs
      · have hiq : i ∉ gf.splittable_nodes := by
          intro hq
          have hcn := (M.queue_shape i (hqf ▸ hq)).2.2.1
          obtain ⟨_, hl, _, _⟩ := hs
          rw [hcn] at hl
          simp at hl
        refine Or.inr (Or.inl ?_)
        rw [hbne i hiq, hne i (by omega) (by rw [M.ri_def]; omega)]
        exact hs
      · refine Or.inl ?_
        have hq : i ∈ gf.splittable_nodes := hqf ▸ hs
        rw [hbq_upd i hq, hne i (by omega) (by rw [M.ri_def]; omega)]
        have hshape := M.queue_shape i hs
        exact ⟨rfl, hshape.2.2.1, hshape.2.2.2⟩
    · refine Or.inl ?_
      rw [hil, hbne li hlint, hli]
      exact ⟨rfl, M.fresh_li.2.2.1, M.fresh_li.2.2.2⟩
    · have hieq : i = ri := by rw [M.ri_def]; omega
      refine Or.inl ?_
      rw [hieq, hbne ri hrint, hri]
      exact ⟨rfl, M.fresh_ri.2.2.1, M.fresh_ri.2.2.2⟩
  · rw [hblen, hbq, hbl, hlf, hqf]
    have := M.count
    simp only [List.length_append, List.length_cons, List.length_nil,
      List.length_reverse]
    omega
  · intro i hi c hc
    rw [hblen] at hi
    have hc' : (g.nodes.getD i default).left_child = some c ∨
        (g.nodes.getD i default).right_child = some c := by
      rcases hc with hc | hc
      · exact Or.inl ((hpres i).1 ▸ hc)
      · exact Or.inr ((hpres i).2.1 ▸ hc)
    obtain ⟨hclt, hcd⟩ := M.child_depth i hi c hc'
    refine ⟨by rw [hblen]; exact hclt, ?_⟩
    rw [(hpres c).2.2, (hpres i).2.2, hcd]
  · intro d hd
    have hd' : g.max_depth = some d := by
      rw [hgb, TreeGrower.finalizeSplittableNodes] at hd
      rw [d8, hgf] at hd
      simpa using hd
    obtain ⟨h1, _⟩ := M.depth_le d hd'
    refine ⟨?_, ?_⟩
    · intro i hi
      rw [hblen] at hi
      rw [(hpres i).2.2]
      exact h1 i hi
    · intro i hi
      rw [hbq] at hi
      exact absurd hi (List.not_mem_nil i)
  · intro hmd m hm
    have hmd' : g.max_depth = none := by
      rw [hgb, TreeGrower.finalizeSplittableNodes] at hmd
      rw [d8, hgf] at hmd
      simpa using hmd
    have hm' : g.max_leaf_nodes = some m := by
      rw [hgb, TreeGrower.finalizeSplittableNodes] at hm
      rw [d7, hgf] at hm
      simpa using hm
    have hb := M.budget hmd' m hm'
    constructor
    · rw [hbq, hbl, hlf, hqf]
      simp only [List.length_append, List.length_cons, List.length_nil,
        List.length_reverse]
      push_cast
      push_cast at hb
      omega
    · intro h
      rw [hbq] at h
      exact absurd rfl h
  · obtain ⟨t, hroot, hspans, hind⟩ := M.span
    refine ⟨t, hroot, ?_, by rw [hblen]; exact hind⟩
    exact spans_mono g.nodes gb.nodes (fun j => ⟨(hpres j).1, (hpres j).2.1⟩)
      t hspans

theorem GInv_evaluate_children (g : TreeGrower) (li ri : ℕ)
    (M : MidInv g li ri)
    (hdepth : ∀ d : ℤ, g.max_depth = some d →
      ((g.nodes.getD li default).depth : ℤ) < d)
    (hbudget : g.max_depth = none → ∀ m : ℤ, g.max_leaf_nodes = some m →
      (g.finalized_leaves.length + g.splittable_nodes.length + 2 : ℤ) < m) :
    GInv ((g.computeSpittability li).computeSpittability ri) := by
  have hrine : ri ≠ li := by rw [M.ri_def]; omega
  have hlirine : li ≠ ri := Ne.symm hrine
  have hlilen : li < g.nodes.length := by rw [M.len_def]; omega
  have hrilen : ri < g.nodes.length := by rw [M.ri_def, M.len_def]; omega
  have hliQ : li ∉ g.splittable_nodes := fun h => by
    have := M.queue_lt li h
    omega
  have hriQ : ri ∉ g.splittable_nodes := fun h => by
    have := M.queue_lt ri h
    rw [M.ri_def] at this
    omega
  set g1 : TreeGrower := g.computeSpittability li with hg1
  obtain ⟨e1len, e1ne, e1sp, e1mln, e1md, e1mg, e1sh, e1nn, e1fd, e1case⟩ :=
    computeSpittability_effects g li hlilen
  have hrilen1 : ri < g1.nodes.length := by rw [hg1, e1len]; exact hrilen
  set g2 : TreeGrower := g1.computeSpittability ri with hg2
  obtain ⟨e2len, e2ne, e2sp, e2mln, e2md, e2mg, e2sh, e2nn, e2fd, e2case⟩ :=
    computeSpittability_effects g1 ri hrilen1
  have hlen2 : g2.nodes.length = g.nodes.length := by
    rw [hg2, e2len, hg1, e1len]
  have hne2 : ∀ j, j ≠ li → j ≠ ri →
      g2.nodes.getD j default = g.nodes.getD j default := by
    intro j h1 h2
    rw [hg2, e2ne j h2, hg1, e1ne j h1]
  have hgli1 : g2.nodes.getD li default = g1.nodes.getD li default := by
    rw [hg2, e2ne li hlirine]
  have hgri_base : g1.nodes.getD ri default = g.nodes.getD ri default := by
    rw [hg1, e1ne ri hrine]
  have hlw1 : ∀ n : TreeNode, g1.leafWeight n = g.leafWeight n := by
    intro n
    simp only [TreeGrower.leafWeight]
    rw [e1sh, e1sp]
  have hlw2 : ∀ n : TreeNode, g2.leafWeight n = g.leafWeight n := by
    intro n
    simp only [TreeGrower.leafWeight]
    rw [e2sh, e2sp, e1sh, e1sp]
  have hmd2 : g2.max_depth = g.max_depth := by rw [hg2, e2md, hg1, e1md]
  have hmln2 : g2.max_leaf_nodes = g.max_leaf_nodes := by
    rw [hg2, e2mln, hg1, e1mln]
  have hpres : ∀ j, (g2.nodes.getD j default).left_child =
      (g.nodes.getD j default).left_child ∧
      (g2.nodes.getD j default).right_child =
      (g.nodes.getD j default).right_child ∧
      (g2.nodes.getD j default).depth = (g.nodes.getD j default).depth := by
    intro j
    by_cases h1 : j = li
    · subst h1
      rcases e1case with ⟨_, h1node, _, _⟩ | ⟨_, h1node, _, _⟩ <;>
        rw [hgli1, hg1, h1node] <;> exact ⟨rfl, rfl, rfl⟩
    · by_cases h2 : j = ri
      · subst h2
        rcases e2case with ⟨_, h2node, _, _⟩ | ⟨_, h2node, _, _⟩ <;>
          rw [hg2, h2node, hgri_base] <;> exact ⟨rfl, rfl, rfl⟩
      · rw [hne2 j h1 h2]
        exact ⟨rfl, rfl, rfl⟩
  have hli_split : (g2.nodes.getD li default).split_info.isSome := by
    rcases e1case with ⟨_, h1node, _, _⟩ | ⟨_, h1node, _, _⟩ <;>
      rw [hgli1, hg1, h1node] <;> rfl
  have hri_split : (g2.nodes.getD ri default).split_info.isSome := by
    rcases e2case with ⟨_, h2node, _, _⟩ | ⟨_, h2node, _, _⟩ <;>
      rw [hg2, h2node] <;> rfl
  have hquad :
      (g2.splittable_nodes = g.splittable_nodes ∧
       g2.finalized_leaves = (g.finalized_leaves ++ [li]) ++ [ri] ∧
       (g2.nodes.getD li default).weight =
         some (g.leafWeight (g.nodes.getD li default)) ∧
       (g2.nodes.getD ri default).weight =
         some (g.leafWeight (g.nodes.getD ri default))) ∨
      (List.Perm g2.splittable_nodes (ri :: g.splittable_nodes) ∧
       g2.finalized_leaves = g.finalized_leaves ++ [li] ∧
       (g2.nodes.getD li default).weight =
         some (g.leafWeight (g.nodes.getD li default)) ∧
       (g2.nodes.getD ri default).weight = none) ∨
      (List.Perm g2.splittable_nodes (li :: g.splittable_nodes) ∧
       g2.finalized_leaves = g.finalized_leaves ++ [ri] ∧
       (g2.nodes.getD li default).weight = none ∧
       (g2.nodes.getD ri default).weight =
         some (g.leafWeight (g.nodes.getD ri default))) ∨
      (List.Perm g2.splittable_nodes (ri :: li :: g.splittable_nodes) ∧
       g2.finalized_leaves = g.finalized_leaves ∧
       (g2.nodes.getD li default).weight = none ∧
       (g2.nodes.getD ri default).weight = none) := by
    rcases e1case with ⟨_, h1node, h1q, h1l⟩ | ⟨_, h1node, h1q, h1l⟩ <;>
      rcases e2case with ⟨_, h2node, h2q, h2l⟩ | ⟨_, h2node, h2q, h2l⟩
    · refine Or.inl ⟨?_, ?_, ?_, ?_⟩
      · rw [hg2, h2q, hg1, h1q]
      · rw [hg2, h2l, hg1, h1l]
      · rw [hgli1, hg1, h1node]
      · rw [hg2, h2node, hgri_base, hlw1]
    · refine Or.inr (Or.inl ⟨?_, ?_, ?_, ?_⟩)
      · rw [hg2]
        refine h2q.trans ?_
        rw [hg1, h1q]
      · rw [hg2, h2l, hg1, h1l]
      · rw [hgli1, hg1, h1node]
      · rw [hg2, h2node, hgri_base]
        exact M.fresh_ri.2.1
    · refine Or.inr (Or.inr (Or.inl ⟨?_, ?_, ?_, ?_⟩))
      · rw [hg2, h2q, hg1]
        exact h1q
      · rw [hg2, h2l, hg1, h1l]
      · rw [hgli1, hg1, h1node]
        exact M.fresh_li.2.1
      · rw [hg2, h2node, hgri_base, hlw1]
    · refine Or.inr (Or.inr (Or.inr ⟨?_, ?_, ?_, ?_⟩))
      · rw [hg2]
        refine h2q.trans ?_
        refine List.Perm.cons ri ?_
        rw [hg1]
        exact h1q
      · rw [hg2, h2l, hg1, h1l]
      · rw [hgli1, hg1, h1node]
        exact M.fresh_li.2.1
      · rw [hg2, h2node, hgri_base]
        exact M.fresh_ri.2.1
  have hqmem : ∀ x ∈ g2.splittable_nodes,
      x = li ∨ x = ri ∨ x ∈ g.splittable_nodes := by
    intro x hx
    rcases hquad with ⟨hq, _, _, _⟩ | ⟨hq, _, _, _⟩ | ⟨hq, _, _, _⟩ |
      ⟨hq, _, _, _⟩
    · exact Or.inr (Or.inr (hq ▸ hx))
    · rcases List.mem_cons.mp (hq.mem_iff.mp hx) with h | h
      · exact Or.inr (Or.inl h)
      · exact Or.inr (Or.inr h)
    · rcases List.mem_cons.mp (hq.mem_iff.mp hx) with h | h
      · exact Or.inl h
      · exact Or.inr (Or.inr h)
    · rcases List.mem_cons.mp (hq.mem_iff.mp hx) with h | h
      · exact Or.inr (Or.inl h)
      · rcases List.mem_cons.mp h with h' | h'
        · exact Or.inl h'
        · exact Or.inr (Or.inr h')
  have hlmem : ∀ x ∈ g2.finalized_leaves,
      x = li ∨ x = ri ∨ x ∈ g.finalized_leaves := by
    intro x hx
    rcases hquad with ⟨_, hl, _, _⟩ | ⟨_, hl, _, _⟩ | ⟨_, hl, _, _⟩ |
      ⟨_, hl, _, _⟩ <;> rw [hl] at hx
    · rcases (by simpa using hx : x ∈ g.finalized_leaves ∨ x = li ∨ x = ri)
        with h | h | h
      · exact Or.inr (Or.inr h)
      · exact Or.inl h
      · exact Or.inr (Or.inl h)
    · rcases (by simpa using hx : x ∈ g.finalized_leaves ∨ x = li) with h | h
      · exact Or.inr (Or.inr h)
      · exact Or.inl h
    · rcases (by simpa using hx : x ∈ g.finalized_leaves ∨ x = ri) with h | h
      · exact Or.inr (Or.inr h)
      · exact Or.inr (Or.inl h)
    · exact Or.inr (Or.inr hx)
  refine
    { nnodes_eq := by
        rw [hlen2, hg2, e2nn, hg1, e1nn, M.nnodes_eq]
      queue_lt := ?_
      queue_nodup := ?_
      queue_shape := ?_
      leaves_lt := ?_
      leaves_weight := ?_
      states := ?_
      count := ?_
      child_depth := ?_
      depth_le := ?_
      budget := ?_
      span := ?_ }
  · intro i hi
    rw [hlen2]
    rcases hqmem i hi with h1 | h1 | h
    · rw [h1]
      exact hlilen
    · rw [h1]
      exact hrilen
    · exact lt_trans (M.queue_lt i h) hlilen
  · have hnd := M.queue_nodup
    have hndli : (li :: g.splittable_nodes).Nodup :=
      List.nodup_cons.mpr ⟨hliQ, hnd⟩
    rcases hquad with ⟨hq, _, _, _⟩ | ⟨hq, _, _, _⟩ | ⟨hq, _, _, _⟩ |
      ⟨hq, _, _, _⟩
    · rw [hq]
      exact hnd
    · exact hq.nodup_iff.mpr (List.nodup_cons.mpr ⟨hriQ, hnd⟩)
    · exact hq.nodup_iff.mpr hndli
    · refine hq.nodup_iff.mpr (List.nodup_cons.mpr ⟨?_, hndli⟩)
      intro h
      rcases List.mem_cons.mp h with h' | h'
      · exact hrine h'
      · exact hriQ h'
  · intro i hi
    rcases hqmem i hi with h1 | h1 | h
    · rw [h1] at hi ⊢
      refine ⟨hli_split, ?_, ?_, ?_⟩
      · rcases hquad with ⟨hq, _, _, _⟩ | ⟨hq, _, _, _⟩ | ⟨_, _, hw, _⟩ |
          ⟨_, _, hw, _⟩
        · exact absurd (hq ▸ hi) hliQ
        · rcases List.mem_cons.mp (hq.mem_iff.mp hi) with h | h
          · exact absurd h.symm hrine
          · exact absurd h hliQ
        · exact hw
        · exact hw
      · rw [(hpres li).1]
        exact M.fresh_li.2.2.1
      · rw [(hpres li).2.1]
        exact M.fresh_li.2.2.2
    · rw [h1] at hi ⊢
      refine ⟨hri_split, ?_, ?_, ?_⟩
      · rcases hquad with ⟨hq, _, _, _⟩ | ⟨_, _, _, hw⟩ | ⟨hq, _, _, _⟩ |
          ⟨_, _, _, hw⟩
        · exact absurd (hq ▸ hi) hriQ
        · exact hw
        · rcases List.mem_cons.mp (hq.mem_iff.mp hi) with h | h
          · exact absurd h hrine
          · exact absurd h hriQ
        · exact hw
      · rw [(hpres ri).1]
        exact M.fresh_ri.2.2.1
      · rw [(hpres ri).2.1]
        exact M.fresh_ri.2.2.2
    · have h1 : i ≠ li := fun hx => hliQ (hx ▸ h)
      have h2 : i ≠ ri := fun hx => hriQ (hx ▸ h)
      rw [hne2 i h1 h2]
      exact M.queue_shape i h
  · intro i hi
    rw [hlen2]
    rcases hlmem i hi with h1 | h1 | h
    · rw [h1]
      exact hlilen
    · rw [h1]
      exact hrilen
    · exact lt_trans (M.leaves_lt i h) hlilen
  · intro i hi
    rw [hlw2]
    rcases hlmem i hi with h1 | h1 | h
    · rw [h1] at hi ⊢
      rcases hquad with ⟨_, _, hw, _⟩ | ⟨_, _, hw, _⟩ | ⟨_, hl, hw, _⟩ |
        ⟨_, hl, hw, _⟩
      · rw [hw]
        have : g.leafWeight (g2.nodes.getD li default) =
            g.leafWeight (g.nodes.getD li default) := by
          simp only [TreeGrower.leafWeight]
          rcases e1case with ⟨_, h1node, _, _⟩ | ⟨_, h1node, _, _⟩ <;>
            rw [hgli1, hg1, h1node]
        rw [this]
      · rw [hw]
        have : g.leafWeight (g2.nodes.getD li default) =
            g.leafWeight (g.nodes.getD li default) := by
          simp only [TreeGrower.leafWeight]
          rcases e1case with ⟨_, h1node, _, _⟩ | ⟨_, h1node, _, _⟩ <;>
            rw [hgli1, hg1, h1node]
        rw [this]
      · rw [hl] at hi
        rcases (by simpa using hi : li ∈ g.finalized_leaves ∨ li = ri)
          with hmem | hmem
        · exact absurd (M.leaves_lt li hmem) (by omega)
        · exact absurd hmem hlirine
      · rw [hl] at hi
        exact absurd (M.leaves_lt li hi) (by omega)
    · rw [h1] at hi ⊢
      rcases hquad with ⟨_, _, _, hw⟩ | ⟨_, hl, _, hw⟩ | ⟨_, _, _, hw⟩ |
        ⟨_, hl, _, hw⟩
      · rw [hw]
        have : g.leafWeight (g2.nodes.getD ri default) =
            g.leafWeight (g.nodes.getD ri default) := by
          simp only [TreeGrower.leafWeight]
          rcases e2case with ⟨_, h2node, _, _⟩ | ⟨_, h2node, _, _⟩ <;>
            rw [hg2, h2node, hgri_base]
        rw [this]
      · rw [hl] at hi
        rcases (by simpa using hi : ri ∈ g.finalized_leaves ∨ ri = li)
          with hmem | hmem
        · exact absurd (M.leaves_lt ri hmem) (by rw [M.ri_def]; omega)
        · exact absurd hmem hrine
      · rw [hw]
        have : g.leafWeight (g2.nodes.getD ri default) =
            g.leafWeight (g.nodes.getD ri default) := by
          simp only [TreeGrower.leafWeight]
          rcases e2case with ⟨_, h2node, _, _⟩ | ⟨_, h2node, _, _⟩ <;>
            rw [hg2, h2node, hgri_base]
        rw [this]
      · rw [hl] at hi
        exact absurd (M.leaves_lt ri hi) (by rw [M.ri_def]; omega)
    · have h1 : i ≠ li := by have := M.leaves_lt i h; omega
      have h2 : i ≠ ri := by have := M.leaves_lt i h; rw [M.ri_def]; omega
      rw [hne2 i h1 h2]
      exact M.leaves_weight i h
  · intro i hi
    rw [hlen2, M.len_def] at hi
    rcases lt_trichotomy i li with h | hil | h
    · rcases M.states i h with hs | hs | hs
      · refine Or.inl ?_
        rw [hne2 i (by omega) (by rw [M.ri_def]; omega)]
        exact hs
      · refine Or.inr (Or.inl ?_)
        rw [hne2 i (by omega) (by rw [M.ri_def]; omega)]
        exact hs
      · refine Or.inr (Or.inr ?_)
        rcases hquad with ⟨hq, _, _, _⟩ | ⟨hq, _, _, _⟩ | ⟨hq, _, _, _⟩ |
          ⟨hq, _, _, _⟩
        · exact hq ▸ hs
        · exact hq.mem_iff.mpr (by simp [hs])
        · exact hq.mem_iff.mpr (by simp [hs])
        · exact hq.mem_iff.mpr (by simp [hs])
    · rcases hquad with ⟨hq, _, hw, _⟩ | ⟨hq, _, hw, _⟩ | ⟨hq, _, _, _⟩ |
        ⟨hq, _, _, _⟩
      · refine Or.inl ⟨by rw [hil, hw]; rfl, ?_, ?_⟩
        · rw [hil, (hpres li).1]
          exact M.fresh_li.2.2.1
        · rw [hil, (hpres li).2.1]
          exact M.fresh_li.2.2.2
      · refine Or.inl ⟨by rw [hil, hw]; rfl, ?_, ?_⟩
        · rw [hil, (hpres li).1]
          exact M.fresh_li.2.2.1
        · rw [hil, (hpres li).2.1]
          exact M.fresh_li.2.2.2
      · refine Or.inr (Or.inr ?_)
        rw [hil]
        exact hq.mem_iff.mpr (by simp)
      · refine Or.inr (Or.inr ?_)
        rw [hil]
        exact hq.mem_iff.mpr (by simp)
    · have hir : i = ri := by rw [M.ri_def]; omega
      rcases hquad with ⟨hq, _, _, hw⟩ | ⟨hq, _, _, hw⟩ | ⟨hq, _, _, hw⟩ |
        ⟨hq, _, _, hw⟩
      · refine Or.inl ⟨by rw [hir, hw]; rfl, ?_, ?_⟩
        · rw [hir, (hpres ri).1]
          exact M.fresh_ri.2.2.1
        · rw [hir, (hpres ri).2.1]
          exact M.fresh_ri.2.2.2
      · refine Or.inr (Or.inr ?_)
        rw [hir]
        exact hq.mem_iff.mpr (by simp)
      · refine Or.inl ⟨by rw [hir, hw]; rfl, ?_, ?_⟩
        · rw [hir, (hpres ri).1]
          exact M.fresh_ri.2.2.1
        · rw [hir, (hpres ri).2.1]
          exact M.fresh_ri.2.2.2
      · refine Or.inr (Or.inr ?_)
        rw [hir]
        exact hq.mem_iff.mpr (by simp)
  · have hc := M.count
    rw [hlen2]
    rcases hquad with ⟨hq, hl, _, _⟩ | ⟨hq, hl, _, _⟩ | ⟨hq, hl, _, _⟩ |
      ⟨hq, hl, _, _⟩ <;>
      [skip; skip; skip; skip] <;>
      first
      | (rw [hq, hl]
         simp only [List.length_append, List.length_cons, List.length_nil]
         omega)
      | (rw [hl]
         have hql := hq.length_eq
         simp only [List.length_cons, List.length_append, List.length_nil]
           at hql ⊢
         omega)
  · intro i hi c hc
    rw [hlen2] at hi
    have hc' : (g.nodes.getD i default).left_child = some c ∨
        (g.nodes.getD i default).right_child = some c := by
      rcases hc with hc | hc
      · exact Or.inl ((hpres i).1 ▸ hc)
      · exact Or.inr ((hpres i).2.1 ▸ hc)
    obtain ⟨hclt, hcd⟩ := M.child_depth i hi c hc'
    refine ⟨by rw [hlen2]; exact hclt, ?_⟩
    rw [(hpres c).2.2, (hpres i).2.2, hcd]
  · intro d hd
    rw [hmd2] at hd
    obtain ⟨h1, h2⟩ := M.depth_le d hd
    refine ⟨?_, ?_⟩
    · intro i hi
      rw [hlen2] at hi
      rw [(hpres i).2.2]
      exact h1 i hi
    · intro i hi
      rcases hqmem i hi with h1 | h1 | h
      · rw [h1, (hpres li).2.2]
        exact hdepth d hd
      · rw [h1, (hpres ri).2.2, ← M.depth_eq]
        exact hdepth d hd
      · rw [(hpres i).2.2]
        exact h2 i h
  · intro hmd m hm
    rw [hmd2] at hmd
    rw [hmln2] at hm
    have hb := hbudget hmd m hm
    have hcount : (g2.finalized_leaves.length +
        g2.splittable_nodes.length : ℤ) =
        (g.finalized_leaves.length + g.splittable_nodes.length + 2 : ℤ) := by
      rcases hquad with ⟨hq, hl, _, _⟩ | ⟨hq, hl, _, _⟩ | ⟨hq, hl, _, _⟩ |
        ⟨hq, hl, _, _⟩
      · rw [hq, hl]
        simp only [List.length_append, List.length_cons, List.length_nil]
        push_cast
        omega
      · have hql := hq.length_eq
        rw [hl]
        simp only [List.length_cons, List.length_append, List.length_nil]
          at hql ⊢
        push_cast
        omega
      · have hql := hq.length_eq
        rw [hl]
        simp only [List.length_cons, List.length_append, List.length_nil]
          at hql ⊢
        push_cast
        omega
      · have hql := hq.length_eq
        rw [hl]
        simp only [List.length_cons, List.length_append, List.length_nil]
          at hql ⊢
        push_cast
        omega
    rw [hcount]
    exact ⟨le_of_lt hb, fun _ => hb⟩
  · obtain ⟨t, hroot, hspans, hind⟩ := M.span
    refine ⟨t, hroot, ?_, by rw [hlen2]; exact hind⟩
    exact spans_mono g.nodes g2.nodes
      (fun j => ⟨(hpres j).1, (hpres j).2.1⟩) t hspans

theorem depthAtMax_ne_none (md : Option ℤ) (n : ℕ)
    (h : depthAtMax md n = true) : md ≠ none := by
  intro he
  rw [he] at h
  simp [depthAtMax] at h

theorem depthAtMax_false_ne (d : ℤ) (n : ℕ)
    (h : depthAtMax (some d) n = false) : (n : ℤ) ≠ d := by
  simp [depthAtMax] at h
  exact h

theorem leafBudgetHit_false_ne (m : ℤ) (n : ℕ)
    (h : leafBudgetHit (some m) n = false) : (n : ℤ) ≠ m := by
  simp [leafBudgetHit] at h
  exact h

/-- The workhorse: one successful `split_next` call preserves the grower
invariant. -/
theorem GInv_splitNext (g g' : TreeGrower) (li ri : ℕ)
    (hInv : GInv g) (h : g.splitNext = .ok (g', li, ri)) : GInv g' := by
  rw [TreeGrower.splitNext] at h
  by_cases hq : g.splittable_nodes.length = 0
  · rw [if_pos hq] at h
    exact absurd h (by simp)
  · rw [if_neg hq] at h
    have hne : g.splittable_nodes ≠ [] := by
      intro he
      exact hq (by rw [he]; rfl)
    obtain ⟨rest, hpop, hperm⟩ :=
      heappop_spec (ltIdx g.nodes) g.splittable_nodes hne
    rw [hpop] at h
    have hq0mem : g.splittable_nodes.getD 0 0 ∈ g.splittable_nodes :=
      hperm.mem_iff.mpr (by simp)
    have hsome := (hInv.queue_shape _ hq0mem).1
    obtain ⟨si, hsi⟩ := Option.isSome_iff_exists.mp hsome
    simp only [hsi] at h
    have hcore : ({ g with splittable_nodes := rest
        } : TreeGrower).splitNextCore (g.splittable_nodes.getD 0 0) si =
        (g', li, ri) := by
      exact Except.ok.inj h
    set p := g.splittable_nodes.getD 0 0 with hp
    set G : TreeGrower := { g with splittable_nodes := rest } with hG
    rw [TreeGrower.splitNextCore] at hcore
    have hplt : p < g.nodes.length := hInv.queue_lt p hq0mem
    have hM := midInv_established g p rest hInv hperm si
      (g.splitter.split_indices ((g.nodes.getD p default)).sample_indices si)
    set gm : TreeGrower :=
      { g with
        splittable_nodes := rest
        nodes := (g.nodes.set p
          { g.nodes.getD p default with
            left_child := some g.nodes.length
            right_child := some (g.nodes.length + 1) })
          ++ [{ depth := (g.nodes.getD p default).depth + 1
                sample_indices := (g.splitter.split_indices
                  ((g.nodes.getD p default)).sample_indices si).1
                sum_gradients := si.gradient_left
                sum_hessians := si.hessian_left },
              { depth := (g.nodes.getD p default).depth + 1
                sample_indices := (g.splitter.split_indices
                  ((g.nodes.getD p default)).sample_indices si).2
                sum_gradients := si.gradient_right
                sum_hessians := si.hessian_right }]
        n_nodes := g.n_nodes + 2 } with hgm
    have hdepth_li : (gm.nodes.getD g.nodes.length default).depth =
        (g.nodes.getD p default).depth + 1 := by
      rw [hgm]
      have := getDAppendTwoAt0 (g.nodes.set p
        { g.nodes.getD p default with
          left_child := some g.nodes.length
          right_child := some (g.nodes.length + 1) })
        ({ depth := (g.nodes.getD p default).depth + 1
           sample_indices := (g.splitter.split_indices
             ((g.nodes.getD p default)).sample_indices si).1
           sum_gradients := si.gradient_left
           sum_hessians := si.hessian_left })
        ({ depth := (g.nodes.getD p default).depth + 1
           sample_indices := (g.splitter.split_indices
             ((g.nodes.getD p default)).sample_indices si).2
           sum_gradients := si.gradient_right
           sum_hessians := si.hessian_right }) default
      rw [show (g.nodes.set p
        { g.nodes.getD p default with
          left_child := some g.nodes.length
          right_child := some (g.nodes.length + 1) }).length =
        g.nodes.length from by simp] at this
      rw [this]
    by_cases hd : depthAtMax g.max_depth ((g.nodes.getD p default).depth + 1)
    · rw [if_pos hd] at hcore
      have hg' : g' = (gm.finalizeLeaf g.nodes.length).finalizeLeaf
          (g.nodes.length + 1) := by
        have := congrArg Prod.fst hcore
        exact this.symm
      rw [hg']
      exact GInv_finalize_children gm g.nodes.length (g.nodes.length + 1) hM
        (by
          have := depthAtMax_ne_none g.max_depth _ hd
          simpa [hgm] using this)
    · rw [if_neg hd] at hcore
      by_cases hb : leafBudgetHit g.max_leaf_nodes
          (g.finalized_leaves.length + rest.length + 2)
      · rw [if_pos hb] at hcore
        have hg' : g' = ((gm.finalizeLeaf g.nodes.length).finalizeLeaf
            (g.nodes.length + 1)).finalizeSplittableNodes := by
          have := congrArg Prod.fst hcore
          exact this.symm
        rw [hg']
        exact GInv_budget_drain gm g.nodes.length (g.nodes.length + 1) hM
      · rw [if_neg hb] at hcore
        have hg' : g' = (gm.computeSpittability
            g.nodes.length).computeSpittability (g.nodes.length + 1) := by
          have := congrArg Prod.fst hcore
          exact this.symm
        rw [hg']
        refine GInv_evaluate_children gm g.nodes.length (g.nodes.length + 1)
          hM ?_ ?_
        · intro d hdsome
          have hdsome' : g.max_depth = some d := by simpa [hgm] using hdsome
          have hle := (hM.depth_le d hdsome).1 g.nodes.length
            (by rw [hM.len_def]; omega)
          have hne' := depthAtMax_false_ne d _ (by
            rw [hdsome'] at hd
            exact Bool.eq_false_iff.mpr hd)
          rw [hdepth_li]
          rw [hdepth_li] at hle
          rcases lt_or_eq_of_le hle with h' | h'
          · exact h'
          · exact absurd h' hne'
        · intro hmdnone m hmln
          have hmdnone' : g.max_depth = none := by simpa [hgm] using hmdnone
          have hmln' : g.max_leaf_nodes = some m := by simpa [hgm] using hmln
          have hle := hM.budget hmdnone m hmln
          have hne' := leafBudgetHit_false_ne m _ (by
            rw [hmln'] at hb
            exact Bool.eq_false_iff.mpr hb)
          have hgml : gm.finalized_leaves = g.finalized_leaves := by
            rw [hgm]
          have hgmq : gm.splittable_nodes = rest := by
            rw [hgm]
          rw [hgml, hgmq] at hle ⊢
          rcases lt_or_eq_of_le hle with h' | h'
          · exact h'
          · exact absurd h' (by push_cast at hne' ⊢; omega)

theorem optBelow1_false (o : Option ℤ) (h : optBelow1 o = false) :
    ∀ v, o = some v → 1 ≤ v := by
  intro v hv
  rw [hv] at h
  simp [optBelow1] at h
  omega

/-- The grower invariant holds for the state `_intilialize_root` builds
(with `n_nodes` then set to 1), for any validated configuration. -/
theorem GInv_init_aux (g : TreeGrower)
    (hml : ∀ v : ℤ, g.max_leaf_nodes = some v → 1 ≤ v)
    (hmd : ∀ v : ℤ, g.max_depth = some v → 1 ≤ v)
    (hq : g.splittable_nodes = []) (hl : g.finalized_leaves = []) :
    GInv { g.intilializeRoot with n_nodes := 1 } := by
  rw [TreeGrower.intilializeRoot]
  set root : TreeNode :=
    { depth := 0
      sample_indices := List.range g.features_data.n_samples
      sum_gradients := g.splitter.all_gradients.sum
      sum_hessians := g.splitter.all_hessians.sum } with hroot
  set g1 : TreeGrower := { g with nodes := [root] } with hg1
  have hg1q : g1.splittable_nodes = [] := by rw [hg1]; exact hq
  have hg1l : g1.finalized_leaves = [] := by rw [hg1]; exact hl
  have hg1len : g1.nodes.length = 1 := by rw [hg1]; rfl
  have hg1getd : g1.nodes.getD 0 default = root := by rw [hg1]; rfl
  by_cases hml1 : g1.max_leaf_nodes.isSome ∧ g1.max_leaf_nodes = some 1
  · rw [if_pos hml1]
    refine
      { nnodes_eq := by simp [TreeGrower.finalizeLeaf, hg1len]
        queue_lt := by
          intro i hi
          simp only [finalizeLeaf_splittable_nodes] at hi
          rw [hg1q] at hi
          exact absurd hi (List.not_mem_nil i)
        queue_nodup := by
          simp only [finalizeLeaf_splittable_nodes]
          rw [hg1q]
          exact List.nodup_nil
        queue_shape := by
          intro i hi
          simp only [finalizeLeaf_splittable_nodes] at hi
          rw [hg1q] at hi
          exact absurd hi (List.not_mem_nil i)
        leaves_lt := ?_
        leaves_weight := ?_
        states := ?_
        count := by
          simp only [finalizeLeaf_splittable_nodes, finalizeLeaf_finalized_leaves]
          rw [hg1q, hg1l]
          simp [TreeGrower.finalizeLeaf, hg1len]
        child_depth := ?_
        depth_le := ?_
        budget := ?_
        span := ?_ }
    · intro i hi
      simp only [finalizeLeaf_finalized_leaves] at hi
      rw [hg1l] at hi
      rcases (by simpa using hi : i = 0) with rfl
      simp [TreeGrower.finalizeLeaf, hg1len]
    · intro i hi
      simp only [finalizeLeaf_finalized_leaves] at hi
      rw [hg1l] at hi
      rcases (by simpa using hi : i = 0) with rfl
      show ((g1.finalizeLeaf 0).nodes.getD 0 default).weight =
        some ((g1.finalizeLeaf 0).leafWeight
          ((g1.finalizeLeaf 0).nodes.getD 0 default))
      rw [finalizeLeaf_getD_self g1 0 (by rw [hg1len]; omega), hg1getd]
      rfl
    · intro i hi
      have : i < 1 := by
        simpa [TreeGrower.finalizeLeaf, hg1len] using hi
      interval_cases i
      refine Or.inl ?_
      show IsLeafNode ((g1.finalizeLeaf 0).nodes.getD 0 default)
      rw [finalizeLeaf_getD_self g1 0 (by rw [hg1len]; omega), hg1getd]
      exact ⟨rfl, rfl, rfl⟩
    · intro i hi c hc
      have : i < 1 := by
        simpa [TreeGrower.finalizeLeaf, hg1len] using hi
      interval_cases i
      rw [show ({ g1.finalizeLeaf 0 with n_nodes := 1
          } : TreeGrower).nodes.getD 0 default =
          (g1.finalizeLeaf 0).nodes.getD 0 default from rfl,
        finalizeLeaf_getD_self g1 0 (by rw [hg1len]; omega), hg1getd] at hc
      rcases hc with hc | hc <;> exact Option.noConfusion hc
    · intro d hd
      refine ⟨?_, ?_⟩
      · intro i hi
        have : i < 1 := by
          simpa [TreeGrower.finalizeLeaf, hg1len] using hi
        interval_cases i
        rw [show ({ g1.finalizeLeaf 0 with n_nodes := 1
            } : TreeGrower).nodes.getD 0 default =
            (g1.finalizeLeaf 0).nodes.getD 0 default from rfl,
          finalizeLeaf_getD_self g1 0 (by rw [hg1len]; omega), hg1getd]
        have := hmd d (by simpa [hg1] using hd)
        simp [hroot]
        omega
      · intro i hi
        simp only [finalizeLeaf_splittable_nodes] at hi
        rw [hg1q] at hi
        exact absurd hi (List.not_mem_nil i)
    · intro hmdn m hm
      have := hml m (by simpa [hg1] using hm)
      refine ⟨?_, ?_⟩
      · simp only [finalizeLeaf_splittable_nodes, finalizeLeaf_finalized_leaves]
        rw [hg1q, hg1l]
        simpa using this
      · intro hne
        simp only [finalizeLeaf_splittable_nodes] at hne
        rw [hg1q] at hne
        exact absurd rfl hne
    · refine ⟨ITree.leaf 0, rfl, ?_, ?_⟩
      · simp only [Spans]
        constructor
        · show ((g1.finalizeLeaf 0).nodes.getD 0 default).left_child = none
          rw [finalizeLeaf_getD_self g1 0 (by rw [hg1len]; omega), hg1getd]
        · show ((g1.finalizeLeaf 0).nodes.getD 0 default).right_child = none
          rw [finalizeLeaf_getD_self g1 0 (by rw [hg1len]; omega), hg1getd]
      · have : ({ g1.finalizeLeaf 0 with n_nodes := 1
            } : TreeGrower).nodes.length = 1 := by
          simp [TreeGrower.finalizeLeaf, hg1len]
        rw [this]
        simp [ITree.indices, List.range_succ]
  · rw [if_neg hml1]
    have hml2 : ∀ m : ℤ, g.max_leaf_nodes = some m → 2 ≤ m := by
      intro m hm
      have h1m := hml m hm
      rcases lt_or_eq_of_le h1m with hlt | heq
      · omega
      · exfalso
        refine hml1 ⟨?_, ?_⟩
        · rw [hg1]
          show (g.max_leaf_nodes).isSome = true
          rw [hm]
          rfl
        · rw [hg1]
          show g.max_leaf_nodes = some 1
          rw [hm, ← heq]
    obtain ⟨clen, cne, csp, cmln, cmd, cmg, csh, cnn, cfd, ccase⟩ :=
      computeSpittability_effects g1 0 (by rw [hg1len]; omega)
    have hlen : (g1.computeSpittability 0).nodes.length = 1 := by
      rw [clen, hg1len]
    have hg1md : g1.max_depth = g.max_depth := by rw [hg1]
    have hg1ml : g1.max_leaf_nodes = g.max_leaf_nodes := by rw [hg1]
    have hlwc : ∀ n : TreeNode,
        ({ g1.computeSpittability 0 with n_nodes := 1 } : TreeGrower).leafWeight n
          = g1.leafWeight n := by
      intro n
      simp only [TreeGrower.leafWeight]
      rw [show ({ g1.computeSpittability 0 with n_nodes := 1
        } : TreeGrower).shrinkage = (g1.computeSpittability 0).shrinkage from rfl,
        show ({ g1.computeSpittability 0 with n_nodes := 1
        } : TreeGrower).splitter = (g1.computeSpittability 0).splitter from rfl,
        csh, csp]
    refine
      { nnodes_eq := by
          show (1 : ℕ) = (g1.computeSpittability 0).nodes.length
          rw [hlen]
        queue_lt := ?_
        queue_nodup := ?_
        queue_shape := ?_
        leaves_lt := ?_
        leaves_weight := ?_
        states := ?_
        count := ?_
        child_depth := ?_
        depth_le := ?_
        budget := ?_
        span := ?_ }
    · intro i hi
      show i < (g1.computeSpittability 0).nodes.length
      rw [hlen]
      rcases ccase with ⟨_, _, hcq, _⟩ | ⟨_, _, hcq, _⟩
      · rw [hcq, hg1q] at hi
        exact absurd hi (List.not_mem_nil i)
      · rw [hg1q] at hcq
        rw [List.perm_singleton.mp hcq] at hi
        rcases (by simpa using hi : i = 0) with rfl
        omega
    · show (g1.computeSpittability 0).splittable_nodes.Nodup
      rcases ccase with ⟨_, _, hcq, _⟩ | ⟨_, _, hcq, _⟩
      · rw [hcq, hg1q]
        exact List.nodup_nil
      · rw [hg1q] at hcq
        rw [List.perm_singleton.mp hcq]
        simp
    · intro i hi
      rcases ccase with ⟨_, _, hcq, _⟩ | ⟨_, hnode, hcq, _⟩
      · rw [show ({ g1.computeSpittability 0 with n_nodes := 1
            } : TreeGrower).splittable_nodes =
            (g1.computeSpittability 0).splittable_nodes from rfl,
          hcq, hg1q] at hi
        exact absurd hi (List.not_mem_nil i)
      · rw [hg1q] at hcq
        rw [show ({ g1.computeSpittability 0 with n_nodes := 1
            } : TreeGrower).splittable_nodes =
            (g1.computeSpittability 0).splittable_nodes from rfl,
          List.perm_singleton.mp hcq] at hi
        rcases (by simpa using hi : i = 0) with rfl
        show ((g1.computeSpittability 0).nodes.getD 0 default).split_info.isSome
            = true ∧ _
        rw [hnode, hg1getd]
        exact ⟨rfl, rfl, rfl, rfl⟩
    · intro i hi
      show i < (g1.computeSpittability 0).nodes.length
      rw [hlen]
      rcases ccase with ⟨_, _, _, hcl⟩ | ⟨_, _, _, hcl⟩
      · rw [show ({ g1.computeSpittability 0 with n_nodes := 1
            } : TreeGrower).finalized_leaves =
            (g1.computeSpittability 0).finalized_leaves from rfl,
          hcl, hg1l] at hi
        rcases (by simpa using hi : i = 0) with rfl
        omega
      · rw [show ({ g1.computeSpittability 0 with n_nodes := 1
            } : TreeGrower).finalized_leaves =
            (g1.computeSpittability 0).finalized_leaves from rfl,
          hcl, hg1l] at hi
        exact absurd hi (List.not_mem_nil i)
    · intro i hi
      rcases ccase with ⟨_, hnode, _, hcl⟩ | ⟨_, _, _, hcl⟩
      · rw [show ({ g1.computeSpittability 0 with n_nodes := 1
            } : TreeGrower).finalized_leaves =
            (g1.computeSpittability 0).finalized_leaves from rfl,
          hcl, hg1l] at hi
        rcases (by simpa using hi : i = 0) with rfl
        show ((g1.computeSpittability 0).nodes.getD 0 default).weight = _
        rw [hnode, hg1getd, hlwc]
        rfl
      · rw [show ({ g1.computeSpittability 0 with n_nodes := 1
            } : TreeGrower).finalized_leaves =
            (g1.computeSpittability 0).finalized_leaves from rfl,
          hcl, hg1l] at hi
        exact absurd hi (List.not_mem_nil i)
    · intro i hi
      have hi1 : i < 1 := by
        show i < 1
        have : i < (g1.computeSpittability 0).nodes.length := hi
        rw [hlen] at this
        exact this
      interval_cases i
      rcases ccase with ⟨_, hnode, _, _⟩ | ⟨_, hnode, hcq, _⟩
      · refine Or.inl ?_
        show IsLeafNode ((g1.computeSpittability 0).nodes.getD 0 default)
        rw [hnode, hg1getd]
        exact ⟨rfl, rfl, rfl⟩
      · refine Or.inr (Or.inr ?_)
        show 0 ∈ (g1.computeSpittability 0).splittable_nodes
        rw [hg1q] at hcq
        rw [List.perm_singleton.mp hcq]
        simp
    · show (g1.computeSpittability 0).nodes.length + 1 = 2 * _
      rw [hlen]
      rcases ccase with ⟨_, _, hcq, hcl⟩ | ⟨_, _, hcq, hcl⟩
      · rw [show ({ g1.computeSpittability 0 with n_nodes := 1
            } : TreeGrower).finalized_leaves =
            (g1.computeSpittability 0).finalized_leaves from rfl,
          show ({ g1.computeSpittability 0 with n_nodes := 1
            } : TreeGrower).splittable_nodes =
            (g1.computeSpittability 0).splittable_nodes from rfl,
          hcq, hcl, hg1q, hg1l]
        simp
      · rw [hg1q] at hcq
        rw [show ({ g1.computeSpittability 0 with n_nodes := 1
            } : TreeGrower).finalized_leaves =
            (g1.computeSpittability 0).finalized_leaves from rfl,
          show ({ g1.computeSpittability 0 with n_nodes := 1
            } : TreeGrower).splittable_nodes =
            (g1.computeSpittability 0).splittable_nodes from rfl,
          hcl, hg1l, List.perm_singleton.mp hcq]
        simp
    · intro i hi c hc
      have hi1 : i < 1 := by
        have : i < (g1.computeSpittability 0).nodes.length := hi
        rw [hlen] at this
        exact this
      interval_cases i
      rcases ccase with ⟨_, hnode, _, _⟩ | ⟨_, hnode, _, _⟩ <;>
        rw [show ({ g1.computeSpittability 0 with n_nodes := 1
            } : TreeGrower).nodes.getD 0 default =
            (g1.computeSpittability 0).nodes.getD 0 default from rfl,
          hnode, hg1getd] at hc <;>
        rcases hc with hc | hc <;> exact Option.noConfusion hc
    · intro d hd
      have hd' : g.max_depth = some d := by
        have : (g1.computeSpittability 0).max_depth = some d := hd
        rw [cmd, hg1md] at this
        exact this
      have hd1 := hmd d hd'
      refine ⟨?_, ?_⟩
      · intro i hi
        have hi1 : i < 1 := by
          have : i < (g1.computeSpittability 0).nodes.length := hi
          rw [hlen] at this
          exact this
        interval_cases i
        rcases ccase with ⟨_, hnode, _, _⟩ | ⟨_, hnode, _, _⟩ <;>
          rw [show ({ g1.computeSpittability 0 with n_nodes := 1
              } : TreeGrower).nodes.getD 0 default =
              (g1.computeSpittability 0).nodes.getD 0 default from rfl,
            hnode, hg1getd] <;>
          (show ((0 : ℕ) : ℤ) ≤ d
           omega)
      · intro i hi
        rcases ccase with ⟨_, _, hcq, _⟩ | ⟨_, hnode, hcq, _⟩
        · rw [show ({ g1.computeSpittability 0 with n_nodes := 1
              } : TreeGrower).splittable_nodes =
              (g1.computeSpittability 0).splittable_nodes from rfl,
            hcq, hg1q] at hi
          exact absurd hi (List.not_mem_nil i)
        · rw [hg1q] at hcq
          rw [show ({ g1.computeSpittability 0 with n_nodes := 1
              } : TreeGrower).splittable_nodes =
              (g1.computeSpittability 0).splittable_nodes from rfl,
            List.perm_singleton.mp hcq] at hi
          rcases (by simpa using hi : i = 0) with rfl
          rw [show ({ g1.computeSpittability 0 with n_nodes := 1
              } : TreeGrower).nodes.getD 0 default =
              (g1.computeSpittability 0).nodes.getD 0 default from rfl,
            hnode, hg1getd]
          show ((0 : ℕ) : ℤ) < d
          omega
    · intro hmdn m hm
      have hm' : g.max_leaf_nodes = some m := by
        have : (g1.computeSpittability 0).max_leaf_nodes = some m := hm
        rw [cmln, hg1ml] at this
        exact this
      rcases ccase with ⟨_, _, hcq, hcl⟩ | ⟨_, _, hcq, hcl⟩
      · rw [show ({ g1.computeSpittability 0 with n_nodes := 1
            } : TreeGrower).finalized_leaves =
            (g1.computeSpittability 0).finalized_leaves from rfl,
          show ({ g1.computeSpittability 0 with n_nodes := 1
            } : TreeGrower).splittable_nodes =
            (g1.computeSpittability 0).splittable_nodes from rfl,
          hcq, hcl, hg1q, hg1l]
        refine ⟨by simpa using hml m hm', ?_⟩
        intro hne
        exact absurd rfl hne
      · rw [hg1q] at hcq
        rw [show ({ g1.computeSpittability 0 with n_nodes := 1
            } : TreeGrower).finalized_leaves =
            (g1.computeSpittability 0).finalized_leaves from rfl,
          show ({ g1.computeSpittability 0 with n_nodes := 1
            } : TreeGrower).splittable_nodes =
            (g1.computeSpittability 0).splittable_nodes from rfl,
          hcl, hg1l, List.perm_singleton.mp hcq]
        have := hml2 m hm'
        refine ⟨by
          simp only [List.length_nil, List.length_cons]
          push_cast
          omega, ?_⟩
        intro _
        simp only [List.length_nil, List.length_cons]
        push_cast
        omega
    · refine ⟨ITree.leaf 0, rfl, ?_, ?_⟩
      · simp only [Spans]
        rcases ccase with ⟨_, hnode, _, _⟩ | ⟨_, hnode, _, _⟩ <;>
          constructor <;>
          rw [show ({ g1.computeSpittability 0 with n_nodes := 1
              } : TreeGrower).nodes.getD 0 default =
              (g1.computeSpittability 0).nodes.getD 0 default from rfl,
            hnode, hg1getd] <;> rfl
      · show (ITree.leaf 0).indices.Perm
          (List.range (g1.computeSpittability 0).nodes.length)
        rw [hlen]
        simp [ITree.indices, List.range_succ]

/-- The grower invariant holds right after construction. -/
theorem GInv_init (features_data : FeatureMatrix)
    (all_gradients all_hessians : List ℚ)
    (find_node_split : List ℕ → SplitInfo)
    (split_indices : List ℕ → SplitInfo → List ℕ × List ℕ)
    (max_leaf_nodes max_depth : Option ℤ)
    (min_gain_to_split : ℚ) (n_bins : ℕ) (l2_regularization : ℚ)
    (min_hessian_to_split : ℚ) (shrinkage : ℚ) (g0 : TreeGrower)
    (h : TreeGrower.init features_data all_gradients all_hessians
      find_node_split split_indices max_leaf_nodes max_depth
      min_gain_to_split n_bins l2_regularization min_hessian_to_split
      shrinkage = .ok g0) : GInv g0 := by
  rw [TreeGrower.init] at h
  by_cases h1 : features_data.dtype ≠ DType.uint8
  · rw [if_pos h1] at h
    exact absurd h (by simp)
  · rw [if_neg h1] at h
    by_cases h2 : optBelow1 max_leaf_nodes = true
    · rw [if_pos h2] at h
      exact absurd h (by simp)
    · rw [if_neg (by simp [h2] : ¬ optBelow1 max_leaf_nodes = true)] at h
      by_cases h3 : optBelow1 max_depth = true
      · rw [if_pos h3] at h
        exact absurd h (by simp)
      · rw [if_neg (by simp [h3] : ¬ optBelow1 max_depth = true)] at h
        have hg0 := (Except.ok.inj h).symm
        rw [hg0]
        exact GInv_init_aux _
          (fun v hv => optBelow1_false max_leaf_nodes
            (Bool.eq_false_iff.mpr h2) v hv)
          (fun v hv => optBelow1_false max_depth
            (Bool.eq_false_iff.mpr h3) v hv) rfl rfl

/-- The invariant holds at every state the grow loop reaches. -/
theorem GInv_reachable (a b : TreeGrower) (h : Reachable a b) (hInv : GInv a) :
    GInv b := by
  induction h with
  | refl => exact hInv
  | step _ hstep ih => exact GInv_splitNext _ _ _ _ ih hstep

/-! ## Configuration preservation and grow-loop plumbing -/

theorem heappush_nil (lt : ℕ → ℕ → Bool) (i : ℕ) : heappush lt [] i = [i] := rfl

theorem drainAux_config : ∀ (n : ℕ) (g : TreeGrower),
    (TreeGrower.drainAux n g).splitter = g.splitter ∧
    (TreeGrower.drainAux n g).max_leaf_nodes = g.max_leaf_nodes ∧
    (TreeGrower.drainAux n g).max_depth = g.max_depth ∧
    (TreeGrower.drainAux n g).min_gain_to_split = g.min_gain_to_split ∧
    (TreeGrower.drainAux n g).shrinkage = g.shrinkage ∧
    (TreeGrower.drainAux n g).features_data = g.features_data := by
  intro n
  induction n with
  | zero => intro g; exact ⟨rfl, rfl, rfl, rfl, rfl, rfl⟩
  | succ n ih =>
    intro g
    rw [TreeGrower.drainAux]
    split
    · exact ih _
    · exact ⟨rfl, rfl, rfl, rfl, rfl, rfl⟩

theorem computeSpittability_config (g : TreeGrower) (i : ℕ) :
    (g.computeSpittability i).splitter = g.splitter ∧
    (g.computeSpittability i).max_leaf_nodes = g.max_leaf_nodes ∧
    (g.computeSpittability i).max_depth = g.max_depth ∧
    (g.computeSpittability i).min_gain_to_split = g.min_gain_to_split ∧
    (g.computeSpittability i).shrinkage = g.shrinkage ∧
    (g.computeSpittability i).features_data = g.features_data := by
  rcases computeSpittability_cases g i with ⟨_, heq⟩ | ⟨_, heq⟩ <;> rw [heq] <;>
    exact ⟨rfl, rfl, rfl, rfl, rfl, rfl⟩

theorem splitNextCore_config (g : TreeGrower) (ni : ℕ) (si : SplitInfo) :
    (g.splitNextCore ni si).1.splitter = g.splitter ∧
    (g.splitNextCore ni si).1.max_leaf_nodes = g.max_leaf_nodes ∧
    (g.splitNextCore ni si).1.max_depth = g.max_depth ∧
    (g.splitNextCore ni si).1.min_gain_to_split = g.min_gain_to_split ∧
    (g.splitNextCore ni si).1.shrinkage = g.shrinkage ∧
    (g.splitNextCore ni si).1.features_data = g.features_data := by
  rw [TreeGrower.splitNextCore]
  dsimp only
  split
  · exact ⟨rfl, rfl, rfl, rfl, rfl, rfl⟩
  · split
    · obtain ⟨d1, d2, d3, d4, d5, d6⟩ := drainAux_config
        (((({ g with
          nodes := (g.nodes.set ni
            { g.nodes.getD ni default with
              left_child := some g.nodes.length
              right_child := some (g.nodes.length + 1) })
            ++ [{ depth := (g.nodes.getD ni default).depth + 1
                  sample_indices := (g.splitter.split_indices
                    (g.nodes.getD ni default).sample_indices si).1
                  sum_gradients := si.gradient_left
                  sum_hessians := si.hessian_left },
                { depth := (g.nodes.getD ni default).depth + 1
                  sample_indices := (g.splitter.split_indices
                    (g.nodes.getD ni default).sample_indices si).2
                  sum_gradients := si.gradient_right
                  sum_hessians := si.hessian_right }]
          n_nodes := g.n_nodes + 2 } : TreeGrower).finalizeLeaf
            g.nodes.length).finalizeLeaf
            (g.nodes.length + 1)).splittable_nodes.length)
        ((({ g with
          nodes := (g.nodes.set ni
            { g.nodes.getD ni default with
              left_child := some g.nodes.length
              right_child := some (g.nodes.length + 1) })
            ++ [{ depth := (g.nodes.getD ni default).depth + 1
                  sample_indices := (g.splitter.split_indices
                    (g.nodes.getD ni default).sample_indices si).1
                  sum_gradients := si.gradient_left
                  sum_hessians := si.hessian_left },
                { depth := (g.nodes.getD ni default).depth + 1
                  sample_indices := (g.splitter.split_indices
                    (g.nodes.getD ni default).sample_indices si).2
                  sum_gradients := si.gradient_right
                  sum_hessians := si.hessian_right }]
          n_nodes := g.n_nodes + 2 } : TreeGrower).finalizeLeaf
            g.nodes.length).finalizeLeaf
            (g.nodes.length + 1))
      rw [TreeGrower.finalizeSplittableNodes]
      exact ⟨d1, d2, d3, d4, d5, d6⟩
    · obtain ⟨c1, c2, c3, c4, c5, c6⟩ := computeSpittability_config
        (({ g with
          nodes := (g.nodes.set ni
            { g.nodes.getD ni default with
              left_child := some g.nodes.length
              right_child := some (g.nodes.length + 1) })
            ++ [{ depth := (g.nodes.getD ni default).depth + 1
                  sample_indices := (g.splitter.split_indices
                    (g.nodes.getD ni default).sample_indices si).1
                  sum_gradients := si.gradient_left
                  sum_hessians := si.hessian_left },
                { depth := (g.nodes.getD ni default).depth + 1
                  sample_indices := (g.splitter.split_indices
                    (g.nodes.getD ni default).sample_indices si).2
                  sum_gradients := si.gradient_right
                  sum_hessians := si.hessian_right }]
          n_nodes := g.n_nodes + 2 } : TreeGrower).computeSpittability
            g.nodes.length)
        (g.nodes.length + 1)
      obtain ⟨b1, b2, b3, b4, b5, b6⟩ := computeSpittability_config
        ({ g with
          nodes := (g.nodes.set ni
            { g.nodes.getD ni default with
              left_child := some g.nodes.length
              right_child := some (g.nodes.length + 1) })
            ++ [{ depth := (g.nodes.getD ni default).depth + 1
                  sample_indices := (g.splitter.split_indices
                    (g.nodes.getD ni default).sample_indices si).1
                  sum_gradients := si.gradient_left
                  sum_hessians := si.hessian_left },
                { depth := (g.nodes.getD ni default).depth + 1
                  sample_indices := (g.splitter.split_indices
                    (g.nodes.getD ni default).sample_indices si).2
                  sum_gradients := si.gradient_right
                  sum_hessians := si.hessian_right }]
          n_nodes := g.n_nodes + 2 } : TreeGrower)
        g.nodes.length
      exact ⟨c1.trans b1, c2.trans b2, c3.trans b3, c4.trans b4,
        c5.trans b5, c6.trans b6⟩

theorem splitNext_config (g g' : TreeGrower) (li ri : ℕ)
    (h : g.splitNext = .ok (g', li, ri)) :
    g'.splitter = g.splitter ∧ g'.max_leaf_nodes = g.max_leaf_nodes ∧
    g'.max_depth = g.max_depth ∧ g'.min_gain_to_split = g.min_gain_to_split ∧
    g'.shrinkage = g.shrinkage ∧ g'.features_data = g.features_data := by
  rw [TreeGrower.splitNext] at h
  by_cases hq : g.splittable_nodes.length = 0
  · rw [if_pos hq] at h
    exact absurd h (by simp)
  · rw [if_neg hq] at h
    have hne : g.splittable_nodes ≠ [] := by
      intro he
      exact hq (by rw [he]; rfl)
    obtain ⟨rest, hpop, _⟩ :=
      heappop_spec (ltIdx g.nodes) g.splittable_nodes hne
    rw [hpop] at h
    rcases hsi : (({ g with splittable_nodes := rest } :
        TreeGrower).nodes.getD (g.splittable_nodes.getD 0 0)
        default).split_info with _ | si
    · simp only [hsi] at h
      exact absurd h (by simp)
    · simp only [hsi] at h
      have hcore := Except.ok.inj h
      have hfst : g' = (({ g with splittable_nodes := rest } :
          TreeGrower).splitNextCore (g.splittable_nodes.getD 0 0) si).1 :=
        (congrArg Prod.fst hcore).symm
      rw [hfst]
      exact splitNextCore_config _ _ _

theorem reachable_head (a b c : TreeGrower) (li ri : ℕ)
    (h : a.splitNext = .ok (b, li, ri)) (hr : Reachable b c) : Reachable a c := by
  induction hr with
  | refl => exact Reachable.step (Reachable.refl a) h
  | step _ hstep ih => exact Reachable.step ih hstep

theorem reachable_config (a b : TreeGrower) (h : Reachable a b) :
    b.splitter = a.splitter ∧ b.max_leaf_nodes = a.max_leaf_nodes ∧
    b.max_depth = a.max_depth ∧ b.min_gain_to_split = a.min_gain_to_split ∧
    b.shrinkage = a.shrinkage ∧ b.features_data = a.features_data := by
  induction h with
  | refl => exact ⟨rfl, rfl, rfl, rfl, rfl, rfl⟩
  | step _ hstep ih =>
    obtain ⟨c1, c2, c3, c4, c5, c6⟩ := splitNext_config _ _ _ _ hstep
    obtain ⟨i1, i2, i3, i4, i5, i6⟩ := ih
    exact ⟨c1.trans i1, c2.trans i2, c3.trans i3, c4.trans i4,
      c5.trans i5, c6.trans i6⟩

theorem growAux_empty (fuel : ℕ) (g : TreeGrower)
    (hq : g.splittable_nodes = []) : TreeGrower.growAux fuel g = .ok g := by
  cases fuel with
  | zero => rfl
  | succ n =>
    rw [TreeGrower.growAux]
    rw [if_neg (by simp [TreeGrower.canSplitFurther, hq])]

theorem splitNext_empty (g : TreeGrower) (hq : g.splittable_nodes = []) :
    g.splitNext = .error (.stopIteration "No more splittable nodes") := by
  rw [TreeGrower.splitNext, if_pos (by rw [hq]; rfl)]

theorem splitNext_ok_of_inv (g : TreeGrower) (hInv : GInv g)
    (hne : g.splittable_nodes ≠ []) :
    ∃ g' li ri, g.splitNext = .ok (g', li, ri) := by
  obtain ⟨rest, hpop, hperm⟩ :=
    heappop_spec (ltIdx g.nodes) g.splittable_nodes hne
  have hq0mem : g.splittable_nodes.getD 0 0 ∈ g.splittable_nodes :=
    hperm.mem_iff.mpr (by simp)
  have hsome := (hInv.queue_shape _ hq0mem).1
  obtain ⟨si, hsi⟩ := Option.isSome_iff_exists.mp hsome
  have hsi' : (({ g with splittable_nodes := rest } :
      TreeGrower).nodes.getD (g.splittable_nodes.getD 0 0)
      default).split_info = some si := hsi
  have key : g.splitNext = .ok (({ g with splittable_nodes := rest } :
      TreeGrower).splitNextCore (g.splittable_nodes.getD 0 0) si) := by
    rw [TreeGrower.splitNext, if_neg (by simpa using hne), hpop]
    simp only [hsi']
  exact ⟨_, _, _, key⟩

theorem growAux_no_error (fuel : ℕ) : ∀ (g : TreeGrower), GInv g →
    ∃ g', TreeGrower.growAux fuel g = .ok g' ∧ Reachable g g' := by
  induction fuel with
  | zero => intro g _; exact ⟨g, rfl, Reachable.refl g⟩
  | succ n ih =>
    intro g hInv
    by_cases hq : g.splittable_nodes = []
    · exact ⟨g, growAux_empty _ _ hq, Reachable.refl g⟩
    · obtain ⟨g1, li, ri, hsn⟩ := splitNext_ok_of_inv g hInv hq
      obtain ⟨g', hgrow, hreach⟩ := ih g1 (GInv_splitNext _ _ _ _ hInv hsn)
      refine ⟨g', ?_, reachable_head _ _ _ _ _ hsn hreach⟩
      rw [TreeGrower.growAux,
        if_pos (by
          have := List.length_pos.mpr hq
          simp only [TreeGrower.canSplitFurther]
          simpa using this),
        hsn]
      exact hgrow

theorem initRoot_config (g : TreeGrower) :
    ({ g.intilializeRoot with n_nodes := 1 } : TreeGrower).splitter =
      g.splitter ∧
    ({ g.intilializeRoot with n_nodes := 1 } : TreeGrower).max_leaf_nodes =
      g.max_leaf_nodes ∧
    ({ g.intilializeRoot with n_nodes := 1 } : TreeGrower).max_depth =
      g.max_depth ∧
    ({ g.intilializeRoot with n_nodes := 1 } : TreeGrower).min_gain_to_split =
      g.min_gain_to_split ∧
    ({ g.intilializeRoot with n_nodes := 1 } : TreeGrower).shrinkage =
      g.shrinkage ∧
    ({ g.intilializeRoot with n_nodes := 1 } : TreeGrower).features_data =
      g.features_data ∧
    ({ g.intilializeRoot with n_nodes := 1 } : TreeGrower).n_nodes = 1 ∧
    ({ g.intilializeRoot with n_nodes := 1 } : TreeGrower).nodes.length = 1 := by
  rw [TreeGrower.intilializeRoot]
  set root : TreeNode :=
    { depth := 0
      sample_indices := List.range g.features_data.n_samples
      sum_gradients := g.splitter.all_gradients.sum
      sum_hessians := g.splitter.all_hessians.sum } with hroot
  set g1 : TreeGrower := { g with nodes := [root] } with hg1
  have hg1len : g1.nodes.length = 1 := by rw [hg1]; rfl
  by_cases hml1 : g1.max_leaf_nodes.isSome ∧ g1.max_leaf_nodes = some 1
  · rw [if_pos hml1]
    refine ⟨rfl, rfl, rfl, rfl, rfl, rfl, rfl, ?_⟩
    show (g1.finalizeLeaf 0).nodes.length = 1
    rw [finalizeLeaf_nodes_length]
    exact hg1len
  · rw [if_neg hml1]
    obtain ⟨c1, c2, c3, c4, c5, c6, c7, c8, c9, _⟩ :=
      computeSpittability_effects g1 0 (by rw [hg1len]; omega)
    exact ⟨c3, c4, c5, c6, c7, c9, rfl, by
      show (g1.computeSpittability 0).nodes.length = 1
      rw [c1]; exact hg1len⟩

theorem initRoot_enqueued (g : TreeGrower) (hml : g.max_leaf_nodes ≠ some 1)
    (hq : g.splittable_nodes = []) (hl : g.finalized_leaves = [])
    (hgain : ¬ (g.splitter.find_node_split
      (List.range g.features_data.n_samples)).gain < g.min_gain_to_split) :
    ({ g.intilializeRoot with n_nodes := 1 } : TreeGrower).splittable_nodes =
      [0] ∧
    ({ g.intilializeRoot with n_nodes := 1 } : TreeGrower).finalized_leaves =
      [] := by
  rw [TreeGrower.intilializeRoot]
  set root : TreeNode :=
    { depth := 0
      sample_indices := List.range g.features_data.n_samples
      sum_gradients := g.splitter.all_gradients.sum
      sum_hessians := g.splitter.all_hessians.sum } with hroot
  set g1 : TreeGrower := { g with nodes := [root] } with hg1
  have hg1q : g1.splittable_nodes = [] := by rw [hg1]; exact hq
  have hg1l : g1.finalized_leaves = [] := by rw [hg1]; exact hl
  have hg1getd : g1.nodes.getD 0 default = root := by rw [hg1]; rfl
  rw [if_neg (fun hc => hml hc.2)]
  rcases computeSpittability_cases g1 0 with ⟨hlt, _⟩ | ⟨_, heq⟩
  · exact absurd (by
      rw [hg1getd] at hlt
      exact hlt) hgain
  · constructor
    · show (g1.computeSpittability 0).splittable_nodes = [0]
      rw [heq]
      show heappush _ g1.splittable_nodes 0 = [0]
      rw [hg1q]
      exact heappush_nil _ 0
    · show (g1.computeSpittability 0).finalized_leaves = []
      rw [heq]
      exact hg1l

theorem initRoot_budget1 (g : TreeGrower) (hml : g.max_leaf_nodes = some 1)
    (hq : g.splittable_nodes = []) (hl : g.finalized_leaves = []) :
    ({ g.intilializeRoot with n_nodes := 1 } : TreeGrower).obs =
      ([{ depth := 0
          sample_indices := List.range g.features_data.n_samples
          sum_gradients := g.splitter.all_gradients.sum
          sum_hessians := g.splitter.all_hessians.sum
          weight := some (g.shrinkage * g.splitter.all_gradients.sum /
            (g.splitter.all_hessians.sum + g.splitter.l2_regularization)) }],
       [], [0], 1) := by
  rw [TreeGrower.intilializeRoot]
  set root : TreeNode :=
    { depth := 0
      sample_indices := List.range g.features_data.n_samples
      sum_gradients := g.splitter.all_gradients.sum
      sum_hessians := g.splitter.all_hessians.sum } with hroot
  set g1 : TreeGrower := { g with nodes := [root] } with hg1
  have hcond : g1.max_leaf_nodes.isSome ∧ g1.max_leaf_nodes = some 1 := by
    constructor
    · show g.max_leaf_nodes.isSome
      rw [hml]
      rfl
    · exact hml
  rw [if_pos hcond]
  show ((g1.finalizeLeaf 0).nodes, g1.splittable_nodes,
    g1.finalized_leaves ++ [0], (1 : ℕ)) = _
  rw [show g1.splittable_nodes = [] from hq,
    show g1.finalized_leaves = [] from hl]
  rfl

theorem init_fields (features_data : FeatureMatrix)
    (all_gradients all_hessians : List ℚ)
    (find_node_split : List ℕ → SplitInfo)
    (split_indices : List ℕ → SplitInfo → List ℕ × List ℕ)
    (max_leaf_nodes max_depth : Option ℤ)
    (min_gain_to_split : ℚ) (n_bins : ℕ) (l2_regularization : ℚ)
    (min_hessian_to_split : ℚ) (shrinkage : ℚ) (g0 : TreeGrower)
    (h : TreeGrower.init features_data all_gradients all_hessians
      find_node_split split_indices max_leaf_nodes max_depth
      min_gain_to_split n_bins l2_regularization min_hessian_to_split
      shrinkage = .ok g0) :
    g0.splitter.l2_regularization = l2_regularization ∧
    g0.splitter.find_node_split = find_node_split ∧
    g0.splitter.split_indices = split_indices ∧
    g0.splitter.all_gradients = all_gradients ∧
    g0.splitter.all_hessians = all_hessians ∧
    g0.max_leaf_nodes = max_leaf_nodes ∧ g0.max_depth = max_depth ∧
    g0.min_gain_to_split = min_gain_to_split ∧ g0.shrinkage = shrinkage ∧
    g0.features_data = features_data ∧ g0.n_nodes = 1 ∧
    g0.nodes.length = 1 := by
  rw [TreeGrower.init] at h
  by_cases h1 : features_data.dtype ≠ DType.uint8
  · rw [if_pos h1] at h
    exact absurd h (by simp)
  · rw [if_neg h1] at h
    by_cases h2 : optBelow1 max_leaf_nodes = true
    · rw [if_pos h2] at h
      exact absurd h (by simp)
    · rw [if_neg (by simp [h2] : ¬ optBelow1 max_leaf_nodes = true)] at h
      by_cases h3 : optBelow1 max_depth = true
      · rw [if_pos h3] at h
        exact absurd h (by simp)
      · rw [if_neg (by simp [h3] : ¬ optBelow1 max_depth = true)] at h
        have hg0 := (Except.ok.inj h).symm
        rw [hg0]
        obtain ⟨c1, c2, c3, c4, c5, c6, c7, c8⟩ := initRoot_config
          { splitter :=
              { n_features := features_data.n_features
                n_bins := n_bins
                all_gradients := all_gradients
                all_hessians := all_hessians
                l2_regularization := l2_regularization
                min_hessian_to_split := min_hessian_to_split
                find_node_split := find_node_split
                split_indices := split_indices }
            max_leaf_nodes := max_leaf_nodes
            max_depth := max_depth
            features_data := features_data
            min_gain_to_split := min_gain_to_split
            shrinkage := shrinkage
            splittable_nodes := []
            finalized_leaves := []
            nodes := []
            n_nodes := 0 }
        exact ⟨by rw [c1], by rw [c1], by rw [c1], by rw [c1], by rw [c1],
          c2, c3, c4, c5, c6, c7, c8⟩

theorem leafBudgetHit_true (m : ℤ) (n : ℕ)
    (h : leafBudgetHit (some m) n = true) : (n : ℤ) = m := by
  simpa [leafBudgetHit] using h

/-- One `split_next` step under `max_depth = None` and an evaluator whose
gain never falls below `min_gain_to_split`: the leaf-plus-queue count rises
by exactly one, and the queue empties exactly when the projected count
`n_leaf_nodes` hits the leaf budget. -/
theorem splitNext_counts (g g1 : TreeGrower) (li ri : ℕ) (k : ℤ)
    (hInv : GInv g) (hmd : g.max_depth = none)
    (hml : g.max_leaf_nodes = some k)
    (hgain : ∀ idx, g.min_gain_to_split ≤
      (g.splitter.find_node_split idx).gain)
    (h : g.splitNext = .ok (g1, li, ri)) :
    g1.finalized_leaves.length + g1.splittable_nodes.length =
      g.finalized_leaves.length + g.splittable_nodes.length + 1 ∧
    (((g.finalized_leaves.length + g.splittable_nodes.length + 1 : ℕ) : ℤ) =
        k → g1.splittable_nodes = []) ∧
    (((g.finalized_leaves.length + g.splittable_nodes.length + 1 : ℕ) : ℤ) ≠
        k → g1.splittable_nodes ≠ []) := by
  rw [TreeGrower.splitNext] at h
  by_cases hq : g.splittable_nodes.length = 0
  · rw [if_pos hq] at h
    exact absurd h (by simp)
  · rw [if_neg hq] at h
    have hne : g.splittable_nodes ≠ [] := by
      intro he
      exact hq (by rw [he]; rfl)
    obtain ⟨rest, hpop, hperm⟩ :=
      heappop_spec (ltIdx g.nodes) g.splittable_nodes hne
    rw [hpop] at h
    have hq0mem : g.splittable_nodes.getD 0 0 ∈ g.splittable_nodes :=
      hperm.mem_iff.mpr (by simp)
    have hsome := (hInv.queue_shape _ hq0mem).1
    obtain ⟨si, hsi⟩ := Option.isSome_iff_exists.mp hsome
    simp only [hsi] at h
    have hcore : ({ g with splittable_nodes := rest
        } : TreeGrower).splitNextCore (g.splittable_nodes.getD 0 0) si =
        (g1, li, ri) := Except.ok.inj h
    set p := g.splittable_nodes.getD 0 0 with hp
    rw [TreeGrower.splitNextCore] at hcore
    have hQlen : g.splittable_nodes.length = rest.length + 1 := by
      simpa using hperm.length_eq
    have hnodup : (p :: rest).Nodup := hperm.nodup_iff.mp hInv.queue_nodup
    have hrestnd : rest.Nodup := (List.nodup_cons.mp hnodup).2
    have hrestmem : ∀ i ∈ rest, i ∈ g.splittable_nodes := by
      intro i hi
      exact hperm.mem_iff.mpr (by simp [hi])
    set gm : TreeGrower :=
      { g with
        splittable_nodes := rest
        nodes := (g.nodes.set p
          { g.nodes.getD p default with
            left_child := some g.nodes.length
            right_child := some (g.nodes.length + 1) })
          ++ [{ depth := (g.nodes.getD p default).depth + 1
                sample_indices := (g.splitter.split_indices
                  ((g.nodes.getD p default)).sample_indices si).1
                sum_gradients := si.gradient_left
                sum_hessians := si.hessian_left },
              { depth := (g.nodes.getD p default).depth + 1
                sample_indices := (g.splitter.split_indices
                  ((g.nodes.getD p default)).sample_indices si).2
                sum_gradients := si.gradient_right
                sum_hessians := si.hessian_right }]
        n_nodes := g.n_nodes + 2 } with hgm
    have hgmlen : gm.nodes.length = g.nodes.length + 2 := by
      rw [hgm]
      simp
    have hd : ¬ depthAtMax g.max_depth ((g.nodes.getD p default).depth + 1)
        = true := by
      rw [hmd]
      simp [depthAtMax]
    rw [if_neg hd] at hcore
    by_cases hb : leafBudgetHit g.max_leaf_nodes
        (g.finalized_leaves.length + rest.length + 2)
    · rw [if_pos hb] at hcore
      have hhit : ((g.finalized_leaves.length + g.splittable_nodes.length + 1 :
          ℕ) : ℤ) = k := by
        have := leafBudgetHit_true k
          (g.finalized_leaves.length + rest.length + 2) (by rw [← hml]; exact hb)
        push_cast at this ⊢
        omega
      have hg1 : g1 = ((gm.finalizeLeaf g.nodes.length).finalizeLeaf
          (g.nodes.length + 1)).finalizeSplittableNodes :=
        (congrArg Prod.fst hcore).symm
      set gf : TreeGrower :=
        (gm.finalizeLeaf g.nodes.length).finalizeLeaf (g.nodes.length + 1)
        with hgf
      have hgfq : gf.splittable_nodes = rest := by
        rw [hgf]
        simp only [finalizeLeaf_splittable_nodes]
      have hgfl : gf.finalized_leaves =
          g.finalized_leaves ++ [g.nodes.length] ++ [g.nodes.length + 1] := by
        rw [hgf]
        simp only [finalizeLeaf_finalized_leaves]
      have hgflen : gf.nodes.length = g.nodes.length + 2 := by
        rw [hgf]
        simp only [finalizeLeaf_nodes_length]
        exact hgmlen
      obtain ⟨c1, c2, _⟩ := drainAux_spec gf.splittable_nodes.length gf
        (le_refl _)
        (by rw [hgfq]; exact hrestnd)
        (by
          rw [hgfq, hgflen]
          intro i hi
          have := hInv.queue_lt i (hrestmem i hi)
          omega)
      rw [hg1]
      rw [TreeGrower.finalizeSplittableNodes]
      refine ⟨?_, fun _ => c1, fun hne' => absurd hhit hne'⟩
      rw [c1, c2, hgfl, hgfq]
      simp only [List.length_append, List.length_reverse, List.length_nil,
        List.length_cons]
      omega
    · rw [if_neg hb] at hcore
      have hmiss : ((g.finalized_leaves.length + g.splittable_nodes.length + 1 :
          ℕ) : ℤ) ≠ k := by
        have := leafBudgetHit_false_ne k
          (g.finalized_leaves.length + rest.length + 2) (by
            rw [← hml]
            exact Bool.eq_false_iff.mpr hb)
        push_cast at this ⊢
        omega
      have hg1 : g1 = (gm.computeSpittability
          g.nodes.length).computeSpittability (g.nodes.length + 1) :=
        (congrArg Prod.fst hcore).symm
      obtain ⟨a1, _, a3, _, _, a6, _, _, _, hAor⟩ :=
        computeSpittability_effects gm g.nodes.length (by rw [hgmlen]; omega)
      have hgain_gm : ∀ idx, gm.min_gain_to_split ≤
          (gm.splitter.find_node_split idx).gain := by
        intro idx
        rw [show gm.splitter = g.splitter from by rw [hgm],
          show gm.min_gain_to_split = g.min_gain_to_split from by rw [hgm]]
        exact hgain idx
      rcases hAor with ⟨hlt', _⟩ | ⟨_, _, hA3, hA4⟩
      · exact absurd hlt' (not_lt.mpr (hgain_gm _))
      set gA : TreeGrower := gm.computeSpittability g.nodes.length with hgA
      have hgAq : gA.splittable_nodes.length = rest.length + 1 := by
        have h5 := hA3.length_eq
        simp only [List.length_cons] at h5
        rw [h5]
      have hgAl : gA.finalized_leaves = g.finalized_leaves := by
        rw [hA4]
      obtain ⟨b1, _, _, _, _, _, _, _, _, hBor⟩ :=
        computeSpittability_effects gA (g.nodes.length + 1)
          (by rw [hgA, a1, hgmlen]; omega)
      have hgain_gA : ∀ idx, gA.min_gain_to_split ≤
          (gA.splitter.find_node_split idx).gain := by
        intro idx
        rw [hgA, a3, a6]
        exact hgain_gm idx
      rcases hBor with ⟨hlt', _⟩ | ⟨_, _, hB3, hB4⟩
      · exact absurd hlt' (not_lt.mpr (hgain_gA _))
      have hg1q : g1.splittable_nodes.length = rest.length + 2 := by
        rw [hg1]
        have h6 := hB3.length_eq
        simp only [List.length_cons] at h6
        rw [h6, hgAq]
      have hg1l : g1.finalized_leaves = g.finalized_leaves := by
        rw [hg1, hB4, hgAl]
      refine ⟨by rw [hg1q, hg1l]; omega, fun hhit' => absurd hhit' hmiss,
        fun _ => ?_⟩
      intro hnil
      rw [hnil] at hg1q
      simp at hg1q

/-- Under `max_depth = None`, a leaf budget `k`, and an evaluator whose gain
never falls below `min_gain_to_split`, the grow loop finishes within
`k - (leaves + queue)` further iterations, with an empty queue and exactly
`k` finalized leaves. -/
theorem growAux_budget (k : ℤ) : ∀ (fuel : ℕ) (g : TreeGrower),
    GInv g → g.max_depth = none → g.max_leaf_nodes = some k →
    (∀ idx, g.min_gain_to_split ≤ (g.splitter.find_node_split idx).gain) →
    g.splittable_nodes ≠ [] →
    k ≤ (g.finalized_leaves.length + g.splittable_nodes.length : ℤ) + fuel →
    ∃ g', TreeGrower.growAux fuel g = .ok g' ∧ Reachable g g' ∧
      g'.splittable_nodes = [] ∧ (g'.finalized_leaves.length : ℤ) = k := by
  intro fuel
  induction fuel with
  | zero =>
    intro g hInv hmd hml hgain hne hfuel
    exfalso
    have hlt := (hInv.budget hmd k hml).2 hne
    push_cast at hfuel hlt
    omega
  | succ n ih =>
    intro g hInv hmd hml hgain hne hfuel
    obtain ⟨g1, li, ri, hsn⟩ := splitNext_ok_of_inv g hInv hne
    have hInv1 := GInv_splitNext _ _ _ _ hInv hsn
    obtain ⟨hcount, hhit, hmiss⟩ :=
      splitNext_counts g g1 li ri k hInv hmd hml hgain hsn
    obtain ⟨c1, c2, c3, c4, _, _⟩ := splitNext_config _ _ _ _ hsn
    have hgrow_eq : TreeGrower.growAux (n + 1) g = TreeGrower.growAux n g1 := by
      rw [TreeGrower.growAux,
        if_pos (by
          have := List.length_pos.mpr hne
          simp only [TreeGrower.canSplitFurther]
          simpa using this),
        hsn]
    by_cases hk : ((g.finalized_leaves.length + g.splittable_nodes.length + 1 :
        ℕ) : ℤ) = k
    · have hq1 : g1.splittable_nodes = [] := hhit hk
      have hl1 : (g1.finalized_leaves.length : ℤ) = k := by
        rw [hq1] at hcount
        simp only [List.length_nil, Nat.add_zero] at hcount
        push_cast at hk ⊢
        omega
      refine ⟨g1, ?_, Reachable.step (Reachable.refl g) hsn, hq1, hl1⟩
      rw [hgrow_eq]
      exact growAux_empty n g1 hq1
    · have hq1 : g1.splittable_nodes ≠ [] := hmiss hk
      have hfuel1 : k ≤ (g1.finalized_leaves.length +
          g1.splittable_nodes.length : ℤ) + n := by
        push_cast at hfuel ⊢
        push_cast at hcount
        omega
      obtain ⟨g', hgrow, hreach, hq', hl'⟩ := ih g1 hInv1 (c3.trans hmd)
        (c2.trans hml) (fun idx => by rw [c4, c1]; exact hgain idx) hq1 hfuel1
      exact ⟨g', by rw [hgrow_eq]; exact hgrow,
        reachable_head _ _ _ _ _ hsn hreach, hq', hl'⟩

theorem reachable_of_growAux (fuel : ℕ) : ∀ (g g' : TreeGrower),
    TreeGrower.growAux fuel g = .ok g' → Reachable g g' := by
  induction fuel with
  | zero =>
    intro g g' h
    rw [show g' = g from (Except.ok.inj h).symm]
    exact Reachable.refl g
  | succ n ih =>
    intro g g' h
    rw [TreeGrower.growAux] at h
    by_cases hc : g.canSplitFurther
    · rw [if_pos hc] at h
      rcases hsn : g.splitNext with e | ⟨g1, li, ri⟩
      · rw [hsn] at h
        exact absurd h (by simp)
      · rw [hsn] at h
        exact reachable_head _ _ _ _ _ hsn (ih g1 g' h)
    · rw [if_neg hc] at h
      rw [show g' = g from (Except.ok.inj h).symm]
      exact Reachable.refl g

theorem init_queue (features_data : FeatureMatrix)
    (all_gradients all_hessians : List ℚ)
    (find_node_split : List ℕ → SplitInfo)
    (split_indices : List ℕ → SplitInfo → List ℕ × List ℕ)
    (max_leaf_nodes max_depth : Option ℤ)
    (min_gain_to_split : ℚ) (n_bins : ℕ) (l2_regularization : ℚ)
    (min_hessian_to_split : ℚ) (shrinkage : ℚ) (g0 : TreeGrower)
    (h : TreeGrower.init features_data all_gradients all_hessians
      find_node_split split_indices max_leaf_nodes max_depth
      min_gain_to_split n_bins l2_regularization min_hessian_to_split
      shrinkage = .ok g0)
    (hml1 : max_leaf_nodes ≠ some 1)
    (hgain : ¬ (find_node_split
      (List.range features_data.n_samples)).gain < min_gain_to_split) :
    g0.splittable_nodes = [0] ∧ g0.finalized_leaves = [] := by
  rw [TreeGrower.init] at h
  by_cases h1 : features_data.dtype ≠ DType.uint8
  · rw [if_pos h1] at h
    exact absurd h (by simp)
  · rw [if_neg h1] at h
    by_cases h2 : optBelow1 max_leaf_nodes = true
    · rw [if_pos h2] at h
      exact absurd h (by simp)
    · rw [if_neg (by simp [h2] : ¬ optBelow1 max_leaf_nodes = true)] at h
      by_cases h3 : optBelow1 max_depth = true
      · rw [if_pos h3] at h
        exact absurd h (by simp)
      · rw [if_neg (by simp [h3] : ¬ optBelow1 max_depth = true)] at h
        have hg0 := (Except.ok.inj h).symm
        rw [hg0]
        exact initRoot_enqueued
          { splitter :=
              { n_features := features_data.n_features
                n_bins := n_bins
                all_gradients := all_gradients
                all_hessians := all_hessians
                l2_regularization := l2_regularization
                min_hessian_to_split := min_hessian_to_split
                find_node_split := find_node_split
                split_indices := split_indices }
            max_leaf_nodes := max_leaf_nodes
            max_depth := max_depth
            features_data := features_data
            min_gain_to_split := min_gain_to_split
            shrinkage := shrinkage
            splittable_nodes := []
            finalized_leaves := []
            nodes := []
            n_nodes := 0 } hml1 rfl rfl hgain

theorem init_budget1 (features_data : FeatureMatrix)
    (all_gradients all_hessians : List ℚ)
    (find_node_split : List ℕ → SplitInfo)
    (split_indices : List ℕ → SplitInfo → List ℕ × List ℕ)
    (max_depth : Option ℤ)
    (min_gain_to_split : ℚ) (n_bins : ℕ) (l2_regularization : ℚ)
    (min_hessian_to_split : ℚ) (shrinkage : ℚ) (g0 : TreeGrower)
    (h : TreeGrower.init features_data all_gradients all_hessians
      find_node_split split_indices (some 1) max_depth
      min_gain_to_split n_bins l2_regularization min_hessian_to_split
      shrinkage = .ok g0) :
    g0.obs =
      ([{ depth := 0
          sample_indices := List.range features_data.n_samples
          sum_gradients := all_gradients.sum
          sum_hessians := all_hessians.sum
          weight := some (shrinkage * all_gradients.sum /
            (all_hessians.sum + l2_regularization)) }],
       [], [0], 1) := by
  rw [TreeGrower.init] at h
  by_cases h1 : features_data.dtype ≠ DType.uint8
  · rw [if_pos h1] at h
    exact absurd h (by simp)
  · rw [if_neg h1] at h
    rw [if_neg (by simp [optBelow1] : ¬ optBelow1 (some 1) = true)] at h
    by_cases h3 : optBelow1 max_depth = true
    · rw [if_pos h3] at h
      exact absurd h (by simp)
    · rw [if_neg (by simp [h3] : ¬ optBelow1 max_depth = true)] at h
      have hg0 := (Except.ok.inj h).symm
      rw [hg0]
      exact initRoot_budget1
        { splitter :=
            { n_features := features_data.n_features
              n_bins := n_bins
              all_gradients := all_gradients
              all_hessians := all_hessians
              l2_regularization := l2_regularization
              min_hessian_to_split := min_hessian_to_split
              find_node_split := find_node_split
              split_indices := split_indices }
          max_leaf_nodes := some 1
          max_depth := max_depth
          features_data := features_data
          min_gain_to_split := min_gain_to_split
          shrinkage := shrinkage
          splittable_nodes := []
          finalized_leaves := []
          nodes := []
          n_nodes := 0 } rfl rfl rfl

/-! ## Correctness of the predictor serialization walk -/

theorem itree_size_leaf (i : ℕ) : (ITree.leaf i).size = 1 := rfl

theorem itree_size_node (i : ℕ) (l r : ITree) :
    (ITree.node i l r).size = 1 + l.size + r.size := by
  simp [ITree.size, ITree.indices]
  omega

theorem itree_size_pos (t : ITree) : 1 ≤ t.size := by
  cases t with
  | leaf i => rfl
  | node i l r =>
    rw [itree_size_node]
    omega

theorem itree_rootIdx_mem (t : ITree) : t.rootIdx ∈ t.indices := by
  cases t with
  | leaf i => simp [ITree.rootIdx, ITree.indices]
  | node i l r => simp [ITree.rootIdx, ITree.indices]

/-- On a completed grower (every arena node a leaf or an internal node), the
spanned tree satisfies the serialization walk's shape side condition. -/
theorem shapeOK_of_states (nodes : List TreeNode)
    (hstates : ∀ i, i < nodes.length →
      IsLeafNode (nodes.getD i default) ∨
      IsInternalNode (nodes.getD i default)) :
    ∀ t : ITree, Spans nodes t → (∀ i ∈ t.indices, i < nodes.length) →
      ShapeOK nodes t := by
  intro t
  induction t with
  | leaf i =>
    intro hspan hmem
    simp only [Spans] at hspan
    simp only [ShapeOK]
    have hi : i < nodes.length := hmem i (by simp [ITree.indices])
    rcases hstates i hi with hleaf | hint
    · exact hleaf.1
    · exfalso
      have := hint.2.1
      rw [hspan.1] at this
      exact Option.noConfusion (Option.isSome_iff_exists.mp this).choose_spec
  | node i l r ihl ihr =>
    intro hspan hmem
    simp only [Spans] at hspan
    obtain ⟨hlc, hrc, hsl, hsr⟩ := hspan
    have hi : i < nodes.length := hmem i (by simp [ITree.indices])
    rcases hstates i hi with hleaf | hint
    · exact absurd hlc (by rw [hleaf.2.1]; simp)
    · exact ⟨hint.2.2.2, hint.1,
        ihl hsl (fun j hj => hmem j (by simp [ITree.indices, hj])),
        ihr hsr (fun j hj => hmem j (by simp [ITree.indices, hj]))⟩

/-- `DescribesAt` only reads the record slots of the subtree's own window. -/
theorem describesAt_frame (nodes : List TreeNode) :
    ∀ (t : ITree) (recs recs' : List PredictorRecord) (next : ℕ),
      (∀ j, next ≤ j → j < next + t.size →
        recs'.getD j default = recs.getD j default) →
      DescribesAt nodes recs t next → DescribesAt nodes recs' t next := by
  intro t
  induction t with
  | leaf i =>
    intro recs recs' next hfr hd
    simp only [DescribesAt] at hd ⊢
    obtain ⟨w, h1, h2, h3⟩ := hd
    have hx := hfr next (le_refl _) (by
      have := itree_size_pos (ITree.leaf i)
      omega)
    exact ⟨w, h1, by rw [hx]; exact h2, by rw [hx]; exact h3⟩
  | node i l r ihl ihr =>
    intro recs recs' next hfr hd
    simp only [DescribesAt] at hd ⊢
    obtain ⟨si, h1, h2, h3, h4, h5, h6, hdl, hdr⟩ := hd
    have hsz := itree_size_node i l r
    have hlp := itree_size_pos l
    have hrp := itree_size_pos r
    have hx := hfr next (le_refl _) (by omega)
    refine ⟨si, h1, by rw [hx]; exact h2, by rw [hx]; exact h3,
      by rw [hx]; exact h4, by rw [hx]; exact h5, by rw [hx]; exact h6,
      ihl recs recs' (next + 1) (fun j hj1 hj2 => hfr j (by omega) (by omega))
        hdl,
      ihr recs recs' (next + 1 + l.size)
        (fun j hj1 hj2 => hfr j (by omega) (by omega)) hdr⟩

theorem getDReplicate (n j : ℕ) :
    (List.replicate n (default : PredictorRecord)).getD j default = default := by
  rw [List.getD_eq_getElem?_getD]
  rcases Nat.lt_or_ge j n with h | h
  · rw [List.getElem?_replicate]
    simp [h]
  · rw [List.getElem?_eq_none (by simpa using h)]
    rfl

/-- `_fill_predictor_node_array` on a subtree that the arena realizes with
the right shape: it succeeds, returns `next + size` as the next free index,
touches only its own window, and that window then describes the subtree in
preorder. -/
theorem fill_correct (nodes : List TreeNode) :
    ∀ (t : ITree) (fuel : ℕ) (recs : List PredictorRecord) (next : ℕ),
      ShapeOK nodes t → Spans nodes t → t.size ≤ fuel →
      next + t.size ≤ recs.length →
      (∀ j, next ≤ j → j < next + t.size →
        (recs.getD j default).is_leaf = false) →
      ∃ recs', fillPredictorNodeArray nodes fuel recs t.rootIdx next =
          some (recs', next + t.size) ∧
        recs'.length = recs.length ∧
        (∀ j, j < next → recs'.getD j default = recs.getD j default) ∧
        (∀ j, next + t.size ≤ j →
          recs'.getD j default = recs.getD j default) ∧
        DescribesAt nodes recs' t next := by
  intro t
  induction t with
  | leaf i =>
    intro fuel recs next hshape hspan hfuel hlen _
    simp only [ShapeOK] at hshape
    obtain ⟨w, hw⟩ := Option.isSome_iff_exists.mp hshape
    cases fuel with
    | zero => exact absurd hfuel (by simp [itree_size_leaf])
    | succ f =>
      rw [itree_size_leaf] at hlen ⊢
      have hnext : next < recs.length := by omega
      refine ⟨recs.set next
        { recs.getD next default with weight := w, is_leaf := true }, ?_,
        by simp, ?_, ?_, ?_⟩
      · simp only [fillPredictorNodeArray, ITree.rootIdx, hw]
      · intro j hj
        exact getDSetNe _ _ _ _ _ (by omega)
      · intro j hj
        exact getDSetNe _ _ _ _ _ (by omega)
      · simp only [DescribesAt]
        exact ⟨w, hw, by rw [getDSetSelf _ _ _ _ hnext],
          by rw [getDSetSelf _ _ _ _ hnext]⟩
  | node i l r ihl ihr =>
    intro fuel recs next hshape hspan hfuel hlen hzero
    simp only [ShapeOK] at hshape
    simp only [Spans] at hspan
    obtain ⟨hwn, hsis, hokl, hokr⟩ := hshape
    obtain ⟨hlc, hrc, hsl, hsr⟩ := hspan
    obtain ⟨si, hsi⟩ := Option.isSome_iff_exists.mp hsis
    have hsz := itree_size_node i l r
    have hlp := itree_size_pos l
    have hrp := itree_size_pos r
    cases fuel with
    | zero => exact absurd hfuel (by omega)
    | succ f =>
      have hnext : next < recs.length := by omega
      set recs1 : List PredictorRecord := recs.set next
        { feature_idx := si.feature_idx
          bin_threshold := si.bin_idx
          left := next + 1
          right := (recs.getD next default).right
          weight := (recs.getD next default).weight
          is_leaf := (recs.getD next default).is_leaf } with hrecs1
      have hrecs1len : recs1.length = recs.length := by simp [hrecs1]
      obtain ⟨recsL, hfillL, hLlen, hLlo, hLhi, hdl⟩ := ihl f recs1 (next + 1)
        hokl hsl (by omega) (by rw [hrecs1len]; omega)
        (by
          intro j hj1 hj2
          rw [hrecs1, getDSetNe _ _ _ _ _ (by omega)]
          exact hzero j (by omega) (by omega))
      set recs2 : List PredictorRecord := recsL.set next
        { feature_idx := (recsL.getD next default).feature_idx
          bin_threshold := (recsL.getD next default).bin_threshold
          left := (recsL.getD next default).left
          right := next + 1 + l.size
          weight := (recsL.getD next default).weight
          is_leaf := (recsL.getD next default).is_leaf } with hrecs2
      have hrecs2len : recs2.length = recs.length := by
        rw [hrecs2]
        simp [hLlen, hrecs1len]
      obtain ⟨recsR, hfillR, hRlen, hRlo, hRhi, hdr⟩ := ihr f recs2
        (next + 1 + l.size) hokr hsr (by omega) (by rw [hrecs2len]; omega)
        (by
          intro j hj1 hj2
          rw [hrecs2, getDSetNe _ _ _ _ _ (by omega),
            hLhi j (by omega), hrecs1, getDSetNe _ _ _ _ _ (by omega)]
          exact hzero j (by omega) (by omega))
      have hfill : fillPredictorNodeArray nodes (f + 1) recs
          (ITree.node i l r).rootIdx next = some (recsR, next + 1 + l.size +
            r.size) := by
        rw [show (ITree.node i l r).rootIdx = i from rfl]
        simp only [fillPredictorNodeArray, hwn, hsi, hlc, hrc]
        rw [← hrecs1]
        simp only [hfillL]
        rw [← hrecs2, hfillR]
      have hslot : recsR.getD next default =
          { recs.getD next default with
            feature_idx := si.feature_idx
            bin_threshold := si.bin_idx
            left := next + 1
            right := next + 1 + l.size } := by
        rw [hRlo next (by omega), hrecs2,
          getDSetSelf _ _ _ _ (by rw [hLlen, hrecs1len]; exact hnext),
          hLlo next (by omega), hrecs1, getDSetSelf _ _ _ _ hnext]
      refine ⟨recsR, ?_, by rw [hRlen, hrecs2len], ?_, ?_, ?_⟩
      · rw [hfill, hsz,
          show next + (1 + l.size + r.size) = next + 1 + l.size + r.size from
            by omega]
      · intro j hj
        rw [hRlo j (by omega), hrecs2, getDSetNe _ _ _ _ _ (by omega),
          hLlo j (by omega), hrecs1, getDSetNe _ _ _ _ _ (by omega)]
      · intro j hj
        rw [hsz] at hj
        rw [hRhi j (by omega), hrecs2, getDSetNe _ _ _ _ _ (by omega),
          hLhi j (by omega), hrecs1, getDSetNe _ _ _ _ _ (by omega)]
      · simp only [DescribesAt]
        refine ⟨si, hsi, by rw [hslot], by rw [hslot], by rw [hslot],
          by rw [hslot], ?_, ?_, ?_⟩
        · rw [hslot]
          show (recs.getD next default).is_leaf = false
          exact hzero next (le_refl _) (by omega)
        · refine describesAt_frame nodes l recsL recsR (next + 1) ?_ hdl
          intro j hj1 hj2
          rw [hRlo j (by omega), hrecs2, getDSetNe _ _ _ _ _ (by omega)]
        · exact hdr

/-! ## The claims -/

/-- C1 (amended): the spec's leaf-budget law holds as stated only when
`max_depth` is unset.  For a grower constructed with `max_leaf_nodes = k`
(`k ≥ 2`), `max_depth = None`, and a split evaluator whose gain never falls
below `min_gain_to_split`, running the grow loop (fuel `k` suffices)
terminates with an empty queue and exactly `k` finalized leaves.  The
unamended claim — exactly `k` leaves for every combination with `max_depth`
set or unset — is refuted by `C1_leaf_budget_counterexample`: the
`depth == max_depth` stopping rule takes precedence over the budget check,
which tests equality against a projected count that the overshooting branch
never reaches. -/
theorem C1_leaf_budget (features_data : FeatureMatrix)
    (all_gradients all_hessians : List ℚ)
    (find_node_split : List ℕ → SplitInfo)
    (split_indices : List ℕ → SplitInfo → List ℕ × List ℕ)
    (k : ℤ) (min_gain_to_split : ℚ) (n_bins : ℕ) (l2_regularization : ℚ)
    (min_hessian_to_split : ℚ) (shrinkage : ℚ) (g0 : TreeGrower)
    (hk : 2 ≤ k)
    (hgain : ∀ idx, min_gain_to_split ≤ (find_node_split idx).gain)
    (hinit : TreeGrower.init features_data all_gradients all_hessians
      find_node_split split_indices (some k) none min_gain_to_split n_bins
      l2_regularization min_hessian_to_split shrinkage = .ok g0) :
    ∃ g', TreeGrower.growAux k.toNat g0 = .ok g' ∧ Reachable g0 g' ∧
      g'.splittable_nodes = [] ∧ (g'.finalized_leaves.length : ℤ) = k := by
  have hInv := GInv_init _ _ _ _ _ _ _ _ _ _ _ _ _ hinit
  obtain ⟨f1, f2, f3, _, _, f6, f7, f8, _, _, _, _⟩ :=
    init_fields _ _ _ _ _ _ _ _ _ _ _ _ _ hinit
  obtain ⟨hq0, hl0⟩ := init_queue _ _ _ _ _ _ _ _ _ _ _ _ _ hinit
    (by intro hc; injection hc with hc'; omega)
    (not_lt.mpr (hgain _))
  have hfuel : k ≤ (g0.finalized_leaves.length +
      g0.splittable_nodes.length : ℤ) + k.toNat := by
    rw [hq0, hl0]
    have : (k.toNat : ℤ) = k := Int.toNat_of_nonneg (by omega)
    simp only [List.length_nil, List.length_cons]
    omega
  exact growAux_budget k k.toNat g0 hInv f7 f6
    (fun idx => by rw [f8, f2]; exact hgain idx)
    (by rw [hq0]; simp) hfuel

/-- C1 witness: the amended theorem at a concrete fixture
(`max_leaf_nodes = 3`, `max_depth` unset, gain-1 evaluator): the grow loop
ends with an empty queue and exactly 3 leaves. -/
theorem C1_leaf_budget_witness :
    (2 : ℤ) ≤ 3 ∧
    (∀ idx, (0 : ℚ) ≤ (exOracle idx).gain) ∧
    TreeGrower.init exFeatures [1, 1, 1, 1] [1, 1, 1, 1] exOracle
      exSplitIndices (some 3) none 0 256 0 (1 / 1000) 1 = .ok exG0C1b ∧
    ∃ g', TreeGrower.growAux (3 : ℤ).toNat exG0C1b = .ok g' ∧
      Reachable exG0C1b g' ∧ g'.splittable_nodes = [] ∧
      (g'.finalized_leaves.length : ℤ) = 3 :=
  ⟨by decide, fun idx => by show (0 : ℚ) ≤ 1; decide, rfl,
    C1_leaf_budget exFeatures [1, 1, 1, 1] [1, 1, 1, 1] exOracle
      exSplitIndices 3 0 256 0 (1 / 1000) 1 exG0C1b (by decide)
      (fun idx => by show (0 : ℚ) ≤ 1; decide) rfl⟩

/-- C1 counterexample: with `max_leaf_nodes = 3`, `max_depth = 2` and a
gain-1 evaluator on 4 samples, the grow loop runs to completion (empty
queue) but finalizes 4 leaves, not 3: the claim's "exactly k ... for every
combination with max_depth set or unset" is false. -/
theorem C1_leaf_budget_counterexample :
    TreeGrower.init exFeatures [1, 1, 1, 1] [1, 1, 1, 1] exOracle
      exSplitIndices (some 3) (some 2) = .ok exG0C1 ∧
    TreeGrower.growAux 10 exG0C1 = .ok exGrownC1 ∧
    exGrownC1.splittable_nodes = [] ∧
    (∀ fuel, TreeGrower.growAux fuel exGrownC1 = .ok exGrownC1) ∧
    exGrownC1.max_leaf_nodes = some 3 ∧
    exGrownC1.finalized_leaves.length = 4 :=
  ⟨rfl, rfl, rfl, fun fuel => growAux_empty fuel _ rfl, rfl, rfl⟩

/-- C2: when `max_depth = d`, after any number of `split_next` steps (hence
also when `grow()` returns) every arena node has depth at most `d`, and a
node at depth exactly `d` is a finalized leaf — weight set, no children,
not in the splittable queue. -/
theorem C2_depth_law (features_data : FeatureMatrix)
    (all_gradients all_hessians : List ℚ)
    (find_node_split : List ℕ → SplitInfo)
    (split_indices : List ℕ → SplitInfo → List ℕ × List ℕ)
    (max_leaf_nodes : Option ℤ) (d : ℤ)
    (min_gain_to_split : ℚ) (n_bins : ℕ) (l2_regularization : ℚ)
    (min_hessian_to_split : ℚ) (shrinkage : ℚ) (g0 g : TreeGrower)
    (hinit : TreeGrower.init features_data all_gradients all_hessians
      find_node_split split_indices max_leaf_nodes (some d)
      min_gain_to_split n_bins l2_regularization min_hessian_to_split
      shrinkage = .ok g0)
    (hreach : Reachable g0 g) :
    ∀ i, i < g.nodes.length →
      ((g.nodes.getD i default).depth : ℤ) ≤ d ∧
      (((g.nodes.getD i default).depth : ℤ) = d →
        IsLeafNode (g.nodes.getD i default) ∧ i ∉ g.splittable_nodes) := by
  have hInv := GInv_reachable _ _ hreach
    (GInv_init _ _ _ _ _ _ _ _ _ _ _ _ _ hinit)
  have hmd : g.max_depth = some d := by
    rw [(reachable_config _ _ hreach).2.2.1,
      (init_fields _ _ _ _ _ _ _ _ _ _ _ _ _ hinit).2.2.2.2.2.2.1]
  obtain ⟨hle, hqlt⟩ := hInv.depth_le d hmd
  intro i hi
  refine ⟨hle i hi, fun hd => ?_⟩
  have hnq : i ∉ g.splittable_nodes := fun hmem => by
    have := hqlt i hmem
    omega
  refine ⟨?_, hnq⟩
  rcases hInv.states i hi with hleaf | hint | hq
  · exact hleaf
  · exfalso
    obtain ⟨c, hc⟩ := Option.isSome_iff_exists.mp hint.2.1
    obtain ⟨hclt, hcd⟩ := hInv.child_depth i hi c (Or.inl hc)
    have hcle := hle c hclt
    rw [hcd] at hcle
    push_cast at hcle
    omega
  · exact absurd hq hnq

/-- C2 witness: the depth law at the grown fixture (`max_depth = 2`), at
arena index 6 (a depth-2 node). -/
theorem C2_depth_law_witness :
    TreeGrower.init exFeatures [1, 1, 1, 1] [1, 1, 1, 1] exOracle
      exSplitIndices (some 3) (some 2) 0 256 0 (1 / 1000) 1 = .ok exG0C1 ∧
    (((exGrownC1.nodes.getD 6 default).depth : ℤ) ≤ 2 ∧
      (((exGrownC1.nodes.getD 6 default).depth : ℤ) = 2 →
        IsLeafNode (exGrownC1.nodes.getD 6 default) ∧
        6 ∉ exGrownC1.splittable_nodes)) :=
  ⟨rfl,
    C2_depth_law exFeatures [1, 1, 1, 1] [1, 1, 1, 1] exOracle exSplitIndices
      (some 3) 2 0 256 0 (1 / 1000) 1 exG0C1 exGrownC1 rfl
      (reachable_of_growAux 10 exG0C1 exGrownC1 rfl) 6 (by decide)⟩

/-- C3: constructing with `max_leaf_nodes = 1` finalizes the root
immediately: the state is exactly one node (the weighted root), the root's
`split_info` stays `None`, the queue stays empty, the leaf list is `[root]`,
`grow()` is a no-op, and the resulting state is identical whatever the split
evaluator and partitioner are (no split evaluation is performed). -/
theorem C3_degenerate_budget (features_data : FeatureMatrix)
    (all_gradients all_hessians : List ℚ)
    (fns1 fns2 : List ℕ → SplitInfo)
    (parts1 parts2 : List ℕ → SplitInfo → List ℕ × List ℕ)
    (max_depth : Option ℤ)
    (min_gain_to_split : ℚ) (n_bins : ℕ) (l2_regularization : ℚ)
    (min_hessian_to_split : ℚ) (shrinkage : ℚ) (g0 g0' : TreeGrower)
    (h1 : TreeGrower.init features_data all_gradients all_hessians fns1
      parts1 (some 1) max_depth min_gain_to_split n_bins l2_regularization
      min_hessian_to_split shrinkage = .ok g0)
    (h2 : TreeGrower.init features_data all_gradients all_hessians fns2
      parts2 (some 1) max_depth min_gain_to_split n_bins l2_regularization
      min_hessian_to_split shrinkage = .ok g0') :
    g0.nodes =
      [{ depth := 0
         sample_indices := List.range features_data.n_samples
         sum_gradients := all_gradients.sum
         sum_hessians := all_hessians.sum
         weight := some (shrinkage * all_gradients.sum /
           (all_hessians.sum + l2_regularization)) }] ∧
    (g0.nodes.getD 0 default).split_info = none ∧
    g0.splittable_nodes = [] ∧
    g0.finalized_leaves = [0] ∧
    g0.n_nodes = 1 ∧
    (∀ fuel, TreeGrower.growAux fuel g0 = .ok g0) ∧
    g0.obs = g0'.obs := by
  have ho1 := init_budget1 _ _ _ _ _ _ _ _ _ _ _ _ h1
  have ho2 := init_budget1 _ _ _ _ _ _ _ _ _ _ _ _ h2
  have hn : g0.nodes =
      [{ depth := 0
         sample_indices := List.range features_data.n_samples
         sum_gradients := all_gradients.sum
         sum_hessians := all_hessians.sum
         weight := some (shrinkage * all_gradients.sum /
           (all_hessians.sum + l2_regularization)) }] :=
    congrArg (fun x => x.1) ho1
  have hq : g0.splittable_nodes = [] := congrArg (fun x => x.2.1) ho1
  have hl : g0.finalized_leaves = [0] := congrArg (fun x => x.2.2.1) ho1
  have hnn : g0.n_nodes = 1 := congrArg (fun x => x.2.2.2) ho1
  refine ⟨hn, ?_, hq, hl, hnn, fun fuel => growAux_empty fuel g0 hq,
    ho1.trans ho2.symm⟩
  rw [hn]
  rfl

/-- C3 witness: the degenerate-budget theorem at a concrete fixture, with
two different evaluator/partitioner pairs. -/
theorem C3_degenerate_budget_witness :
    TreeGrower.init exFeatures [1, 1, 1, 1] [1, 1, 1, 1] exOracle
      exSplitIndices (some 1) none 0 256 0 (1 / 1000) 1 = .ok exG0C3 ∧
    ((exG0C3.nodes.getD 0 default).split_info = none ∧
      exG0C3.splittable_nodes = [] ∧
      exG0C3.finalized_leaves = [0] ∧
      exG0C3.n_nodes = 1) :=
  ⟨rfl, by
    obtain ⟨_, c2, c3, c4, c5, _, _⟩ :=
      C3_degenerate_budget exFeatures [1, 1, 1, 1] [1, 1, 1, 1] exOracle
        (fun _ => default) exSplitIndices (fun idx _ => (idx, []))
        none 0 256 0 (1 / 1000) 1 exG0C3
        (match TreeGrower.init exFeatures [1, 1, 1, 1] [1, 1, 1, 1]
            (fun _ => default) (fun idx _ => (idx, []))
            (some 1) none 0 256 0 (1 / 1000) 1 with
          | .ok g => g
          | .error _ => default)
        rfl rfl
    exact ⟨c2, c3, c4, c5⟩⟩

/-- C4: every node on the finalized-leaves list carries the weight
`shrinkage * sum_gradients / (sum_hessians + l2_regularization)`, computed
from its own aggregate sums and the configured shrinkage and
regularization. -/
theorem C4_leaf_weight (features_data : FeatureMatrix)
    (all_gradients all_hessians : List ℚ)
    (find_node_split : List ℕ → SplitInfo)
    (split_indices : List ℕ → SplitInfo → List ℕ × List ℕ)
    (max_leaf_nodes max_depth : Option ℤ)
    (min_gain_to_split : ℚ) (n_bins : ℕ) (l2_regularization : ℚ)
    (min_hessian_to_split : ℚ) (shrinkage : ℚ) (g0 g : TreeGrower) (i : ℕ)
    (hinit : TreeGrower.init features_data all_gradients all_hessians
      find_node_split split_indices max_leaf_nodes max_depth
      min_gain_to_split n_bins l2_regularization min_hessian_to_split
      shrinkage = .ok g0)
    (hreach : Reachable g0 g)
    (hi : i ∈ g.finalized_leaves) :
    (g.nodes.getD i default).weight =
      some (shrinkage * (g.nodes.getD i default).sum_gradients /
        ((g.nodes.getD i default).sum_hessians + l2_regularization)) := by
  have hInv := GInv_reachable _ _ hreach
    (GInv_init _ _ _ _ _ _ _ _ _ _ _ _ _ hinit)
  have hw := hInv.leaves_weight i hi
  have hsh : g.shrinkage = shrinkage :=
    (reachable_config _ _ hreach).2.2.2.2.1.trans
      (init_fields _ _ _ _ _ _ _ _ _ _ _ _ _ hinit).2.2.2.2.2.2.2.2.1
  have hl2 : g.splitter.l2_regularization = l2_regularization := by
    rw [(reachable_config _ _ hreach).1]
    exact (init_fields _ _ _ _ _ _ _ _ _ _ _ _ _ hinit).1
  rw [hw]
  simp only [TreeGrower.leafWeight]
  rw [hsh, hl2]

/-- C4 witness: the leaf-weight formula on the degenerate fixture's root:
`1 * 4 / (4 + 0)`. -/
theorem C4_leaf_weight_witness :
    TreeGrower.init exFeatures [1, 1, 1, 1] [1, 1, 1, 1] exOracle
      exSplitIndices (some 1) none 0 256 0 (1 / 1000) 1 = .ok exG0C3 ∧
    0 ∈ exG0C3.finalized_leaves ∧
    (exG0C3.nodes.getD 0 default).weight =
      some (1 * (exG0C3.nodes.getD 0 default).sum_gradients /
        ((exG0C3.nodes.getD 0 default).sum_hessians + 0)) :=
  ⟨rfl, by decide,
    C4_leaf_weight exFeatures [1, 1, 1, 1] [1, 1, 1, 1] exOracle
      exSplitIndices (some 1) none 0 256 0 (1 / 1000) 1 exG0C3 exG0C3 0
      rfl (Reachable.refl _) (by decide)⟩

/-- C5: on a non-empty queue that is a well-formed `heapq` heap of evaluated
nodes (under the gain-inverting node order), `split_next` pops a node whose
gain is maximal among all queued nodes and proceeds to split exactly that
node. -/
theorem C5_max_gain_first (g : TreeGrower)
    (hne : g.splittable_nodes ≠ [])
    (hheap : heapInv (gainKey g.nodes) g.splittable_nodes)
    (hshape : ∀ i ∈ g.splittable_nodes,
      (g.nodes.getD i default).split_info.isSome) :
    ∃ p rest si,
      heappop (ltIdx g.nodes) g.splittable_nodes = some (p, rest) ∧
      List.Perm g.splittable_nodes (p :: rest) ∧
      (g.nodes.getD p default).split_info = some si ∧
      (∀ j ∈ g.splittable_nodes, gainKey g.nodes j ≤ gainKey g.nodes p) ∧
      g.splitNext = .ok
        (({ g with splittable_nodes := rest } : TreeGrower).splitNextCore
          p si) := by
  obtain ⟨rest, hpop, hperm⟩ :=
    heappop_spec (ltIdx g.nodes) g.splittable_nodes hne
  have hq0mem : g.splittable_nodes.getD 0 0 ∈ g.splittable_nodes :=
    hperm.mem_iff.mpr (by simp)
  obtain ⟨si, hsi⟩ := Option.isSome_iff_exists.mp (hshape _ hq0mem)
  refine ⟨_, rest, si, hpop, hperm, hsi, ?_, ?_⟩
  · intro j hj
    obtain ⟨idx, hidxlt, hidx⟩ := List.mem_iff_getElem.mp hj
    have hgd : g.splittable_nodes.getD idx 0 = j := by
      rw [List.getD_eq_getElem?_getD, List.getElem?_eq_getElem hidxlt, hidx]
      rfl
    have := heapInv_root_max (gainKey g.nodes) g.splittable_nodes hheap
      idx hidxlt
    rw [hgd] at this
    exact this
  · rw [TreeGrower.splitNext, if_neg (by simpa using hne), hpop]
    simp only [show (({ g with splittable_nodes := rest } :
        TreeGrower).nodes.getD (g.splittable_nodes.getD 0 0)
        default).split_info = some si from hsi]

/-- C5 witness: a two-element heap with gains 5 (index 0) and 2 (index 1):
the pop removes the gain-5 node. -/
theorem C5_max_gain_first_witness :
    exHeapGrower.splittable_nodes ≠ [] ∧
    ∃ p rest si,
      heappop (ltIdx exHeapGrower.nodes) exHeapGrower.splittable_nodes =
        some (p, rest) ∧
      List.Perm exHeapGrower.splittable_nodes (p :: rest) ∧
      (exHeapGrower.nodes.getD p default).split_info = some si ∧
      (∀ j ∈ exHeapGrower.splittable_nodes,
        gainKey exHeapGrower.nodes j ≤ gainKey exHeapGrower.nodes p) ∧
      exHeapGrower.splitNext = .ok
        (({ exHeapGrower with splittable_nodes := rest } :
          TreeGrower).splitNextCore p si) :=
  ⟨by decide,
    C5_max_gain_first exHeapGrower (by decide)
      (by
        intro i j hj hlt
        have hlt2 : j < 2 := hlt
        rcases hj with hj | hj
        · have hi : i = 0 := by omega
          have hj1 : j = 1 := by omega
          rw [hi, hj1]
          decide
        · omega)
      (by decide)⟩

/-- C6: construction validates its inputs before building any state: a
non-`uint8` feature matrix raises `NotImplementedError`, a `max_leaf_nodes`
below 1 raises `ValueError` with the exact message, and a `max_depth` below
1 raises `ValueError` with the exact message; in each case `init` returns
the error and no grower state. -/
theorem C6_validation (features_data : FeatureMatrix)
    (all_gradients all_hessians : List ℚ)
    (find_node_split : List ℕ → SplitInfo)
    (split_indices : List ℕ → SplitInfo → List ℕ × List ℕ)
    (max_leaf_nodes max_depth : Option ℤ)
    (min_gain_to_split : ℚ) (n_bins : ℕ) (l2_regularization : ℚ)
    (min_hessian_to_split : ℚ) (shrinkage : ℚ) :
    (features_data.dtype ≠ DType.uint8 →
      TreeGrower.init features_data all_gradients all_hessians
        find_node_split split_indices max_leaf_nodes max_depth
        min_gain_to_split n_bins l2_regularization min_hessian_to_split
        shrinkage = .error (.notImplementedError
          "Explicit feature binning required for now")) ∧
    (∀ v : ℤ, features_data.dtype = DType.uint8 → max_leaf_nodes = some v →
      v < 1 →
      TreeGrower.init features_data all_gradients all_hessians
        find_node_split split_indices max_leaf_nodes max_depth
        min_gain_to_split n_bins l2_regularization min_hessian_to_split
        shrinkage = .error (.valueError ("max_leaf_nodes=" ++ toString v ++
          " should not be smaller than 1"))) ∧
    (∀ v : ℤ, features_data.dtype = DType.uint8 →
      optBelow1 max_leaf_nodes = false → max_depth = some v → v < 1 →
      TreeGrower.init features_data all_gradients all_hessians
        find_node_split split_indices max_leaf_nodes max_depth
        min_gain_to_split n_bins l2_regularization min_hessian_to_split
        shrinkage = .error (.valueError ("max_depth=" ++ toString v ++
          " should not be smaller than 1"))) := by
  refine ⟨?_, ?_, ?_⟩
  · intro h
    rw [TreeGrower.init, if_pos h]
  · intro v hd hml hv
    rw [TreeGrower.init, hml, if_neg (fun hc => hc hd),
      if_pos (by simp [optBelow1]; omega)]
    rfl
  · intro v hd hml hmd hv
    rw [TreeGrower.init, hmd, if_neg (fun hc => hc hd),
      if_neg (by simp [hml] : ¬ optBelow1 max_leaf_nodes = true),
      if_pos (by simp [optBelow1]; omega)]
    rfl

/-- C6 witness: the three validation failures at concrete inputs, with the
exact exception messages. -/
theorem C6_validation_witness :
    exFeaturesBad.dtype ≠ DType.uint8 ∧
    TreeGrower.init exFeaturesBad [] [] exOracle exSplitIndices none none
      0 256 0 (1 / 1000) 1 = .error (.notImplementedError
        "Explicit feature binning required for now") ∧
    TreeGrower.init exFeatures [] [] exOracle exSplitIndices (some 0) none
      0 256 0 (1 / 1000) 1 = .error (.valueError
        "max_leaf_nodes=0 should not be smaller than 1") ∧
    TreeGrower.init exFeatures [] [] exOracle exSplitIndices none (some 0)
      0 256 0 (1 / 1000) 1 = .error (.valueError
        "max_depth=0 should not be smaller than 1") :=
  ⟨by decide,
    (C6_validation exFeaturesBad [] [] exOracle exSplitIndices none none
      0 256 0 (1 / 1000) 1).1 (by decide),
    (C6_validation exFeatures [] [] exOracle exSplitIndices (some 0) none
      0 256 0 (1 / 1000) 1).2.1 0 rfl rfl (by decide),
    (C6_validation exFeatures [] [] exOracle exSplitIndices none (some 0)
      0 256 0 (1 / 1000) 1).2.2 0 rfl rfl rfl (by decide)⟩

/-- C7: the node comparison raises `ValueError` (with the code's message)
whenever either side's `split_info` is unset, and otherwise returns exactly
"left gain strictly greater than right gain" — it never silently compares
an unevaluated node. -/
theorem C7_lt_comparison (a b : TreeNode) :
    ((a.split_info = none ∨ b.split_info = none) →
      a.lt b = .error (.valueError "Cannot compare nodes with split_info")) ∧
    (∀ sa sb, a.split_info = some sa → b.split_info = some sb →
      a.lt b = .ok (decide (sb.gain < sa.gain))) := by
  constructor
  · intro h
    rcases ha : a.split_info with _ | sa <;>
      rcases hb : b.split_info with _ | sb <;>
        simp only [TreeNode.lt, ha, hb]
    rcases h with h | h
    · exact absurd (ha.symm.trans h) (by simp)
    · exact absurd (hb.symm.trans h) (by simp)
  · intro sa sb ha hb
    simp only [TreeNode.lt, ha, hb]

/-- C7 witness: comparing against an unevaluated node raises; comparing two
evaluated nodes (gains 5 and 2) returns `true`. -/
theorem C7_lt_comparison_witness :
    (exNode5.split_info = none ∨ exNodeNone.split_info = none) ∧
    exNode5.lt exNodeNone =
      .error (.valueError "Cannot compare nodes with split_info") ∧
    exNode5.lt exNode2 = .ok true :=
  ⟨Or.inr rfl,
    (C7_lt_comparison exNode5 exNodeNone).1 (Or.inr rfl),
    (C7_lt_comparison exNode5 exNode2).2
      { exSplitInfo with gain := 5 } { exSplitInfo with gain := 2 } rfl rfl⟩

/-- C8: on a grower whose grow loop has completed (empty queue),
`make_predictor` succeeds and fills the record array in preorder from slot 0:
the walk returns `n_nodes` as its final next-free index (every slot filled,
slot count = node count), each internal record stores the split's
feature/bin with its left child in the very next slot and its right child
right after the whole left subtree, and each leaf record stores the leaf's
weight with `is_leaf` set (the `DescribesAt` contract along the spanned
tree). -/
theorem C8_predictor_layout (features_data : FeatureMatrix)
    (all_gradients all_hessians : List ℚ)
    (find_node_split : List ℕ → SplitInfo)
    (split_indices : List ℕ → SplitInfo → List ℕ × List ℕ)
    (max_leaf_nodes max_depth : Option ℤ)
    (min_gain_to_split : ℚ) (n_bins : ℕ) (l2_regularization : ℚ)
    (min_hessian_to_split : ℚ) (shrinkage : ℚ) (g0 g : TreeGrower)
    (hinit : TreeGrower.init features_data all_gradients all_hessians
      find_node_split split_indices max_leaf_nodes max_depth
      min_gain_to_split n_bins l2_regularization min_hessian_to_split
      shrinkage = .ok g0)
    (hreach : Reachable g0 g)
    (hdone : g.splittable_nodes = []) :
    ∃ recs t, g.makePredictor = some recs ∧
      recs.length = g.n_nodes ∧
      t.rootIdx = 0 ∧ Spans g.nodes t ∧ ITree.size t = g.n_nodes ∧
      fillPredictorNodeArray g.nodes (g.n_nodes + 1)
        (List.replicate g.n_nodes default) 0 0 = some (recs, g.n_nodes) ∧
      DescribesAt g.nodes recs t 0 := by
  have hInv := GInv_reachable _ _ hreach
    (GInv_init _ _ _ _ _ _ _ _ _ _ _ _ _ hinit)
  obtain ⟨t, ht0, hspan, hpermt⟩ := hInv.span
  have hsize : t.size = g.nodes.length := by
    have := hpermt.length_eq
    simpa [ITree.size] using this
  have hmem : ∀ i ∈ t.indices, i < g.nodes.length := by
    intro i hi
    have : i ∈ List.range g.nodes.length := hpermt.mem_iff.mp hi
    simpa using this
  have hstates : ∀ i, i < g.nodes.length →
      IsLeafNode (g.nodes.getD i default) ∨
      IsInternalNode (g.nodes.getD i default) := by
    intro i hi
    rcases hInv.states i hi with h | h | h
    · exact Or.inl h
    · exact Or.inr h
    · rw [hdone] at h
      exact absurd h (List.not_mem_nil i)
  have hshape := shapeOK_of_states g.nodes hstates t hspan hmem
  have hnn : g.n_nodes = g.nodes.length := hInv.nnodes_eq
  obtain ⟨recs, hfill, hlen, _, _, hdesc⟩ := fill_correct g.nodes t
    (g.n_nodes + 1) (List.replicate g.n_nodes default) 0
    hshape hspan (by rw [hsize, hnn]; omega)
    (by rw [List.length_replicate, hsize, hnn]; omega)
    (fun j _ _ => by rw [getDReplicate]; rfl)
  rw [ht0] at hfill
  have hfill' : fillPredictorNodeArray g.nodes (g.n_nodes + 1)
      (List.replicate g.n_nodes default) 0 0 = some (recs, g.n_nodes) := by
    rw [hfill, show 0 + t.size = g.n_nodes from by rw [hsize, hnn]; omega]
  refine ⟨recs, t, ?_, by rw [hlen, List.length_replicate], ht0, hspan,
    by rw [hsize, hnn], hfill', hdesc⟩
  rw [TreeGrower.makePredictor, hfill']
  rfl

/-- C8 witness: the predictor layout on the grown budget-3 fixture
(5 nodes). -/
theorem C8_predictor_layout_witness :
    TreeGrower.init exFeatures [1, 1, 1, 1] [1, 1, 1, 1] exOracle
      exSplitIndices (some 3) none 0 256 0 (1 / 1000) 1 = .ok exG0C1b ∧
    TreeGrower.growAux 10 exG0C1b = .ok exGrownC1b ∧
    exGrownC1b.splittable_nodes = [] ∧
    ∃ recs t, exGrownC1b.makePredictor = some recs ∧
      recs.length = exGrownC1b.n_nodes ∧
      t.rootIdx = 0 ∧ Spans exGrownC1b.nodes t ∧
      ITree.size t = exGrownC1b.n_nodes ∧
      fillPredictorNodeArray exGrownC1b.nodes (exGrownC1b.n_nodes + 1)
        (List.replicate exGrownC1b.n_nodes default) 0 0 =
        some (recs, exGrownC1b.n_nodes) ∧
      DescribesAt exGrownC1b.nodes recs t 0 :=
  ⟨rfl, rfl, rfl,
    C8_predictor_layout exFeatures [1, 1, 1, 1] [1, 1, 1, 1] exOracle
      exSplitIndices (some 3) none 0 256 0 (1 / 1000) 1 exG0C1b exGrownC1b
      rfl (reachable_of_growAux 10 exG0C1b exGrownC1b rfl) rfl⟩

/-- C9: with an empty queue, `split_next` raises `StopIteration` with the
message "No more splittable nodes" and the grow loop is a no-op; with a
non-empty queue (on any invariant-respecting state), `split_next` succeeds
— so the exception is raised only on exhaustion; and the grow loop always
returns normally (it never surfaces the exhaustion signal). -/
theorem C9_exhaustion (g : TreeGrower) (hInv : GInv g) :
    (g.splittable_nodes = [] →
      g.splitNext = .error (.stopIteration "No more splittable nodes") ∧
      ∀ fuel, TreeGrower.growAux fuel g = .ok g) ∧
    (g.splittable_nodes ≠ [] →
      ∃ g' li ri, g.splitNext = .ok (g', li, ri)) ∧
    (∀ fuel, ∃ g', TreeGrower.growAux fuel g = .ok g' ∧ Reachable g g') :=
  ⟨fun hq => ⟨splitNext_empty g hq, fun fuel => growAux_empty fuel g hq⟩,
    fun hne => splitNext_ok_of_inv g hInv hne,
    fun fuel => growAux_no_error fuel g hInv⟩

/-- C9 witness: the exhaustion behavior at the freshly constructed budget-3
fixture (queue `[0]`). -/
theorem C9_exhaustion_witness :
    TreeGrower.init exFeatures [1, 1, 1, 1] [1, 1, 1, 1] exOracle
      exSplitIndices (some 3) none 0 256 0 (1 / 1000) 1 = .ok exG0C1b ∧
    ((exG0C1b.splittable_nodes = [] →
      exG0C1b.splitNext =
        .error (.stopIteration "No more splittable nodes") ∧
      ∀ fuel, TreeGrower.growAux fuel exG0C1b = .ok exG0C1b) ∧
    (exG0C1b.splittable_nodes ≠ [] →
      ∃ g' li ri, exG0C1b.splitNext = .ok (g', li, ri)) ∧
    (∀ fuel, ∃ g', TreeGrower.growAux fuel exG0C1b = .ok g' ∧
      Reachable exG0C1b g')) :=
  ⟨rfl,
    C9_exhaustion exG0C1b
      (GInv_init exFeatures [1, 1, 1, 1] [1, 1, 1, 1] exOracle
        exSplitIndices (some 3) none 0 256 0 (1 / 1000) 1 exG0C1b rfl)⟩

/-- C10: once the grow loop has completed (empty queue), every arena node is
either a finalized leaf (weight set, no children) or an internal node (both
children set, no weight) — never half-split or unevaluated — the node links
span a binary tree rooted at the root covering every created node exactly
once (a full binary tree), and `n_nodes + 1 = 2 * leaves` (i.e.
`n_nodes = 2 * leaves - 1`). -/
theorem C10_full_binary_tree (features_data : FeatureMatrix)
    (all_gradients all_hessians : List ℚ)
    (find_node_split : List ℕ → SplitInfo)
    (split_indices : List ℕ → SplitInfo → List ℕ × List ℕ)
    (max_leaf_nodes max_depth : Option ℤ)
    (min_gain_to_split : ℚ) (n_bins : ℕ) (l2_regularization : ℚ)
    (min_hessian_to_split : ℚ) (shrinkage : ℚ) (g0 g : TreeGrower)
    (hinit : TreeGrower.init features_data all_gradients all_hessians
      find_node_split split_indices max_leaf_nodes max_depth
      min_gain_to_split n_bins l2_regularization min_hessian_to_split
      shrinkage = .ok g0)
    (hreach : Reachable g0 g)
    (hdone : g.splittable_nodes = []) :
    (∀ i, i < g.nodes.length →
      IsLeafNode (g.nodes.getD i default) ∨
      IsInternalNode (g.nodes.getD i default)) ∧
    g.n_nodes = g.nodes.length ∧
    g.n_nodes + 1 = 2 * g.finalized_leaves.length ∧
    (∃ t : ITree, t.rootIdx = 0 ∧ Spans g.nodes t ∧
      t.indices.Perm (List.range g.nodes.length)) := by
  have hInv := GInv_reachable _ _ hreach
    (GInv_init _ _ _ _ _ _ _ _ _ _ _ _ _ hinit)
  refine ⟨?_, hInv.nnodes_eq, ?_, hInv.span⟩
  · intro i hi
    rcases hInv.states i hi with h | h | h
    · exact Or.inl h
    · exact Or.inr h
    · rw [hdone] at h
      exact absurd h (List.not_mem_nil i)
  · have := hInv.count
    rw [hdone] at this
    rw [hInv.nnodes_eq]
    simpa using this

/-- C10 witness: the completed-state shape on the grown budget-3 fixture:
5 nodes, 3 leaves. -/
theorem C10_full_binary_tree_witness :
    TreeGrower.init exFeatures [1, 1, 1, 1] [1, 1, 1, 1] exOracle
      exSplitIndices (some 3) none 0 256 0 (1 / 1000) 1 = .ok exG0C1b ∧
    exGrownC1b.splittable_nodes = [] ∧
    ((∀ i, i < exGrownC1b.nodes.length →
      IsLeafNode (exGrownC1b.nodes.getD i default) ∨
      IsInternalNode (exGrownC1b.nodes.getD i default)) ∧
    exGrownC1b.n_nodes = exGrownC1b.nodes.length ∧
    exGrownC1b.n_nodes + 1 = 2 * exGrownC1b.finalized_leaves.length ∧
    (∃ t : ITree, t.rootIdx = 0 ∧ Spans exGrownC1b.nodes t ∧
      t.indices.Perm (List.range exGrownC1b.nodes.length))) :=
  ⟨rfl, rfl,
    C10_full_binary_tree exFeatures [1, 1, 1, 1] [1, 1, 1, 1] exOracle
      exSplitIndices (some 3) none 0 256 0 (1 / 1000) 1 exG0C1b exGrownC1b
      rfl (reachable_of_growAux 10 exG0C1b exGrownC1b rfl) rfl⟩

end Pygbm
